import Mathlib

/-!
# Verification of a byte-level diff/patch engine

Shallow embedding of a Myers-diff based binary diff/patch tool:

* `diff.py` — the linear-space Myers diff (`MyersLinear`) producing
  `Insert`/`Delete`/`Change` operations, and `patch`, which replays an
  operation list against the original byte sequence.
* `binary_io.py` — the binary wire codec (`encode_ops`, the record-walking
  loop of `load_ops_from_file`) and the structural validator
  (`verify_diff_file`).

Byte sequences are modelled as `List Nat` (each element a byte value);
Python integers are `Nat` where the source guarantees non-negativity and
`Int` where signed arithmetic occurs (the Myers search coordinates).
Python functions that can raise are modelled with `Option`/error flags.
Loops whose bound is data-dependent are modelled with explicit fuel,
always called with sufficient fuel, so that every definition computes.
-/

/-! ## Data model: diff operations (`diff.py`) -/

/-- The tagged union of diff operations: `Insert`/`Delete`/`Change`
dataclasses of `diff.py`.  Payloads are byte lists; `position` is an
offset into the source sequence. -/
inductive DiffOp : Type where
  | Insert (position : Nat) (payload : List Nat)
  | Delete (position : Nat) (length : Nat)
  | Change (position : Nat) (payload : List Nat)
  deriving DecidableEq, Repr

/-- `op.position` field access, common to the three dataclasses. -/
def DiffOp.position : DiffOp → Nat
  | .Insert p _ => p
  | .Delete p _ => p
  | .Change p _ => p

/-- `es_len`: length of the edit script represented by one operation
(`diff.py`, the `es_len` properties). -/
def DiffOp.es_len : DiffOp → Nat
  | .Insert _ payload => payload.length
  | .Delete _ length => length
  | .Change _ payload => 2 * payload.length

/-! ## Binary codec (`binary_io.py`) -/

/-- `MAGIC_HEADER = b"MYDIFF"` as byte values. -/
def MAGIC_HEADER : List Nat := [77, 89, 68, 73, 70, 70]

/-- `HASH_SIZE = 32`. -/
def HASH_SIZE : Nat := 32

/-- Big-endian encoding of `n` into `w` bytes (the `Q` fields of
`struct.pack("!BQQ", ...)` use `w = 8`). -/
def beBytes : Nat → Nat → List Nat
  | _, 0 => []
  | n, w + 1 => beBytes (n / 256) w ++ [n % 256]

/-- Big-endian value of a byte list (what `struct.unpack` recovers). -/
def beVal (l : List Nat) : Nat := l.foldl (fun a b => a * 256 + b) 0

/-- One operation record: opcode byte, 8-byte big-endian position,
8-byte big-endian length, then the payload (absent for `Delete`).
This is the body of the `for op in operations` loop of `encode_ops`. -/
def encodeOp : DiffOp → List Nat
  | .Insert pos payload => 1 :: (beBytes pos 8 ++ beBytes payload.length 8 ++ payload)
  | .Delete pos length => 2 :: (beBytes pos 8 ++ beBytes length 8)
  | .Change pos payload => 3 :: (beBytes pos 8 ++ beBytes payload.length 8 ++ payload)

/-- `encode_ops`: concatenation of the records of all operations. -/
def encode_ops (operations : List DiffOp) : List Nat :=
  (operations.map encodeOp).flatten

/-- An operation `struct.pack("!BQQ", ...)` accepts: position and length
fit in an unsigned 64-bit integer. -/
def validOp : DiffOp → Bool
  | .Insert pos payload => pos < 2 ^ 64 && payload.length < 2 ^ 64
  | .Delete pos length => pos < 2 ^ 64 && length < 2 ^ 64
  | .Change pos payload => pos < 2 ^ 64 && payload.length < 2 ^ 64

/-- The record-walking loop of `load_ops_from_file`, on the bytes that
follow the 38-byte file prefix.  Returns the operations yielded and a
flag that is `true` exactly when the loop raises (`struct.unpack` on a
non-empty chunk shorter than 17 bytes).  `List.take length` models
`f.read(length)`, which returns at most the bytes remaining before
end-of-file.  A record whose opcode is none of 1, 2, 3 matches no
branch: nothing is yielded and reading resumes right after its header.
`fuel` bounds the iteration count; each iteration consumes at least 17
bytes, so `fuel = l.length` always suffices. -/
def decodeLoop : Nat → List Nat → List DiffOp × Bool
  | 0, _ => ([], false)
  | _ + 1, [] => ([], false)
  | fuel + 1, l@(code :: _) =>
    if l.length < 17 then ([], true)
    else
      let pos := beVal ((l.drop 1).take 8)
      let length := beVal ((l.drop 9).take 8)
      let rest := l.drop 17
      if code = 1 then
        let r := decodeLoop fuel (rest.drop length)
        (DiffOp.Insert pos (rest.take length) :: r.1, r.2)
      else if code = 2 then
        let r := decodeLoop fuel rest
        (DiffOp.Delete pos length :: r.1, r.2)
      else if code = 3 then
        let r := decodeLoop fuel (rest.drop length)
        (DiffOp.Change pos (rest.take length) :: r.1, r.2)
      else decodeLoop fuel rest

/-- `load_ops_from_file` restricted to the record stream (the file after
`f.seek(len(MAGIC_HEADER) + HASH_SIZE)`). -/
def decodeOps (l : List Nat) : List DiffOp × Bool :=
  decodeLoop l.length l

/-- `load_ops_from_file` on a whole diff file: skip the 38-byte prefix,
then walk records. -/
def load_ops_from_file (file : List Nat) : List DiffOp × Bool :=
  decodeOps (file.drop (MAGIC_HEADER.length + HASH_SIZE))

/-! ## Patch (`diff.py`, `patch`) -/

/-- The loop of `patch`: `cursor` counts source bytes consumed so far.
An operation whose `position` is behind the cursor raises `ValueError`
(modelled `none`).  Otherwise the gap `original[cursor:op.position]` is
copied verbatim — Python slicing clamps to the available bytes, as do
`List.drop`/`List.take` — and the op's effect is appended.  After the
last op, `original[cursor:]` is copied. -/
def patchLoop (original : List Nat) : Nat → List DiffOp → Option (List Nat)
  | cursor, [] => some (original.drop cursor)
  | cursor, op :: rest =>
    if op.position < cursor then none
    else
      let gap := (original.drop cursor).take (op.position - cursor)
      match op with
      | .Insert _ payload =>
        (patchLoop original op.position rest).map (fun t => gap ++ payload ++ t)
      | .Delete _ length =>
        (patchLoop original (op.position + length) rest).map (fun t => gap ++ t)
      | .Change _ payload =>
        (patchLoop original (op.position + payload.length) rest).map
          (fun t => gap ++ payload ++ t)

/-- `patch(original, operations)`: `none` models the `ValueError` raised
on overlapping/unsorted operations. -/
def patch (original : List Nat) (operations : List DiffOp) : Option (List Nat) :=
  patchLoop original 0 operations

/-- The cursor value `patch` holds after processing one operation that
passed the overlap check: the cursor first advances to `op.position`,
then by the op's consumed-source span. -/
def cursorStep (cursor : Nat) : DiffOp → Nat
  | .Insert p _ => max cursor p
  | .Delete p length => max cursor p + length
  | .Change p payload => max cursor p + payload.length

/-- The cursor accumulated by the first `i` operations of the list,
starting from `cursor`. -/
def cursorAfter (cursor : Nat) : List DiffOp → Nat → Nat
  | _, 0 => cursor
  | [], _ + 1 => cursor
  | op :: rest, i + 1 => cursorAfter (cursorStep cursor op) rest i

/-! ## Structural validation (`binary_io.py`, `verify_diff_file`) -/

/-- The record-walking loop of `verify_diff_file`, on the bytes that
follow the 38-byte prefix.  At each step: stop successfully at
end-of-file; fail on a header shorter than 17 bytes; fail on an opcode
other than 1/2/3; for `Insert`/`Change` fail when the declared payload
length exceeds the bytes remaining after the header
(`f.tell() + length > file_size`), otherwise seek past the payload.
Each iteration consumes at least 17 bytes, so `fuel = l.length`
suffices. -/
def verifyLoop : Nat → List Nat → Bool
  | 0, _ => true
  | _ + 1, [] => true
  | fuel + 1, l@(code :: _) =>
    if l.length < 17 then false
    else
      let length := beVal ((l.drop 9).take 8)
      if code = 1 ∨ code = 3 then
        if l.length - 17 < length then false
        else verifyLoop fuel (l.drop (17 + length))
      else if code = 2 then verifyLoop fuel (l.drop 17)
      else false

/-- `verify_diff_file` on a whole in-memory file: the first 6 bytes must
equal the magic literal; a file shorter than the 38-byte prefix makes
the first `f.read(17)` after `f.seek(38)` return fewer than 17 bytes at
a position different from the file size, which fails; otherwise walk
the records after the prefix. -/
def verify_diff_file (file : List Nat) : Bool :=
  if file.take MAGIC_HEADER.length ≠ MAGIC_HEADER then false
  else if file.length < MAGIC_HEADER.length + HASH_SIZE then false
  else verifyLoop (file.drop (MAGIC_HEADER.length + HASH_SIZE)).length
    (file.drop (MAGIC_HEADER.length + HASH_SIZE))

/-! ## The Myers linear-space search (`diff.py`, `MyersLinear`)

Search coordinates are signed (`Int`), as in Python.  The frontier
arrays `vf`/`vb` are Python lists indexed by diagonal number with
negative-index wrap-around; since the used diagonals `-maximum ≤ k ≤
maximum` hit distinct cells, they are modelled as total functions
`Int → Int` keyed by the diagonal.  Unwritten cells hold `None` in
Python and are never read by the guarded accesses (the parity of the
diagonals read at depth `d` matches the parity written at depth `d-1`);
the model gives them the arbitrary value `0`. -/

/-- A segment of the edit graph (`Box` dataclass). -/
structure Box : Type where
  left : Int
  top : Int
  right : Int
  bottom : Int
  deriving DecidableEq, Repr

def Box.width (b : Box) : Int := b.right - b.left

def Box.height (b : Box) : Int := b.bottom - b.top

def Box.size (b : Box) : Int := b.width + b.height

def Box.delta (b : Box) : Int := b.width - b.height

/-- `A[i]` for an in-range index, an impossible byte value otherwise
(out-of-range reads would raise or wrap in Python; they are guarded by
the loop conditions and never occur on real traces). -/
def byteAt (l : List Nat) (i : Int) : Int :=
  if 0 ≤ i ∧ i < (l.length : Int) then (l.getD i.toNat 0 : Nat) else -1

/-- `B[a:b]` for `0 ≤ a ≤ len` (Python slicing clamps the upper bound,
as does `List.take`). -/
def pySlice (l : List Nat) (a b : Int) : List Nat :=
  (l.drop a.toNat).take (b.toNat - a.toNat)

/-- The `while x < box.right and y < box.bottom and self.A[x] == self.B[y]`
diagonal walk of `_forward`; each step increases `x`, so fuel
`(right - x).toNat` is exact. -/
def walkFwd (A B : List Nat) (right bottom : Int) : Nat → Int → Int → Int × Int
  | 0, x, y => (x, y)
  | fuel + 1, x, y =>
    if x < right ∧ y < bottom ∧ byteAt A x = byteAt B y then
      walkFwd A B right bottom fuel (x + 1) (y + 1)
    else (x, y)

/-- The `while x > box.left and y > box.top and self.A[x-1] == self.B[y-1]`
diagonal walk of `_backward`; each step decreases `y`, so fuel
`(y - top).toNat` is exact. -/
def walkBwd (A B : List Nat) (left top : Int) : Nat → Int → Int → Int × Int
  | 0, x, y => (x, y)
  | fuel + 1, x, y =>
    if x > left ∧ y > top ∧ byteAt A (x - 1) = byteAt B (y - 1) then
      walkBwd A B left top fuel (x - 1) (y - 1)
    else (x, y)

/-- A midpoint snake: the `(start, finish)` points returned by
`_forward`/`_backward`. -/
abbrev Snake : Type := (Int × Int) × (Int × Int)

/-- The `for k in range(-d, d+1, 2)` body of `_forward`.  Threads the
mutable `vf` array; an early `return` stops the iteration and reports
the snake.  `k == -d or (k != d and vf[k-1] < vf[k+1])` chooses between
extending from the diagonal above or from the left; the trailing test
is the odd-delta overlap check `c in range(-(d-1), d) and y >= vb[c]`. -/
def forwardGo (A B : List Nat) (box : Box) (vb : Int → Int) (d : Int) :
    (Int → Int) → List Int → ((Int → Int) × Option Snake)
  | vf, [] => (vf, none)
  | vf, k :: ks =>
    let c := k - box.delta
    let px := if k = -d ∨ (k ≠ d ∧ vf (k - 1) < vf (k + 1)) then vf (k + 1) else vf (k - 1)
    let x0 := if k = -d ∨ (k ≠ d ∧ vf (k - 1) < vf (k + 1)) then px else px + 1
    let y0 := box.top + (x0 - box.left) - k
    let py := if d = 0 ∨ x0 ≠ px then y0 else y0 - 1
    let w := walkFwd A B box.right box.bottom (box.right - x0).toNat x0 y0
    let vf' := fun j => if j = k then w.1 else vf j
    if box.delta % 2 = 1 ∧ (-(d - 1) ≤ c ∧ c < d) ∧ w.2 ≥ vb c then
      (vf', some ((px, py), (w.1, w.2)))
    else forwardGo A B box vb d vf' ks

/-- The `for c in range(-d, d+1, 2)` body of `_backward`, mirror image
of `forwardGo`; the trailing test is the even-delta overlap check
`k in range(-d, d+1) and x <= vf[k]`. -/
def backwardGo (A B : List Nat) (box : Box) (vf : Int → Int) (d : Int) :
    (Int → Int) → List Int → ((Int → Int) × Option Snake)
  | vb, [] => (vb, none)
  | vb, c :: cs =>
    let k := c + box.delta
    let py := if c = -d ∨ (c ≠ d ∧ vb (c - 1) > vb (c + 1)) then vb (c + 1) else vb (c - 1)
    let y0 := if c = -d ∨ (c ≠ d ∧ vb (c - 1) > vb (c + 1)) then py else py - 1
    let x0 := box.left + (y0 - box.top) + k
    let px := if d = 0 ∨ y0 ≠ py then x0 else x0 + 1
    let w := walkBwd A B box.left box.top (y0 - box.top).toNat x0 y0
    let vb' := fun j => if j = c then w.2 else vb j
    if box.delta % 2 = 0 ∧ (-d ≤ k ∧ k < d + 1) ∧ w.1 ≤ vf k then
      (vb', some ((w.1, w.2), (px, py)))
    else backwardGo A B box vf d vb' cs

/-- The diagonals `range(-d, d+1, 2)` iterated at depth `d`. -/
def ksList (d : Nat) : List Int :=
  (List.range (d + 1)).map (fun i => -(d : Int) + 2 * i)

/-- The `for d in range(0, maximum + 1)` loop of `_midpoint`: run the
forward pass, then the backward pass (which sees the forward pass's
array updates); the first overlap found is returned together with the
direction flag.  The fuel is exactly the number of remaining `d`
values, so exhausting it is Python's falling off the loop (`None`). -/
def midLoop (A B : List Nat) (box : Box) :
    Nat → Nat → (Int → Int) → (Int → Int) → Option (Snake × Bool)
  | 0, _, _, _ => none
  | fuel + 1, d, vf, vb =>
    let f := forwardGo A B box vb d vf (ksList d)
    match f.2 with
    | some snake => some (snake, true)
    | none =>
      let b := backwardGo A B box f.1 d vb (ksList d)
      match b.2 with
      | some snake => some (snake, false)
      | none => midLoop A B box fuel (d + 1) f.1 b.1

/-- `_midpoint`: `None` on a zero-size box, otherwise search depths
`0 .. maximum` where `maximum = math.ceil(box.size / 2)` (`Int.ediv
(size + 1) 2` is that ceiling for every sign of `size`).  `vf[1]` is
seeded with `box.left` and `vb[1]` with `box.bottom`. -/
def midpointOf (A B : List Nat) (box : Box) : Option (Snake × Bool) :=
  if box.size = 0 then none
  else
    let maximum := Int.ediv (box.size + 1) 2
    midLoop A B box (maximum + 1).toNat 0
      (fun k => if k = 1 then box.left else 0)
      (fun k => if k = 1 then box.bottom else 0)

/-- `_find_path`, with fuel for the data-dependent recursion depth
(each recursive call is on a strictly smaller box on every terminating
Python trace, so fuel `len(A) + len(B) + 1` suffices).  Degenerate
boxes emit one whole-span `Insert`/`Delete`; otherwise the pre-snake
sub-box is resolved, the single non-diagonal step of the snake is
emitted (at the end nearer the discovering frontier), and the
post-snake sub-box is resolved. -/
def findPath (A B : List Nat) : Nat → Int → Int → Int → Int → List DiffOp
  | 0, _, _, _, _ => []
  | fuel + 1, left, top, right, bottom =>
    let box : Box := ⟨left, top, right, bottom⟩
    match midpointOf A B box with
    | none => []
    | some (snake, isFwd) =>
      let start := snake.1
      let finish := snake.2
      if box.width = 0 then
        if box.height > 0 then [.Insert box.left.toNat (pySlice B box.top box.bottom)]
        else []
      else if box.height = 0 then
        if box.width > 0 then [.Delete box.left.toNat (box.right - box.left).toNat]
        else []
      else
        let dx := finish.1 - start.1
        let dy := finish.2 - start.2
        let mid : List DiffOp :=
          if dy > dx then
            if isFwd then [.Insert start.1.toNat (pySlice B start.2 (start.2 + 1))]
            else [.Insert finish.1.toNat (pySlice B (finish.2 - 1) finish.2)]
          else if dx > dy then
            if isFwd then [.Delete start.1.toNat 1]
            else [.Delete (finish.1 - 1).toNat 1]
          else []
        findPath A B fuel left top start.1 start.2 ++ mid ++
          findPath A B fuel finish.1 finish.2 right bottom

/-- The accumulation loop of `_merge`: `curr` is the operation being
grown; adjacent `Insert`s at the identical position concatenate their
payloads, adjacent contiguous `Delete`s sum their lengths. -/
def mergeGo : DiffOp → List DiffOp → List DiffOp
  | curr, [] => [curr]
  | curr, next :: rest =>
    match curr, next with
    | .Insert p1 pay1, .Insert p2 pay2 =>
      if p1 = p2 then mergeGo (.Insert p1 (pay1 ++ pay2)) rest
      else .Insert p1 pay1 :: mergeGo (.Insert p2 pay2) rest
    | .Delete p1 l1, .Delete p2 l2 =>
      if p2 = p1 + l1 then mergeGo (.Delete p1 (l1 + l2)) rest
      else .Delete p1 l1 :: mergeGo (.Delete p2 l2) rest
    | c, n => c :: mergeGo n rest

/-- `_merge`: the empty list is left unchanged. -/
def merge : List DiffOp → List DiffOp
  | [] => []
  | op :: rest => mergeGo op rest

/-- `_consolidate`: a `Delete` immediately followed by an `Insert` at
the same position becomes a `Change` over the common prefix length,
with the remainder re-emitted as a trailing `Delete` or `Insert` at the
advanced position; both consumed ops are skipped (`i += 2`). -/
def consolidateGo : DiffOp → List DiffOp → List DiffOp
  | op, [] => [op]
  | op, next :: rest =>
    match op, next with
    | .Delete p1 del_len, .Insert p2 payload =>
      if p1 = p2 then
        let common := min del_len payload.length
        DiffOp.Change p1 (payload.take common) ::
          ((if del_len > common then
              [DiffOp.Delete (p1 + common) (del_len - common)]
            else if payload.length > common then
              [DiffOp.Insert (p1 + common) (payload.drop common)]
            else []) ++
            match rest with
            | [] => []
            | r :: rs => consolidateGo r rs)
      else .Delete p1 del_len :: consolidateGo (.Insert p2 payload) rest
    | o, _ => o :: consolidateGo next rest

/-- `_consolidate` driver over the merged list. -/
def consolidate : List DiffOp → List DiffOp
  | [] => []
  | op :: rest => consolidateGo op rest

namespace MyersLinear

/-- `MyersLinear(A, B).diff()`: find the raw path, then merge, then
consolidate. -/
def diff (A B : List Nat) : List DiffOp :=
  consolidate (merge (findPath A B (A.length + B.length + 1) 0 0 A.length B.length))

/-- `MyersLinear(A, B).ses()`: total `es_len` over the diff. -/
def ses (A B : List Nat) : Nat :=
  ((diff A B).map DiffOp.es_len).sum

end MyersLinear

/-! ## Edit-graph path semantics

Specification-side semantics for the Myers search: a forward path moves
right (delete one source byte), down (insert one target byte) or along
a matching diagonal; the diagonal guards are exactly those of the
forward walk (`x < right ∧ y < bottom ∧ byteAt A x = byteAt B y`).  A
backward path mirrors this with the guards of the backward walk.  The
spec-side edit distance of a box is the least number of non-diagonal
moves on a forward path from its top-left to its bottom-right corner. -/

/-- Forward path segments: `FSeg A B box p d q` means `q` is reachable
from `p` with exactly `d` non-diagonal moves, sliding along matching
diagonals under the forward-walk guards. -/
inductive FSeg (A B : List Nat) (box : Box) : Int × Int → Nat → Int × Int → Prop where
  | refl (p : Int × Int) : FSeg A B box p 0 p
  | right (p : Int × Int) (d : Nat) (x y : Int) :
      FSeg A B box p d (x, y) → FSeg A B box p (d + 1) (x + 1, y)
  | down (p : Int × Int) (d : Nat) (x y : Int) :
      FSeg A B box p d (x, y) → FSeg A B box p (d + 1) (x, y + 1)
  | diag (p : Int × Int) (d : Nat) (x y : Int) :
      FSeg A B box p d (x, y) → x < box.right → y < box.bottom →
      byteAt A x = byteAt B y → FSeg A B box p d (x + 1, y + 1)

/-- Backward path segments, with the backward-walk guards
(`x > left ∧ y > top ∧ byteAt A (x-1) = byteAt B (y-1)`). -/
inductive BSeg (A B : List Nat) (box : Box) : Int × Int → Nat → Int × Int → Prop where
  | refl (p : Int × Int) : BSeg A B box p 0 p
  | left (p : Int × Int) (d : Nat) (x y : Int) :
      BSeg A B box p d (x, y) → BSeg A B box p (d + 1) (x - 1, y)
  | up (p : Int × Int) (d : Nat) (x y : Int) :
      BSeg A B box p d (x, y) → BSeg A B box p (d + 1) (x, y - 1)
  | diag (p : Int × Int) (d : Nat) (x y : Int) :
      BSeg A B box p d (x, y) → x > box.left → y > box.top →
      byteAt A (x - 1) = byteAt B (y - 1) → BSeg A B box p d (x - 1, y - 1)

/-- Corner-to-corner connectivity with `d` non-diagonal moves. -/
def Conn (A B : List Nat) (box : Box) (d : Nat) : Prop :=
  FSeg A B box (box.left, box.top) d (box.right, box.bottom)

/-- The `y` coordinate of a point on forward diagonal `k` with abscissa
`x` (`y = top + (x - left) - k`, as computed throughout `_forward`). -/
def yOf (box : Box) (k x : Int) : Int := box.top + (x - box.left) - k

/-- The `x` coordinate of a point on backward diagonal `c` with
ordinate `y` (`x = left + (y - top) + (c + delta)`, as computed
throughout `_backward`). -/
def xOf (box : Box) (c y : Int) : Int := box.left + (y - box.top) + (c + box.delta)

/-- The stored forward frontier invariant: cell `k` holds the abscissa
of the furthest point on diagonal `k` reachable from the top-left
corner with exactly `d` non-diagonal moves. -/
def IsFw (A B : List Nat) (box : Box) (d : Nat) (k x : Int) : Prop :=
  FSeg A B box (box.left, box.top) d (x, yOf box k x) ∧
  ∀ x', FSeg A B box (box.left, box.top) d (x', yOf box k x') → x' ≤ x

/-- The stored backward frontier invariant: cell `c` holds the ordinate
of the furthest point on backward diagonal `c` from which the
bottom-right corner is reachable with exactly `d` non-diagonal moves. -/
def IsBw (A B : List Nat) (box : Box) (d : Nat) (c y : Int) : Prop :=
  BSeg A B box (box.right, box.bottom) d (xOf box c y, y) ∧
  ∀ y', BSeg A B box (box.right, box.bottom) d (xOf box c y', y') → y ≤ y'

/-- The diagonals `[start, start + 2, ...]` of one scan round, as a
recursive sequence (`ksList d = ksSeq (-d) (d + 1)`). -/
def ksSeq (start : Int) : Nat → List Int
  | 0 => []
  | n + 1 => start :: ksSeq (start + 2) n

/-- Everything true of a snake returned by the forward pass at depth
`d`: the scan window facts, the overlap condition against the backward
frontier, the decomposition into a `(d-1)`-segment, one non-diagonal
step and a maximal diagonal walk, and the frontier property of the walk
endpoint. -/
def FwdFireData (A B : List Nat) (box : Box) (vb : Int → Int) (d : Nat)
    (s : Snake) : Prop :=
  ∃ k px py x0 y0 x' y' : Int,
    s = ((px, py), (x', y')) ∧
    -(d : Int) ≤ k ∧ k ≤ (d : Int) ∧ (k - (d : Int)) % 2 = 0 ∧ 1 ≤ d ∧
    box.delta % 2 = 1 ∧ -((d : Int) - 1) ≤ k - box.delta ∧ k - box.delta < (d : Int) ∧
    vb (k - box.delta) ≤ y' ∧
    FSeg A B box (box.left, box.top) (d - 1) (px, py) ∧
    ((x0 = px ∧ y0 = py + 1) ∨ (x0 = px + 1 ∧ y0 = py)) ∧
    y0 = yOf box k x0 ∧
    FSeg A B box (x0, y0) 0 (x', y') ∧
    x' - x0 = y' - y0 ∧ x0 ≤ x' ∧
    ¬(x' < box.right ∧ y' < box.bottom ∧ byteAt A x' = byteAt B y') ∧
    IsFw A B box d k x'

/-- A forward pass at depth `d` that returned no snake: on every
checked diagonal the overlap condition failed. -/
def FwdNoFire (box : Box) (vb : Int → Int) (d : Nat) (vf : Int → Int) : Prop :=
  ∀ k : Int, -(d : Int) ≤ k → k ≤ (d : Int) → (k - (d : Int)) % 2 = 0 →
    box.delta % 2 = 1 → -((d : Int) - 1) ≤ k - box.delta → k - box.delta < (d : Int) →
    yOf box k (vf k) < vb (k - box.delta)

/-- Everything true of a snake returned by the backward pass at depth
`d`, mirror image of `FwdFireData` (at depth 0 there is no preceding
step: the snake starts at the bottom-right corner itself). -/
def BwdFireData (A B : List Nat) (box : Box) (vf : Int → Int) (d : Nat)
    (s : Snake) : Prop :=
  ∃ c px py x0 y0 x' y' : Int, ∃ dpre : Nat,
    s = ((x', y'), (px, py)) ∧
    -(d : Int) ≤ c ∧ c ≤ (d : Int) ∧ (c - (d : Int)) % 2 = 0 ∧
    box.delta % 2 = 0 ∧ -(d : Int) ≤ c + box.delta ∧ c + box.delta ≤ (d : Int) ∧
    x' ≤ vf (c + box.delta) ∧
    BSeg A B box (box.right, box.bottom) dpre (px, py) ∧
    ((d = 0 ∧ dpre = 0 ∧ x0 = px ∧ y0 = py) ∨
      (1 ≤ d ∧ dpre = d - 1 ∧
        ((x0 = px - 1 ∧ y0 = py) ∨ (x0 = px ∧ y0 = py - 1)))) ∧
    x0 = xOf box c y0 ∧
    BSeg A B box (x0, y0) 0 (x', y') ∧
    x0 - x' = y0 - y' ∧ y' ≤ y0 ∧
    ¬(box.left < x' ∧ box.top < y' ∧ byteAt A (x' - 1) = byteAt B (y' - 1)) ∧
    IsBw A B box d c y'

/-- A backward pass at depth `d` that returned no snake: on every
checked diagonal the overlap condition failed. -/
def BwdNoFire (box : Box) (vf : Int → Int) (d : Nat) (vb : Int → Int) : Prop :=
  ∀ c : Int, -(d : Int) ≤ c → c ≤ (d : Int) → (c - (d : Int)) % 2 = 0 →
    box.delta % 2 = 0 → -(d : Int) ≤ c + box.delta → c + box.delta ≤ (d : Int) →
    vf (c + box.delta) < xOf box c (vb c)

/-- Intrinsic statement that the forward check at depth `d` finds no
overlap: every forward `d`-reach on a checked diagonal lies strictly
above every backward `(d-1)`-reach on the corresponding backward
diagonal. -/
def NoOverF (A B : List Nat) (box : Box) (d : Nat) : Prop :=
  ∀ k x y : Int, -(d : Int) ≤ k → k ≤ (d : Int) → (k - (d : Int)) % 2 = 0 →
    box.delta % 2 = 1 → -((d : Int) - 1) ≤ k - box.delta → k - box.delta < (d : Int) →
    FSeg A B box (box.left, box.top) d (x, yOf box k x) →
    BSeg A B box (box.right, box.bottom) (d - 1) (xOf box (k - box.delta) y, y) →
    yOf box k x < y

/-- Intrinsic statement that the backward check at depth `d` finds no
overlap, mirror image of `NoOverF` (both frontiers at depth `d`, since
the forward pass of the round has already run). -/
def NoOverB (A B : List Nat) (box : Box) (d : Nat) : Prop :=
  ∀ c x y : Int, -(d : Int) ≤ c → c ≤ (d : Int) → (c - (d : Int)) % 2 = 0 →
    box.delta % 2 = 0 → -(d : Int) ≤ c + box.delta → c + box.delta ≤ (d : Int) →
    BSeg A B box (box.right, box.bottom) d (xOf box c y, y) →
    FSeg A B box (box.left, box.top) d (x, yOf box (c + box.delta) x) →
    x < xOf box c y

/-- `FwdFireData` with the frontier array replaced by its intrinsic
meaning: some backward `(d-1)`-reach witnesses the overlap. -/
def FwdFire (A B : List Nat) (box : Box) (d : Nat) (s : Snake) : Prop :=
  ∃ k px py x0 y0 x' y' : Int,
    s = ((px, py), (x', y')) ∧
    -(d : Int) ≤ k ∧ k ≤ (d : Int) ∧ (k - (d : Int)) % 2 = 0 ∧ 1 ≤ d ∧
    box.delta % 2 = 1 ∧ -((d : Int) - 1) ≤ k - box.delta ∧ k - box.delta < (d : Int) ∧
    (∃ v : Int, IsBw A B box (d - 1) (k - box.delta) v ∧ v ≤ y') ∧
    FSeg A B box (box.left, box.top) (d - 1) (px, py) ∧
    ((x0 = px ∧ y0 = py + 1) ∨ (x0 = px + 1 ∧ y0 = py)) ∧
    y0 = yOf box k x0 ∧
    FSeg A B box (x0, y0) 0 (x', y') ∧
    x' - x0 = y' - y0 ∧ x0 ≤ x' ∧
    ¬(x' < box.right ∧ y' < box.bottom ∧ byteAt A x' = byteAt B y') ∧
    IsFw A B box d k x'

/-- `BwdFireData` with the frontier array replaced by its intrinsic
meaning: some forward `d`-reach witnesses the overlap. -/
def BwdFire (A B : List Nat) (box : Box) (d : Nat) (s : Snake) : Prop :=
  ∃ c px py x0 y0 x' y' : Int, ∃ dpre : Nat,
    s = ((x', y'), (px, py)) ∧
    -(d : Int) ≤ c ∧ c ≤ (d : Int) ∧ (c - (d : Int)) % 2 = 0 ∧
    box.delta % 2 = 0 ∧ -(d : Int) ≤ c + box.delta ∧ c + box.delta ≤ (d : Int) ∧
    (∃ u : Int, IsFw A B box d (c + box.delta) u ∧ x' ≤ u) ∧
    BSeg A B box (box.right, box.bottom) dpre (px, py) ∧
    ((d = 0 ∧ dpre = 0 ∧ x0 = px ∧ y0 = py) ∨
      (1 ≤ d ∧ dpre = d - 1 ∧
        ((x0 = px - 1 ∧ y0 = py) ∨ (x0 = px ∧ y0 = py - 1)))) ∧
    x0 = xOf box c y0 ∧
    BSeg A B box (x0, y0) 0 (x', y') ∧
    x0 - x' = y0 - y' ∧ y' ≤ y0 ∧
    ¬(box.left < x' ∧ box.top < y' ∧ byteAt A (x' - 1) = byteAt B (y' - 1)) ∧
    IsBw A B box d c y'

/-! ## Lemmas about the binary codec -/

theorem beBytes_length (n w : Nat) : (beBytes n w).length = w := by
  induction w generalizing n with
  | zero => rfl
  | succ w ih => simp [beBytes, ih]

theorem beVal_append_singleton (l : List Nat) (b : Nat) :
    beVal (l ++ [b]) = beVal l * 256 + b := by
  simp [beVal, List.foldl_append]

theorem beVal_beBytes (n w : Nat) : beVal (beBytes n w) = n % 256 ^ w := by
  induction w generalizing n with
  | zero => simp [beBytes, beVal, Nat.mod_one]
  | succ w ih =>
    rw [beBytes, beVal_append_singleton, ih]
    have h : 256 ^ (w + 1) = 256 * 256 ^ w := by ring
    rw [h, Nat.mod_mul]
    ring

theorem beVal_beBytes8 (n : Nat) (h : n < 2 ^ 64) : beVal (beBytes n 8) = n := by
  rw [beVal_beBytes]
  exact Nat.mod_eq_of_lt (by norm_num at h ⊢; omega)

/-- Parsing a 17-byte header laid out as `code :: A ++ B ++ tail` with
8-byte fields `A`, `B`: the three `drop`/`take` accesses of the decoder
and validator recover exactly the fields. -/
theorem header_drop1 (code : Nat) (A B tail : List Nat) (hA : A.length = 8) :
    ((code :: (A ++ (B ++ tail))).drop 1).take 8 = A := by
  simpa using (List.take_left' hA : (A ++ (B ++ tail)).take 8 = A)

theorem header_drop9 (code : Nat) (A B tail : List Nat) (hA : A.length = 8)
    (hB : B.length = 8) :
    ((code :: (A ++ (B ++ tail))).drop 9).take 8 = B := by
  have h1 : (code :: (A ++ (B ++ tail))).drop 9 = (A ++ (B ++ tail)).drop 8 :=
    List.drop_succ_cons ..
  rw [h1, List.drop_left' hA]
  exact List.take_left' hB

theorem header_drop17 (code : Nat) (A B tail : List Nat) (hA : A.length = 8)
    (hB : B.length = 8) :
    (code :: (A ++ (B ++ tail))).drop 17 = tail := by
  have h1 : (code :: (A ++ (B ++ tail))).drop 17 = (A ++ (B ++ tail)).drop 16 :=
    List.drop_succ_cons ..
  have h2 : (A ++ (B ++ tail)).drop 16 = ((A ++ (B ++ tail)).drop 8).drop 8 := by
    rw [List.drop_drop]
  rw [h1, h2, List.drop_left' hA, List.drop_left' hB]

theorem header_length (code : Nat) (A B tail : List Nat) (hA : A.length = 8)
    (hB : B.length = 8) :
    (code :: (A ++ (B ++ tail))).length = 17 + tail.length := by
  simp [hA, hB]; omega

/-- `decodeLoop` at zero remaining input, for any fuel. -/
theorem decodeLoop_nil (fuel : Nat) : decodeLoop fuel [] = ([], false) := by
  cases fuel <;> rfl

/-- The decoder loop does not depend on the fuel once the fuel covers
the input length (each iteration consumes at least 17 bytes). -/
theorem decodeLoop_fuel :
    ∀ (f₁ : Nat) (l : List Nat) (f₂ : Nat), l.length ≤ f₁ → l.length ≤ f₂ →
      decodeLoop f₁ l = decodeLoop f₂ l := by
  intro f₁
  induction f₁ with
  | zero =>
    intro l f₂ h₁ _
    have : l = [] := List.eq_nil_of_length_eq_zero (Nat.le_zero.mp h₁)
    subst this
    rw [decodeLoop_nil, decodeLoop_nil]
  | succ f ih =>
    intro l f₂ h₁ h₂
    cases l with
    | nil => rw [decodeLoop_nil, decodeLoop_nil]
    | cons code t =>
      cases f₂ with
      | zero => simp at h₂
      | succ f₂ =>
        by_cases hshort : (code :: t).length < 17
        · simp only [decodeLoop, hshort, if_true]
        · have hr : ((code :: t).drop 17).length ≤ f := by
            simp only [List.length_drop] at *
            omega
          have hr₂ : ((code :: t).drop 17).length ≤ f₂ := by
            simp only [List.length_drop] at *
            omega
          have key : ∀ m : Nat,
              decodeLoop f (((code :: t).drop 17).drop m) =
                decodeLoop f₂ (((code :: t).drop 17).drop m) := by
            intro m
            apply ih
            · exact le_trans (by simp only [List.length_drop]; omega) hr
            · exact le_trans (by simp only [List.length_drop]; omega) hr₂
          have key0 : decodeLoop f ((code :: t).drop 17) =
              decodeLoop f₂ ((code :: t).drop 17) := ih _ f₂ hr hr₂
          simp only [decodeLoop, hshort, if_false, key, key0]

/-- Appending to the encoding of a valid operation list: the decoder
yields exactly those operations, then continues on the suffix. -/
theorem decodeLoop_encode_append :
    ∀ (ops : List DiffOp) (suffix : List Nat) (fuel : Nat),
      (∀ op ∈ ops, validOp op = true) →
      (encode_ops ops ++ suffix).length ≤ fuel →
      decodeLoop fuel (encode_ops ops ++ suffix) =
        (ops ++ (decodeOps suffix).1, (decodeOps suffix).2) := by
  intro ops
  induction ops with
  | nil =>
    intro suffix fuel _ hf
    simp only [encode_ops, List.map_nil, List.flatten_nil, List.nil_append] at *
    rw [decodeLoop_fuel fuel suffix suffix.length hf le_rfl]
    rfl
  | cons op ops ih =>
    intro suffix fuel h hv
    have hop : validOp op = true := h op (by simp)
    have hops : ∀ o ∈ ops, validOp o = true := fun o ho => h o (by simp [ho])
    cases op with
    | Insert pos payload =>
      have hpos : pos < 2 ^ 64 ∧ payload.length < 2 ^ 64 := by
        simpa [validOp] using hop
      have hA : (beBytes pos 8).length = 8 := beBytes_length ..
      have hB : (beBytes payload.length 8).length = 8 := beBytes_length ..
      have hshape : encode_ops (DiffOp.Insert pos payload :: ops) ++ suffix =
          1 :: (beBytes pos 8 ++ (beBytes payload.length 8 ++
            (payload ++ (encode_ops ops ++ suffix)))) := by
        simp [encode_ops, encodeOp, List.append_assoc]
      rw [hshape] at hv ⊢
      have hlen17 := header_length 1 (beBytes pos 8) (beBytes payload.length 8)
        (payload ++ (encode_ops ops ++ suffix)) hA hB
      obtain ⟨f, rfl⟩ : ∃ f, fuel = f + 1 := ⟨fuel - 1, by omega⟩
      have hrec : (encode_ops ops ++ suffix).length ≤ f := by
        rw [hlen17] at hv
        simp only [List.length_append] at hv ⊢
        omega
      simp only [decodeLoop]
      rw [if_neg (by omega)]
      rw [header_drop1 _ _ _ _ hA, header_drop9 _ _ _ _ hA hB,
        header_drop17 _ _ _ _ hA hB, beVal_beBytes8 pos hpos.1,
        beVal_beBytes8 _ hpos.2]
      rw [List.take_left' rfl, List.drop_left' rfl]
      rw [ih suffix f hops hrec]
      simp
    | Delete pos length =>
      have hpos : pos < 2 ^ 64 ∧ length < 2 ^ 64 := by
        simpa [validOp] using hop
      have hA : (beBytes pos 8).length = 8 := beBytes_length ..
      have hB : (beBytes length 8).length = 8 := beBytes_length ..
      have hshape : encode_ops (DiffOp.Delete pos length :: ops) ++ suffix =
          2 :: (beBytes pos 8 ++ (beBytes length 8 ++ (encode_ops ops ++ suffix))) := by
        simp [encode_ops, encodeOp, List.append_assoc]
      rw [hshape] at hv ⊢
      have hlen17 := header_length 2 (beBytes pos 8) (beBytes length 8)
        (encode_ops ops ++ suffix) hA hB
      obtain ⟨f, rfl⟩ : ∃ f, fuel = f + 1 := ⟨fuel - 1, by omega⟩
      have hrec : (encode_ops ops ++ suffix).length ≤ f := by
        rw [hlen17] at hv
        omega
      simp only [decodeLoop]
      rw [if_neg (by omega)]
      rw [header_drop1 _ _ _ _ hA, header_drop9 _ _ _ _ hA hB,
        header_drop17 _ _ _ _ hA hB, beVal_beBytes8 pos hpos.1,
        beVal_beBytes8 _ hpos.2]
      rw [ih suffix f hops hrec]
      simp
    | Change pos payload =>
      have hpos : pos < 2 ^ 64 ∧ payload.length < 2 ^ 64 := by
        simpa [validOp] using hop
      have hA : (beBytes pos 8).length = 8 := beBytes_length ..
      have hB : (beBytes payload.length 8).length = 8 := beBytes_length ..
      have hshape : encode_ops (DiffOp.Change pos payload :: ops) ++ suffix =
          3 :: (beBytes pos 8 ++ (beBytes payload.length 8 ++
            (payload ++ (encode_ops ops ++ suffix)))) := by
        simp [encode_ops, encodeOp, List.append_assoc]
      rw [hshape] at hv ⊢
      have hlen17 := header_length 3 (beBytes pos 8) (beBytes payload.length 8)
        (payload ++ (encode_ops ops ++ suffix)) hA hB
      obtain ⟨f, rfl⟩ : ∃ f, fuel = f + 1 := ⟨fuel - 1, by omega⟩
      have hrec : (encode_ops ops ++ suffix).length ≤ f := by
        rw [hlen17] at hv
        simp only [List.length_append] at hv ⊢
        omega
      simp only [decodeLoop]
      rw [if_neg (by omega)]
      rw [header_drop1 _ _ _ _ hA, header_drop9 _ _ _ _ hA hB,
        header_drop17 _ _ _ _ hA hB, beVal_beBytes8 pos hpos.1,
        beVal_beBytes8 _ hpos.2]
      rw [List.take_left' rfl, List.drop_left' rfl]
      rw [ih suffix f hops hrec]
      simp

/-- **C4**: for every operation list whose positions and lengths are
representable as unsigned 64-bit integers, decoding the byte string
produced by `encode_ops` yields exactly the same operations, in order,
with no error. -/
theorem decode_encode_roundtrip (ops : List DiffOp)
    (h : ∀ op ∈ ops, validOp op = true) :
    decodeOps (encode_ops ops) = (ops, false) := by
  have key := decodeLoop_encode_append ops [] (encode_ops ops ++ []).length h le_rfl
  simpa [decodeOps, decodeLoop_nil] using key

/-- Witness for **C4** at a concrete operation list. -/
theorem decode_encode_roundtrip_witness :
    decodeOps (encode_ops
      [DiffOp.Insert 0 [65], DiffOp.Delete 1 2, DiffOp.Change 3 [66, 67]]) =
      ([DiffOp.Insert 0 [65], DiffOp.Delete 1 2, DiffOp.Change 3 [66, 67]], false) :=
  decode_encode_roundtrip _ (by decide)

/-- **C9**: a record whose opcode byte is not 1, 2 or 3 yields no
operation and raises no error; decoding continues at the byte right
after that record's 17-byte header, so its payload bytes (if any) are
reinterpreted as subsequent records. -/
theorem decode_unknown_opcode (code : Nat) (h16 rest : List Nat)
    (h1 : code ≠ 1) (h2 : code ≠ 2) (h3 : code ≠ 3) (hlen : h16.length = 16) :
    decodeOps ((code :: h16) ++ rest) = decodeOps rest := by
  unfold decodeOps
  have hL : ((code :: h16) ++ rest).length = (rest.length + 16) + 1 := by
    simp [hlen]
    omega
  rw [hL]
  have hcons : (code :: h16) ++ rest = code :: (h16 ++ rest) := rfl
  rw [hcons]
  simp only [decodeLoop]
  rw [if_neg (by simp [hlen])]
  simp only [if_neg h1, if_neg h2, if_neg h3]
  have hdrop : (code :: (h16 ++ rest)).drop 17 = rest := by
    have : (code :: (h16 ++ rest)).drop 17 = (h16 ++ rest).drop 16 :=
      List.drop_succ_cons ..
    rw [this, List.drop_left' hlen]
  rw [hdrop]
  exact decodeLoop_fuel _ rest _ (by omega) le_rfl

/-- Witness for **C9**: an opcode-4 record followed by a valid record. -/
theorem decode_unknown_opcode_witness :
    decodeOps ((4 :: List.replicate 16 0) ++ encode_ops [DiffOp.Delete 2 3]) =
      decodeOps (encode_ops [DiffOp.Delete 2 3]) :=
  decode_unknown_opcode 4 (List.replicate 16 0) _ (by decide) (by decide) (by decide)
    (by decide)

/-- Counterexample to **C5** as stated: on a stream whose final record
has a complete 17-byte header declaring a 5-byte payload but only 2
payload bytes before end-of-file, the decoder does not stop at the
incomplete data: it silently yields `Insert 0 [42, 43]` with the short
payload, and reports no error. -/
theorem decode_truncated_payload_cex :
    decodeOps ((1 :: (beBytes 0 8 ++ beBytes 5 8)) ++ [42, 43]) =
      ([DiffOp.Insert 0 [42, 43]], false) := by decide

/-- **C5 (amended)**: on an encoded stream that ends mid-record — a
complete 17-byte `Insert`/`Change` header declaring `L` payload bytes
with strictly fewer than `L` remaining — the decoder does not report a
truncation error: it yields the final operation with the remaining
bytes as its (short) payload and terminates normally, though it never
reads past end-of-file. -/
theorem decode_truncated_payload (ops : List DiffOp) (code pos L : Nat)
    (p : List Nat) (hops : ∀ op ∈ ops, validOp op = true)
    (hcode : code = 1 ∨ code = 3) (hpos : pos < 2 ^ 64) (hL : L < 2 ^ 64)
    (hshort : p.length < L) :
    decodeOps (encode_ops ops ++ ((code :: (beBytes pos 8 ++ (beBytes L 8 ++ p))))) =
      (ops ++ [if code = 1 then DiffOp.Insert pos p else DiffOp.Change pos p],
        false) := by
  unfold decodeOps
  rw [decodeLoop_encode_append ops _ _ hops le_rfl]
  have hA : (beBytes pos 8).length = 8 := beBytes_length ..
  have hB : (beBytes L 8).length = 8 := beBytes_length ..
  have hlen17 := header_length code (beBytes pos 8) (beBytes L 8) p hA hB
  have hsuf : decodeOps (code :: (beBytes pos 8 ++ (beBytes L 8 ++ p))) =
      ([if code = 1 then DiffOp.Insert pos p else DiffOp.Change pos p], false) := by
    unfold decodeOps
    rw [hlen17]
    have hstep : 17 + p.length = (16 + p.length) + 1 := by omega
    rw [hstep]
    simp only [decodeLoop]
    rw [if_neg (by rw [hlen17]; omega)]
    rw [header_drop1 _ _ _ _ hA, header_drop9 _ _ _ _ hA hB,
      header_drop17 _ _ _ _ hA hB, beVal_beBytes8 pos hpos, beVal_beBytes8 L hL]
    have htake : p.take L = p := List.take_of_length_le (le_of_lt hshort)
    have hdrop : p.drop L = [] := List.drop_eq_nil_of_le (le_of_lt hshort)
    rcases hcode with hc | hc
    · subst hc
      rw [if_pos rfl]
      rw [htake, hdrop, decodeLoop_nil]
      simp
    · subst hc
      rw [if_neg (by decide), if_neg (by decide), if_pos rfl]
      rw [htake, hdrop, decodeLoop_nil]
      simp
  rw [hsuf]

/-- Witness for the amended **C5** at a concrete truncated stream. -/
theorem decode_truncated_payload_witness :
    decodeOps (encode_ops [DiffOp.Delete 7 1] ++
        (3 :: (beBytes 9 8 ++ (beBytes 6 8 ++ [42])))) =
      ([DiffOp.Delete 7 1, DiffOp.Change 9 [42]], false) := by
  have key := decode_truncated_payload [DiffOp.Delete 7 1] 3 9 6 [42] (by decide)
    (Or.inr rfl) (by norm_num) (by norm_num) (by decide)
  simpa using key

/-! ## Lemmas about `patch` -/

/-- If some operation's position lies strictly before the cursor that
the preceding operations accumulate, the `patch` loop raises. -/
theorem patchLoop_error (original : List Nat) :
    ∀ (ops : List DiffOp) (cursor : Nat),
      (∃ i, ∃ hi : i < ops.length,
        (ops.get ⟨i, hi⟩).position < cursorAfter cursor ops i) →
      patchLoop original cursor ops = none := by
  intro ops
  induction ops with
  | nil =>
    intro cursor h
    obtain ⟨i, hi, _⟩ := h
    simp at hi
  | cons op rest ih =>
    intro cursor h
    obtain ⟨i, hi, hlt⟩ := h
    cases op with
    | Insert p payload =>
      by_cases hbad : p < cursor
      · simp only [patchLoop, DiffOp.position]
        rw [if_pos hbad]
      · cases i with
        | zero => exact absurd hlt hbad
        | succ j =>
          have hj : j < rest.length := by simpa using hi
          have hlt' : (rest.get ⟨j, hj⟩).position <
              cursorAfter (max cursor p) rest j := hlt
          rw [Nat.max_eq_right (Nat.le_of_not_lt hbad)] at hlt'
          have hnone := ih p ⟨j, hj, hlt'⟩
          simp only [patchLoop, DiffOp.position]
          rw [if_neg hbad, hnone]
          rfl
    | Delete p length =>
      by_cases hbad : p < cursor
      · simp only [patchLoop, DiffOp.position]
        rw [if_pos hbad]
      · cases i with
        | zero => exact absurd hlt hbad
        | succ j =>
          have hj : j < rest.length := by simpa using hi
          have hlt' : (rest.get ⟨j, hj⟩).position <
              cursorAfter (max cursor p + length) rest j := hlt
          rw [Nat.max_eq_right (Nat.le_of_not_lt hbad)] at hlt'
          have hnone := ih (p + length) ⟨j, hj, hlt'⟩
          simp only [patchLoop, DiffOp.position]
          rw [if_neg hbad, hnone]
          rfl
    | Change p payload =>
      by_cases hbad : p < cursor
      · simp only [patchLoop, DiffOp.position]
        rw [if_pos hbad]
      · cases i with
        | zero => exact absurd hlt hbad
        | succ j =>
          have hj : j < rest.length := by simpa using hi
          have hlt' : (rest.get ⟨j, hj⟩).position <
              cursorAfter (max cursor p + payload.length) rest j := hlt
          rw [Nat.max_eq_right (Nat.le_of_not_lt hbad)] at hlt'
          have hnone := ih (p + payload.length) ⟨j, hj, hlt'⟩
          simp only [patchLoop, DiffOp.position]
          rw [if_neg hbad, hnone]
          rfl

/-- If every operation's position is at or past the cursor accumulated
by the preceding operations, the `patch` loop returns normally. -/
theorem patchLoop_total (original : List Nat) :
    ∀ (ops : List DiffOp) (cursor : Nat),
      (∀ i, ∀ hi : i < ops.length,
        cursorAfter cursor ops i ≤ (ops.get ⟨i, hi⟩).position) →
      (patchLoop original cursor ops).isSome = true := by
  intro ops
  induction ops with
  | nil =>
    intro cursor _
    simp [patchLoop]
  | cons op rest ih =>
    intro cursor h
    cases op with
    | Insert p payload =>
      have h0 : cursor ≤ p := h 0 (by simp)
      have hrest : ∀ j, ∀ hj : j < rest.length,
          cursorAfter (max cursor p) rest j ≤ (rest.get ⟨j, hj⟩).position :=
        fun j hj => h (j + 1) (by simpa using Nat.succ_lt_succ hj)
      rw [Nat.max_eq_right h0] at hrest
      have key := ih p hrest
      simp only [patchLoop, DiffOp.position]
      rw [if_neg (Nat.not_lt.mpr h0)]
      simpa using key
    | Delete p length =>
      have h0 : cursor ≤ p := h 0 (by simp)
      have hrest : ∀ j, ∀ hj : j < rest.length,
          cursorAfter (max cursor p + length) rest j ≤ (rest.get ⟨j, hj⟩).position :=
        fun j hj => h (j + 1) (by simpa using Nat.succ_lt_succ hj)
      rw [Nat.max_eq_right h0] at hrest
      have key := ih (p + length) hrest
      simp only [patchLoop, DiffOp.position]
      rw [if_neg (Nat.not_lt.mpr h0)]
      simpa using key
    | Change p payload =>
      have h0 : cursor ≤ p := h 0 (by simp)
      have hrest : ∀ j, ∀ hj : j < rest.length,
          cursorAfter (max cursor p + payload.length) rest j ≤
            (rest.get ⟨j, hj⟩).position :=
        fun j hj => h (j + 1) (by simpa using Nat.succ_lt_succ hj)
      rw [Nat.max_eq_right h0] at hrest
      have key := ih (p + payload.length) hrest
      simp only [patchLoop, DiffOp.position]
      rw [if_neg (Nat.not_lt.mpr h0)]
      simpa using key

/-- **C8**: given an operation list in which some op's position is
smaller than the cursor accumulated by the preceding ops, `patch`
raises `ValueError` (modelled `none`) and produces no output. -/
theorem patch_unsorted_error (original : List Nat) (ops : List DiffOp)
    (h : ∃ i, ∃ hi : i < ops.length,
      (ops.get ⟨i, hi⟩).position < cursorAfter 0 ops i) :
    patch original ops = none :=
  patchLoop_error original ops 0 h

/-- Witness for **C8**: the second op starts before the cursor left by
the first. -/
theorem patch_unsorted_error_witness :
    patch [0, 1, 2] [DiffOp.Delete 5 1, DiffOp.Insert 3 []] = none :=
  patch_unsorted_error [0, 1, 2] [DiffOp.Delete 5 1, DiffOp.Insert 3 []]
    ⟨1, by decide, by decide⟩

/-- **C10**: on a sorted, non-overlapping operation list `patch`
returns normally even when positions, delete lengths or change payloads
extend past the end of the original: the out-of-range source slices
clamp to the bytes available (`List.take`/`List.drop`, like Python
slicing), the cursor still advances by the full declared span, and no
exception is raised. -/
theorem patch_sorted_total (original : List Nat) (ops : List DiffOp)
    (h : ∀ i, ∀ hi : i < ops.length,
      cursorAfter 0 ops i ≤ (ops.get ⟨i, hi⟩).position) :
    (patch original ops).isSome = true :=
  patchLoop_total original ops 0 h

/-- Witness for **C10**: every op overshoots the 3-byte original, yet
patching returns normally. -/
theorem patch_sorted_total_witness :
    (patch [1, 2, 3] [DiffOp.Delete 1 5, DiffOp.Change 9 [7, 8]]).isSome = true :=
  patch_sorted_total [1, 2, 3] [DiffOp.Delete 1 5, DiffOp.Change 9 [7, 8]]
    (by decide)

/-! ## Lemmas about `verify_diff_file` -/

theorem verifyLoop_nil (fuel : Nat) : verifyLoop fuel [] = true := by
  cases fuel <;> rfl

/-- The validator loop does not depend on the fuel once the fuel covers
the input length (each iteration consumes at least 17 bytes). -/
theorem verifyLoop_fuel :
    ∀ (f₁ : Nat) (l : List Nat) (f₂ : Nat), l.length ≤ f₁ → l.length ≤ f₂ →
      verifyLoop f₁ l = verifyLoop f₂ l := by
  intro f₁
  induction f₁ with
  | zero =>
    intro l f₂ h₁ _
    have : l = [] := List.eq_nil_of_length_eq_zero (Nat.le_zero.mp h₁)
    subst this
    rw [verifyLoop_nil, verifyLoop_nil]
  | succ f ih =>
    intro l f₂ h₁ h₂
    cases l with
    | nil => rw [verifyLoop_nil, verifyLoop_nil]
    | cons code t =>
      cases f₂ with
      | zero => simp at h₂
      | succ f₂ =>
        by_cases hshort : (code :: t).length < 17
        · simp only [verifyLoop, hshort, if_true]
        · have key17 : verifyLoop f ((code :: t).drop 17) =
              verifyLoop f₂ ((code :: t).drop 17) := by
            apply ih
            · simp only [List.length_drop] at *
              omega
            · simp only [List.length_drop] at *
              omega
          have keyP : ∀ m : Nat, verifyLoop f ((code :: t).drop (17 + m)) =
              verifyLoop f₂ ((code :: t).drop (17 + m)) := by
            intro m
            apply ih
            · simp only [List.length_drop] at *
              omega
            · simp only [List.length_drop] at *
              omega
          simp only [verifyLoop, hshort, if_false, key17, keyP]

/-- The validator accepts each record of a valid operation list and
proceeds to whatever follows. -/
theorem verifyLoop_encode_append :
    ∀ (ops : List DiffOp) (suffix : List Nat) (fuel : Nat),
      (∀ op ∈ ops, validOp op = true) →
      (encode_ops ops ++ suffix).length ≤ fuel →
      verifyLoop fuel (encode_ops ops ++ suffix) =
        verifyLoop suffix.length suffix := by
  intro ops
  induction ops with
  | nil =>
    intro suffix fuel _ hf
    simp only [encode_ops, List.map_nil, List.flatten_nil, List.nil_append] at *
    exact verifyLoop_fuel fuel suffix suffix.length hf le_rfl
  | cons op ops ih =>
    intro suffix fuel h hv
    have hop : validOp op = true := h op (by simp)
    have hops : ∀ o ∈ ops, validOp o = true := fun o ho => h o (by simp [ho])
    cases op with
    | Insert pos payload =>
      have hpos : pos < 2 ^ 64 ∧ payload.length < 2 ^ 64 := by
        simpa [validOp] using hop
      have hA : (beBytes pos 8).length = 8 := beBytes_length ..
      have hB : (beBytes payload.length 8).length = 8 := beBytes_length ..
      have hshape : encode_ops (DiffOp.Insert pos payload :: ops) ++ suffix =
          1 :: (beBytes pos 8 ++ (beBytes payload.length 8 ++
            (payload ++ (encode_ops ops ++ suffix)))) := by
        simp [encode_ops, encodeOp, List.append_assoc]
      rw [hshape] at hv ⊢
      have hlen17 := header_length 1 (beBytes pos 8) (beBytes payload.length 8)
        (payload ++ (encode_ops ops ++ suffix)) hA hB
      obtain ⟨f, rfl⟩ : ∃ f, fuel = f + 1 := ⟨fuel - 1, by omega⟩
      have hrec : (encode_ops ops ++ suffix).length ≤ f := by
        rw [hlen17] at hv
        simp only [List.length_append] at hv ⊢
        omega
      simp only [verifyLoop]
      rw [if_neg (by omega)]
      rw [header_drop9 _ _ _ _ hA hB, beVal_beBytes8 _ hpos.2]
      rw [if_pos (by simp)]
      rw [if_neg (by rw [hlen17]; simp only [List.length_append]; omega)]
      have hdropP : (1 :: (beBytes pos 8 ++ (beBytes payload.length 8 ++
          (payload ++ (encode_ops ops ++ suffix))))).drop (17 + payload.length) =
          encode_ops ops ++ suffix := by
        rw [← List.drop_drop]
        rw [header_drop17 _ _ _ _ hA hB]
        exact List.drop_left' rfl
      rw [hdropP]
      exact ih suffix f hops hrec
    | Delete pos length =>
      have hpos : pos < 2 ^ 64 ∧ length < 2 ^ 64 := by
        simpa [validOp] using hop
      have hA : (beBytes pos 8).length = 8 := beBytes_length ..
      have hB : (beBytes length 8).length = 8 := beBytes_length ..
      have hshape : encode_ops (DiffOp.Delete pos length :: ops) ++ suffix =
          2 :: (beBytes pos 8 ++ (beBytes length 8 ++ (encode_ops ops ++ suffix))) := by
        simp [encode_ops, encodeOp, List.append_assoc]
      rw [hshape] at hv ⊢
      have hlen17 := header_length 2 (beBytes pos 8) (beBytes length 8)
        (encode_ops ops ++ suffix) hA hB
      obtain ⟨f, rfl⟩ : ∃ f, fuel = f + 1 := ⟨fuel - 1, by omega⟩
      have hrec : (encode_ops ops ++ suffix).length ≤ f := by
        rw [hlen17] at hv
        omega
      simp only [verifyLoop]
      rw [if_neg (by omega)]
      rw [if_neg (by decide)]
      rw [if_pos (by trivial)]
      rw [header_drop17 _ _ _ _ hA hB]
      exact ih suffix f hops hrec
    | Change pos payload =>
      have hpos : pos < 2 ^ 64 ∧ payload.length < 2 ^ 64 := by
        simpa [validOp] using hop
      have hA : (beBytes pos 8).length = 8 := beBytes_length ..
      have hB : (beBytes payload.length 8).length = 8 := beBytes_length ..
      have hshape : encode_ops (DiffOp.Change pos payload :: ops) ++ suffix =
          3 :: (beBytes pos 8 ++ (beBytes payload.length 8 ++
            (payload ++ (encode_ops ops ++ suffix)))) := by
        simp [encode_ops, encodeOp, List.append_assoc]
      rw [hshape] at hv ⊢
      have hlen17 := header_length 3 (beBytes pos 8) (beBytes payload.length 8)
        (payload ++ (encode_ops ops ++ suffix)) hA hB
      obtain ⟨f, rfl⟩ : ∃ f, fuel = f + 1 := ⟨fuel - 1, by omega⟩
      have hrec : (encode_ops ops ++ suffix).length ≤ f := by
        rw [hlen17] at hv
        simp only [List.length_append] at hv ⊢
        omega
      simp only [verifyLoop]
      rw [if_neg (by omega)]
      rw [header_drop9 _ _ _ _ hA hB, beVal_beBytes8 _ hpos.2]
      rw [if_pos (by simp)]
      rw [if_neg (by rw [hlen17]; simp only [List.length_append]; omega)]
      have hdropP : (3 :: (beBytes pos 8 ++ (beBytes payload.length 8 ++
          (payload ++ (encode_ops ops ++ suffix))))).drop (17 + payload.length) =
          encode_ops ops ++ suffix := by
        rw [← List.drop_drop]
        rw [header_drop17 _ _ _ _ hA hB]
        exact List.drop_left' rfl
      rw [hdropP]
      exact ih suffix f hops hrec

/-- A non-empty stream shorter than one header fails validation. -/
theorem verifyLoop_short (l : List Nat) (h0 : l ≠ []) (h17 : l.length < 17) :
    verifyLoop l.length l = false := by
  cases l with
  | nil => simp at h0
  | cons c t =>
    simp only [List.length_cons]
    simp only [verifyLoop]
    rw [if_pos (by simpa using h17)]

/-- Taking at least the header of a record keeps the header intact and
truncates the payload. -/
theorem take_header (code : Nat) (A B P : List Nat) (hA : A.length = 8)
    (hB : B.length = 8) (j : Nat) (hj : 17 ≤ j) :
    (code :: (A ++ (B ++ P))).take j = code :: (A ++ (B ++ P.take (j - 17))) := by
  obtain ⟨m, rfl⟩ : ∃ m, j = (8 + (8 + m)) + 1 := ⟨j - 17, by omega⟩
  have hm : (8 + (8 + m)) + 1 - 17 = m := by omega
  rw [hm]
  have t1 : (A ++ (B ++ P)).take (A.length + (8 + m)) = A ++ (B ++ P).take (8 + m) :=
    List.take_append _
  rw [hA] at t1
  have t2 : (B ++ P).take (B.length + m) = B ++ P.take m := List.take_append _
  rw [hB] at t2
  rw [List.take_succ_cons, t1, t2]

/-- A strict, non-empty prefix of the encoding of one valid operation
fails validation: a cut inside the 17-byte header is a truncated
header, and a cut inside the payload leaves fewer payload bytes than
the header declares. -/
theorem verifyLoop_partial (op : DiffOp) (hop : validOp op = true) (j : Nat)
    (hj0 : 0 < j) (hj : j < (encodeOp op).length) :
    verifyLoop ((encodeOp op).take j).length ((encodeOp op).take j) = false := by
  by_cases hj17 : j < 17
  · apply verifyLoop_short
    · have : ((encodeOp op).take j).length = j := by
        rw [List.length_take]
        omega
      intro hnil
      rw [hnil] at this
      simp at this
      omega
    · rw [List.length_take]
      omega
  · cases op with
    | Insert pos payload =>
      have hpos : pos < 2 ^ 64 ∧ payload.length < 2 ^ 64 := by
        simpa [validOp] using hop
      have hA : (beBytes pos 8).length = 8 := beBytes_length ..
      have hB : (beBytes payload.length 8).length = 8 := beBytes_length ..
      have hlenE := header_length 1 (beBytes pos 8) (beBytes payload.length 8)
        payload hA hB
      have hshape : encodeOp (DiffOp.Insert pos payload) =
          1 :: (beBytes pos 8 ++ (beBytes payload.length 8 ++ payload)) := rfl
      rw [hshape] at hj ⊢
      rw [hlenE] at hj
      rw [take_header 1 _ _ _ hA hB j (by omega)]
      have hplen : (payload.take (j - 17)).length = j - 17 := by
        rw [List.length_take]
        omega
      have hlenT := header_length 1 (beBytes pos 8) (beBytes payload.length 8)
        (payload.take (j - 17)) hA hB
      rw [hlenT, hplen]
      obtain ⟨m, hm⟩ : ∃ m, 17 + (j - 17) = m + 1 := ⟨16 + (j - 17), by omega⟩
      rw [hm]
      simp only [verifyLoop]
      rw [if_neg (by rw [hlenT, hplen]; omega)]
      rw [header_drop9 _ _ _ _ hA hB, beVal_beBytes8 _ hpos.2]
      rw [if_pos (by simp)]
      rw [if_pos (by rw [hlenT, hplen]; omega)]
    | Delete pos length =>
      exfalso
      have : (encodeOp (DiffOp.Delete pos length)).length = 17 := by
        simp [encodeOp, beBytes_length]
      omega
    | Change pos payload =>
      have hpos : pos < 2 ^ 64 ∧ payload.length < 2 ^ 64 := by
        simpa [validOp] using hop
      have hA : (beBytes pos 8).length = 8 := beBytes_length ..
      have hB : (beBytes payload.length 8).length = 8 := beBytes_length ..
      have hlenE := header_length 3 (beBytes pos 8) (beBytes payload.length 8)
        payload hA hB
      have hshape : encodeOp (DiffOp.Change pos payload) =
          3 :: (beBytes pos 8 ++ (beBytes payload.length 8 ++ payload)) := rfl
      rw [hshape] at hj ⊢
      rw [hlenE] at hj
      rw [take_header 3 _ _ _ hA hB j (by omega)]
      have hplen : (payload.take (j - 17)).length = j - 17 := by
        rw [List.length_take]
        omega
      have hlenT := header_length 3 (beBytes pos 8) (beBytes payload.length 8)
        (payload.take (j - 17)) hA hB
      rw [hlenT, hplen]
      obtain ⟨m, hm⟩ : ∃ m, 17 + (j - 17) = m + 1 := ⟨16 + (j - 17), by omega⟩
      rw [hm]
      simp only [verifyLoop]
      rw [if_neg (by rw [hlenT, hplen]; omega)]
      rw [header_drop9 _ _ _ _ hA hB, beVal_beBytes8 _ hpos.2]
      rw [if_pos (by simp)]
      rw [if_pos (by rw [hlenT, hplen]; omega)]

theorem encode_ops_append (xs ys : List DiffOp) :
    encode_ops (xs ++ ys) = encode_ops xs ++ encode_ops ys := by
  simp [encode_ops]

theorem encode_ops_cons (x : DiffOp) (xs : List DiffOp) :
    encode_ops (x :: xs) = encodeOp x ++ encode_ops xs := by
  simp [encode_ops]

/-- `verify_diff_file` on a file with correct magic and a 32-byte
digest reduces to the record walk over the record bytes. -/
theorem verify_diff_file_reduce (D E : List Nat) (hD : D.length = HASH_SIZE) :
    verify_diff_file (MAGIC_HEADER ++ (D ++ E)) = verifyLoop E.length E := by
  unfold verify_diff_file
  rw [if_neg (not_not_intro (List.take_left' rfl))]
  rw [if_neg (by
    simp only [List.length_append, hD]
    simp only [MAGIC_HEADER, HASH_SIZE, List.length_cons, List.length_nil,
      Nat.not_lt]
    omega)]
  have h1 : (MAGIC_HEADER ++ (D ++ E)).drop (MAGIC_HEADER.length + HASH_SIZE) =
      (D ++ E).drop HASH_SIZE := List.drop_append HASH_SIZE
  have h2 : (D ++ E).drop HASH_SIZE = E := by
    rw [← hD]
    exact List.drop_left D E
  rw [h1, h2]

/-- An untruncated encoding of a valid operation list passes
structural validation. -/
theorem verify_encode (ops : List DiffOp) (digest : List Nat)
    (hops : ∀ op ∈ ops, validOp op = true) (hdig : digest.length = HASH_SIZE) :
    verify_diff_file (MAGIC_HEADER ++ (digest ++ encode_ops ops)) = true := by
  rw [verify_diff_file_reduce digest (encode_ops ops) hdig]
  have key := verifyLoop_encode_append ops [] (encode_ops ops ++ []).length hops le_rfl
  simpa [verifyLoop_nil] using key

/-- **C6**: a structurally valid diff file (correct magic, 32-byte
digest, records encoding 64-bit-valid operations) passes
`verify_diff_file`; truncating it at any byte boundary strictly inside
a record — inside a 17-byte header or inside a declared payload —
makes `verify_diff_file` return `false`, never silently succeed. -/
theorem verify_truncated_false (ops : List DiffOp) (digest : List Nat) (k j : Nat)
    (hops : ∀ op ∈ ops, validOp op = true) (hdig : digest.length = HASH_SIZE)
    (hk : k < ops.length) (hj0 : 0 < j)
    (hj : j < (encodeOp (ops.get ⟨k, hk⟩)).length) :
    verify_diff_file (MAGIC_HEADER ++ (digest ++ encode_ops ops)) = true ∧
    verify_diff_file ((MAGIC_HEADER ++ (digest ++ encode_ops ops)).take
      (MAGIC_HEADER.length + (HASH_SIZE +
        ((encode_ops (ops.take k)).length + j)))) = false := by
  refine ⟨verify_encode ops digest hops hdig, ?_⟩
  have hopk : ops.get ⟨k, hk⟩ ∈ ops := List.get_mem ops k hk
  have hdecomp : ops = ops.take k ++ (ops.get ⟨k, hk⟩ :: ops.drop (k + 1)) := by
    conv_lhs => rw [← List.take_append_drop k ops]
    congr 1
    rw [List.drop_eq_getElem_cons hk]
    simp
  have hE : encode_ops ops = encode_ops (ops.take k) ++
      (encodeOp (ops.get ⟨k, hk⟩) ++ encode_ops (ops.drop (k + 1))) := by
    conv_lhs => rw [hdecomp]
    rw [encode_ops_append, encode_ops_cons]
  have t1 : (MAGIC_HEADER ++ (digest ++ encode_ops ops)).take
      (MAGIC_HEADER.length + (HASH_SIZE + ((encode_ops (ops.take k)).length + j))) =
      MAGIC_HEADER ++ ((digest ++ encode_ops ops).take
        (HASH_SIZE + ((encode_ops (ops.take k)).length + j))) := List.take_append _
  have t2 : (digest ++ encode_ops ops).take
      (digest.length + ((encode_ops (ops.take k)).length + j)) =
      digest ++ (encode_ops ops).take ((encode_ops (ops.take k)).length + j) :=
    List.take_append _
  rw [hdig] at t2
  rw [t1, t2]
  rw [verify_diff_file_reduce digest _ hdig]
  have t3 : (encode_ops ops).take ((encode_ops (ops.take k)).length + j) =
      encode_ops (ops.take k) ++
        ((encodeOp (ops.get ⟨k, hk⟩) ++ encode_ops (ops.drop (k + 1))).take j) := by
    conv_lhs => rw [hE]
    exact List.take_append j
  have t4 : (encodeOp (ops.get ⟨k, hk⟩) ++ encode_ops (ops.drop (k + 1))).take j =
      (encodeOp (ops.get ⟨k, hk⟩)).take j :=
    List.take_append_of_le_length (le_of_lt hj)
  rw [t3, t4]
  rw [verifyLoop_encode_append (ops.take k) _ _
    (fun o ho => hops o (List.take_subset k ops ho)) le_rfl]
  exact verifyLoop_partial (ops.get ⟨k, hk⟩) (hops _ hopk) j hj0 hj

/-- Witness for **C6**: a one-record file truncated one byte into the
record. -/
theorem verify_truncated_false_witness :
    verify_diff_file (MAGIC_HEADER ++ (List.replicate 32 0 ++
      encode_ops [DiffOp.Insert 0 [65]])) = true ∧
    verify_diff_file ((MAGIC_HEADER ++ (List.replicate 32 0 ++
      encode_ops [DiffOp.Insert 0 [65]])).take
        (MAGIC_HEADER.length + (HASH_SIZE +
          ((encode_ops (([DiffOp.Insert 0 [65]] : List DiffOp).take 0)).length + 1)))) =
      false :=
  verify_truncated_false [DiffOp.Insert 0 [65]] (List.replicate 32 0) 0 1
    (by decide) (by decide) (by decide) (by decide) (by decide)

/-! ## Basic path lemmas -/

theorem FSeg.transF {A B : List Nat} {box : Box} {p q s : Int × Int} {d e : Nat}
    (h1 : FSeg A B box p d q) (h2 : FSeg A B box q e s) :
    FSeg A B box p (d + e) s := by
  induction h2 with
  | refl => exact h1
  | right _ x y _ ih => exact (Nat.add_succ d _) ▸ FSeg.right _ _ x y ih
  | down _ x y _ ih => exact (Nat.add_succ d _) ▸ FSeg.down _ _ x y ih
  | diag _ x y _ hx hy hm ih => exact FSeg.diag _ _ x y ih hx hy hm

theorem FSeg.monoF {A B : List Nat} {box : Box} {p q : Int × Int} {d : Nat}
    (h : FSeg A B box p d q) : p.1 ≤ q.1 ∧ p.2 ≤ q.2 := by
  induction h with
  | refl => exact ⟨le_refl _, le_refl _⟩
  | right _ x y _ ih => exact ⟨by omega, by simpa using ih.2⟩
  | down _ x y _ ih => exact ⟨by simpa using ih.1, by omega⟩
  | diag _ x y _ _ _ _ ih => exact ⟨by omega, by omega⟩

theorem BSeg.transB {A B : List Nat} {box : Box} {p q s : Int × Int} {d e : Nat}
    (h1 : BSeg A B box p d q) (h2 : BSeg A B box q e s) :
    BSeg A B box p (d + e) s := by
  induction h2 with
  | refl => exact h1
  | left _ x y _ ih => exact (Nat.add_succ d _) ▸ BSeg.left _ _ x y ih
  | up _ x y _ ih => exact (Nat.add_succ d _) ▸ BSeg.up _ _ x y ih
  | diag _ x y _ hx hy hm ih => exact BSeg.diag _ _ x y ih hx hy hm

theorem BSeg.monoB {A B : List Nat} {box : Box} {p q : Int × Int} {d : Nat}
    (h : BSeg A B box p d q) : q.1 ≤ p.1 ∧ q.2 ≤ p.2 := by
  induction h with
  | refl => exact ⟨le_refl _, le_refl _⟩
  | left _ x y _ ih => exact ⟨by omega, by simpa using ih.2⟩
  | up _ x y _ ih => exact ⟨by simpa using ih.1, by omega⟩
  | diag _ x y _ _ _ _ ih => exact ⟨by omega, by omega⟩

/-- Single forward moves as segments. -/
theorem FSeg.one_right {A B : List Nat} {box : Box} (x y : Int) :
    FSeg A B box (x, y) 1 (x + 1, y) := FSeg.right _ _ x y (FSeg.refl _)

theorem FSeg.one_down {A B : List Nat} {box : Box} (x y : Int) :
    FSeg A B box (x, y) 1 (x, y + 1) := FSeg.down _ _ x y (FSeg.refl _)

/-- Reversing a backward segment that starts at a point dominated by
the bottom-right corner (as all segments from that corner are) yields a
forward segment: the backward diagonal guards plus the dominance give
the forward diagonal guards. -/
theorem BSeg.reverseB {A B : List Nat} {box : Box} {p q : Int × Int} {d : Nat}
    (h : BSeg A B box p d q) (hp1 : p.1 ≤ box.right) (hp2 : p.2 ≤ box.bottom) :
    FSeg A B box q d p := by
  induction h with
  | refl => exact FSeg.refl _
  | left _ x y _ ih =>
    have h1 : FSeg A B box (x - 1, y) 1 (x, y) := by
      have := @FSeg.one_right A B box (x - 1) y
      simpa using this
    simpa [Nat.add_comm] using h1.transF ih
  | up _ x y _ ih =>
    have h1 : FSeg A B box (x, y - 1) 1 (x, y) := by
      have := @FSeg.one_down A B box x (y - 1)
      simpa using this
    simpa [Nat.add_comm] using h1.transF ih
  | diag _ x y h hx hy hm ih =>
    have hmono := BSeg.monoB h
    have h1 : FSeg A B box (x - 1, y - 1) 0 (x, y) := by
      have := @FSeg.diag A B box (x - 1, y - 1) 0
        (x - 1) (y - 1) (FSeg.refl _) (by omega) (by omega) hm
      simpa using this
    simpa using h1.transF ih

/-- Reversing a forward segment that starts at a point dominating the
top-left corner yields a backward segment. -/
theorem FSeg.reverseF {A B : List Nat} {box : Box} {p q : Int × Int} {d : Nat}
    (h : FSeg A B box p d q) (hp1 : box.left ≤ p.1) (hp2 : box.top ≤ p.2) :
    BSeg A B box q d p := by
  induction h with
  | refl => exact BSeg.refl _
  | right _ x y _ ih =>
    have h1 : BSeg A B box (x + 1, y) 1 (x, y) := by
      have := @BSeg.left A B box (x + 1, y) 0 (x + 1) y
        (BSeg.refl _)
      simpa using this
    simpa [Nat.add_comm] using h1.transB ih
  | down _ x y _ ih =>
    have h1 : BSeg A B box (x, y + 1) 1 (x, y) := by
      have := @BSeg.up A B box (x, y + 1) 0 x (y + 1)
        (BSeg.refl _)
      simpa using this
    simpa [Nat.add_comm] using h1.transB ih
  | diag _ x y h hx hy hm ih =>
    have hmono := FSeg.monoF h
    have h1 : BSeg A B box (x + 1, y + 1) 0 (x, y) := by
      have := @BSeg.diag A B box (x + 1, y + 1) 0
        (x + 1) (y + 1) (BSeg.refl _) (by omega) (by omega)
        (by simpa using hm)
      simpa using this
    simpa using h1.transB ih

/-- Two non-diagonal moves advance one step along the diagonal: the
frontier is monotone across rounds of equal parity. -/
theorem FSeg.padF {A B : List Nat} {box : Box} {p : Int × Int} {d : Nat} {x y : Int}
    (h : FSeg A B box p d (x, y)) : FSeg A B box p (d + 2) (x + 1, y + 1) :=
  FSeg.down _ _ (x + 1) y (FSeg.right _ _ x y h)

theorem BSeg.padB {A B : List Nat} {box : Box} {p : Int × Int} {d : Nat} {x y : Int}
    (h : BSeg A B box p d (x, y)) : BSeg A B box p (d + 2) (x - 1, y - 1) :=
  BSeg.up _ _ (x - 1) y (BSeg.left _ _ x y h)

/-- Displacement identity: total displacement is the move count plus
twice the diagonal count; in particular it is at least `d`, has the
parity of `d`, and the diagonal offset is bounded by `d`. -/
theorem FSeg.dispF {A B : List Nat} {box : Box} {p q : Int × Int} {d : Nat}
    (h : FSeg A B box p d q) :
    ∃ g : Nat, (q.1 - p.1) + (q.2 - p.2) = d + 2 * g := by
  induction h with
  | refl => exact ⟨0, by omega⟩
  | right _ x y _ ih => obtain ⟨g, hg⟩ := ih; exact ⟨g, by push_cast at hg ⊢; omega⟩
  | down _ x y _ ih => obtain ⟨g, hg⟩ := ih; exact ⟨g, by push_cast at hg ⊢; omega⟩
  | diag _ x y _ _ _ _ ih =>
    obtain ⟨g, hg⟩ := ih
    exact ⟨g + 1, by push_cast at hg ⊢; omega⟩

theorem BSeg.dispB {A B : List Nat} {box : Box} {p q : Int × Int} {d : Nat}
    (h : BSeg A B box p d q) :
    ∃ g : Nat, (p.1 - q.1) + (p.2 - q.2) = d + 2 * g := by
  induction h with
  | refl => exact ⟨0, by omega⟩
  | left _ x y _ ih => obtain ⟨g, hg⟩ := ih; exact ⟨g, by push_cast at hg ⊢; omega⟩
  | up _ x y _ ih => obtain ⟨g, hg⟩ := ih; exact ⟨g, by push_cast at hg ⊢; omega⟩
  | diag _ x y _ _ _ _ ih =>
    obtain ⟨g, hg⟩ := ih
    exact ⟨g + 1, by push_cast at hg ⊢; omega⟩

/-- The diagonal offset of a forward segment is bounded by its move
count. -/
theorem FSeg.diagBoundF {A B : List Nat} {box : Box} {p q : Int × Int} {d : Nat}
    (h : FSeg A B box p d q) :
    (q.1 - q.2) - (p.1 - p.2) ≤ d ∧ (p.1 - p.2) - (q.1 - q.2) ≤ d := by
  induction h with
  | refl => constructor <;> omega
  | right _ x y _ ih => constructor <;> (push_cast; push_cast at ih; omega)
  | down _ x y _ ih => constructor <;> (push_cast; push_cast at ih; omega)
  | diag _ x y _ _ _ _ ih => constructor <;> (push_cast at ih ⊢; omega)

theorem BSeg.diagBoundB {A B : List Nat} {box : Box} {p q : Int × Int} {d : Nat}
    (h : BSeg A B box p d q) :
    (q.1 - q.2) - (p.1 - p.2) ≤ d ∧ (p.1 - p.2) - (q.1 - q.2) ≤ d := by
  induction h with
  | refl => constructor <;> omega
  | left _ x y _ ih => constructor <;> (push_cast; push_cast at ih; omega)
  | up _ x y _ ih => constructor <;> (push_cast; push_cast at ih; omega)
  | diag _ x y _ _ _ _ ih => constructor <;> (push_cast at ih ⊢; omega)

/-- A forward segment splits at any intermediate move count. -/
theorem FSeg.splitF {A B : List Nat} {box : Box} {p q : Int × Int} {n : Nat}
    (h : FSeg A B box p n q) :
    ∀ a b : Nat, n = a + b → ∃ mid, FSeg A B box p a mid ∧ FSeg A B box mid b q := by
  induction h with
  | refl =>
    intro a b hab
    obtain ⟨rfl, rfl⟩ : a = 0 ∧ b = 0 := by omega
    exact ⟨_, FSeg.refl _, FSeg.refl _⟩
  | right d x y h ih =>
    intro a b hab
    cases b with
    | zero =>
      exact ⟨(x + 1, y), by rw [show a = d + 1 by omega]; exact FSeg.right _ _ x y h,
        FSeg.refl _⟩
    | succ c =>
      obtain ⟨mid, h1, h2⟩ := ih a c (by omega)
      exact ⟨mid, h1, FSeg.right _ _ x y h2⟩
  | down d x y h ih =>
    intro a b hab
    cases b with
    | zero =>
      exact ⟨(x, y + 1), by rw [show a = d + 1 by omega]; exact FSeg.down _ _ x y h,
        FSeg.refl _⟩
    | succ c =>
      obtain ⟨mid, h1, h2⟩ := ih a c (by omega)
      exact ⟨mid, h1, FSeg.down _ _ x y h2⟩
  | diag d x y h hx hy hm ih =>
    intro a b hab
    obtain ⟨mid, h1, h2⟩ := ih a b hab
    exact ⟨mid, h1, FSeg.diag _ _ x y h2 hx hy hm⟩

/-- Dominance: any point between the start and the end of a forward
segment is reachable, with cost overhead bounded by the defect from
the diagonal through the end point. -/
theorem FSeg.domF {A B : List Nat} {box : Box} {p q : Int × Int} {d : Nat}
    (h : FSeg A B box p d q) :
    ∀ u v : Int, p.1 ≤ u → u ≤ q.1 → p.2 ≤ v → v ≤ q.2 →
      ∃ d' : Nat, FSeg A B box p d' (u, v) ∧
        (d' : Int) + 2 * min (q.1 - u) (q.2 - v) ≤ d + (q.1 - u) + (q.2 - v) := by
  induction h with
  | refl =>
    intro u v h1 h2 h3 h4
    obtain ⟨rfl, rfl⟩ : u = p.1 ∧ v = p.2 := by omega
    exact ⟨0, FSeg.refl _, by simp⟩
  | right d x y h ih =>
    intro u v h1 h2 h3 h4
    dsimp only at h2 h4 ⊢
    have hm := FSeg.monoF h
    by_cases hu : u ≤ x
    · obtain ⟨d', hseg, hbound⟩ := ih u v h1 hu h3 h4
      exact ⟨d', hseg, by push_cast at hbound ⊢; omega⟩
    · have hux : u = x + 1 := by omega
      subst hux
      obtain ⟨d', hseg, hbound⟩ := ih x v (by exact hm.1) le_rfl h3 h4
      exact ⟨d' + 1, FSeg.right _ _ x v hseg, by push_cast at hbound ⊢; omega⟩
  | down d x y h ih =>
    intro u v h1 h2 h3 h4
    dsimp only at h2 h4 ⊢
    have hm := FSeg.monoF h
    by_cases hv : v ≤ y
    · obtain ⟨d', hseg, hbound⟩ := ih u v h1 h2 h3 hv
      exact ⟨d', hseg, by push_cast at hbound ⊢; omega⟩
    · have hvy : v = y + 1 := by omega
      subst hvy
      obtain ⟨d', hseg, hbound⟩ := ih u y h1 h2 (by exact hm.2) le_rfl
      exact ⟨d' + 1, FSeg.down _ _ u y hseg, by push_cast at hbound ⊢; omega⟩
  | diag d x y h hx hy hmm ih =>
    intro u v h1 h2 h3 h4
    dsimp only at h2 h4 ⊢
    have hm := FSeg.monoF h
    by_cases hu : u ≤ x
    · by_cases hv : v ≤ y
      · obtain ⟨d', hseg, hbound⟩ := ih u v h1 hu h3 hv
        exact ⟨d', hseg, by push_cast at hbound ⊢; omega⟩
      · have hvy : v = y + 1 := by omega
        subst hvy
        obtain ⟨d', hseg, hbound⟩ := ih u y h1 hu (by exact hm.2) le_rfl
        exact ⟨d' + 1, FSeg.down _ _ u y hseg, by push_cast at hbound ⊢; omega⟩
    · have hux : u = x + 1 := by omega
      subst hux
      by_cases hv : v ≤ y
      · obtain ⟨d', hseg, hbound⟩ := ih x v (by exact hm.1) le_rfl h3 hv
        exact ⟨d' + 1, FSeg.right _ _ x v hseg, by push_cast at hbound ⊢; omega⟩
      · have hvy : v = y + 1 := by omega
        subst hvy
        exact ⟨d, FSeg.diag _ _ x y h hx hy hmm, by omega⟩

/-- Backward dominance, mirror image of `FSeg.domF`. -/
theorem BSeg.domB {A B : List Nat} {box : Box} {p q : Int × Int} {d : Nat}
    (h : BSeg A B box p d q) :
    ∀ u v : Int, u ≤ p.1 → q.1 ≤ u → v ≤ p.2 → q.2 ≤ v →
      ∃ d' : Nat, BSeg A B box p d' (u, v) ∧
        (d' : Int) + 2 * min (u - q.1) (v - q.2) ≤ d + (u - q.1) + (v - q.2) := by
  induction h with
  | refl =>
    intro u v h1 h2 h3 h4
    obtain ⟨rfl, rfl⟩ : u = p.1 ∧ v = p.2 := by omega
    exact ⟨0, BSeg.refl _, by simp⟩
  | left d x y h ih =>
    intro u v h1 h2 h3 h4
    dsimp only at h2 h4 ⊢
    have hm := BSeg.monoB h
    by_cases hu : x ≤ u
    · obtain ⟨d', hseg, hbound⟩ := ih u v h1 hu h3 h4
      exact ⟨d', hseg, by push_cast at hbound ⊢; omega⟩
    · have hux : u = x - 1 := by omega
      subst hux
      obtain ⟨d', hseg, hbound⟩ := ih x v (by exact hm.1) le_rfl h3 h4
      exact ⟨d' + 1, BSeg.left _ _ x v hseg, by push_cast at hbound ⊢; omega⟩
  | up d x y h ih =>
    intro u v h1 h2 h3 h4
    dsimp only at h2 h4 ⊢
    have hm := BSeg.monoB h
    by_cases hv : y ≤ v
    · obtain ⟨d', hseg, hbound⟩ := ih u v h1 h2 h3 hv
      exact ⟨d', hseg, by push_cast at hbound ⊢; omega⟩
    · have hvy : v = y - 1 := by omega
      subst hvy
      obtain ⟨d', hseg, hbound⟩ := ih u y h1 h2 (by exact hm.2) le_rfl
      exact ⟨d' + 1, BSeg.up _ _ u y hseg, by push_cast at hbound ⊢; omega⟩
  | diag d x y h hx hy hmm ih =>
    intro u v h1 h2 h3 h4
    dsimp only at h2 h4 ⊢
    have hm := BSeg.monoB h
    by_cases hu : x ≤ u
    · by_cases hv : y ≤ v
      · obtain ⟨d', hseg, hbound⟩ := ih u v h1 hu h3 hv
        exact ⟨d', hseg, by push_cast at hbound ⊢; omega⟩
      · have hvy : v = y - 1 := by omega
        subst hvy
        obtain ⟨d', hseg, hbound⟩ := ih u y h1 hu (by exact hm.2) le_rfl
        exact ⟨d' + 1, BSeg.up _ _ u y hseg, by push_cast at hbound ⊢; omega⟩
    · have hux : u = x - 1 := by omega
      subst hux
      by_cases hv : y ≤ v
      · obtain ⟨d', hseg, hbound⟩ := ih x v (by exact hm.1) le_rfl h3 hv
        exact ⟨d' + 1, BSeg.left _ _ x v hseg, by push_cast at hbound ⊢; omega⟩
      · have hvy : v = y - 1 := by omega
        subst hvy
        exact ⟨d, BSeg.diag _ _ x y h hx hy hmm, by omega⟩

/-- Crossing the right edge: a forward segment ending beyond the right
edge passes through the edge, and everything beyond the crossing is
non-diagonal (no matches are possible at `x ≥ right`), so stopping at
the edge saves the full overshoot. -/
theorem FSeg.crossRight {A B : List Nat} {box : Box} {p q : Int × Int} {d : Nat}
    (h : FSeg A B box p d q) :
    box.right < q.1 → p.1 ≤ box.right →
      ∃ (yr : Int) (d₁ : Nat), yr ≤ q.2 ∧ FSeg A B box p d₁ (box.right, yr) ∧
        (d₁ : Int) + (q.1 - box.right) + (q.2 - yr) ≤ d := by
  induction h with
  | refl => intro hx hp; omega
  | right d x y h ih =>
    intro hx hp
    dsimp only at hx ⊢
    by_cases hxx : box.right < x
    · obtain ⟨yr, d₁, hy, hseg, hb⟩ := ih hxx hp
      exact ⟨yr, d₁, hy, hseg, by push_cast at hb ⊢; omega⟩
    · have hxr : x = box.right := by omega
      subst hxr
      exact ⟨y, d, le_refl _, h, by push_cast; omega⟩
  | down d x y h ih =>
    intro hx hp
    dsimp only at hx ⊢
    obtain ⟨yr, d₁, hy, hseg, hb⟩ := ih hx hp
    exact ⟨yr, d₁, by omega, hseg, by push_cast at hb ⊢; omega⟩
  | diag d x y h hx' hy' hm ih =>
    intro hx hp
    dsimp only at hx
    omega
/-- Crossing the bottom edge, mirror of `FSeg.crossRight`. -/
theorem FSeg.crossBottom {A B : List Nat} {box : Box} {p q : Int × Int} {d : Nat}
    (h : FSeg A B box p d q) :
    box.bottom < q.2 → p.2 ≤ box.bottom →
      ∃ (xc : Int) (d₁ : Nat), xc ≤ q.1 ∧ FSeg A B box p d₁ (xc, box.bottom) ∧
        (d₁ : Int) + (q.2 - box.bottom) + (q.1 - xc) ≤ d := by
  induction h with
  | refl => intro hy hp; omega
  | right d x y h ih =>
    intro hy hp
    dsimp only at hy ⊢
    obtain ⟨xc, d₁, hxc, hseg, hb⟩ := ih hy hp
    exact ⟨xc, d₁, by omega, hseg, by push_cast at hb ⊢; omega⟩
  | down d x y h ih =>
    intro hy hp
    dsimp only at hy ⊢
    by_cases hyy : box.bottom < y
    · obtain ⟨xc, d₁, hxc, hseg, hb⟩ := ih hyy hp
      exact ⟨xc, d₁, hxc, hseg, by push_cast at hb ⊢; omega⟩
    · have hyb : y = box.bottom := by omega
      subst hyb
      exact ⟨x, d, le_refl _, h, by push_cast; omega⟩
  | diag d x y h hx' hy' hm ih =>
    intro hy hp
    dsimp only at hy
    omega
/-- Crossing the left edge backward, mirror of `FSeg.crossRight`. -/
theorem BSeg.crossLeft {A B : List Nat} {box : Box} {p q : Int × Int} {d : Nat}
    (h : BSeg A B box p d q) :
    q.1 < box.left → box.left ≤ p.1 →
      ∃ (yc : Int) (d₁ : Nat), q.2 ≤ yc ∧ BSeg A B box p d₁ (box.left, yc) ∧
        (d₁ : Int) + (box.left - q.1) + (yc - q.2) ≤ d := by
  induction h with
  | refl => intro hx hp; omega
  | left d x y h ih =>
    intro hx hp
    dsimp only at hx ⊢
    by_cases hxx : x < box.left
    · obtain ⟨yc, d₁, hy, hseg, hb⟩ := ih hxx hp
      exact ⟨yc, d₁, hy, hseg, by push_cast at hb ⊢; omega⟩
    · have hxl : x = box.left := by omega
      subst hxl
      exact ⟨y, d, le_refl _, h, by push_cast; omega⟩
  | up d x y h ih =>
    intro hx hp
    dsimp only at hx ⊢
    obtain ⟨yc, d₁, hy, hseg, hb⟩ := ih hx hp
    exact ⟨yc, d₁, by omega, hseg, by push_cast at hb ⊢; omega⟩
  | diag d x y h hx' hy' hm ih =>
    intro hx hp
    dsimp only at hx
    omega
/-- Crossing the top edge backward, mirror of `FSeg.crossBottom`. -/
theorem BSeg.crossTop {A B : List Nat} {box : Box} {p q : Int × Int} {d : Nat}
    (h : BSeg A B box p d q) :
    q.2 < box.top → box.top ≤ p.2 →
      ∃ (xc : Int) (d₁ : Nat), q.1 ≤ xc ∧ BSeg A B box p d₁ (xc, box.top) ∧
        (d₁ : Int) + (box.top - q.2) + (xc - q.1) ≤ d := by
  induction h with
  | refl => intro hy hp; omega
  | left d x y h ih =>
    intro hy hp
    dsimp only at hy ⊢
    obtain ⟨xc, d₁, hxc, hseg, hb⟩ := ih hy hp
    exact ⟨xc, d₁, by omega, hseg, by push_cast at hb ⊢; omega⟩
  | up d x y h ih =>
    intro hy hp
    dsimp only at hy ⊢
    by_cases hyy : y < box.top
    · obtain ⟨xc, d₁, hxc, hseg, hb⟩ := ih hyy hp
      exact ⟨xc, d₁, hxc, hseg, by push_cast at hb ⊢; omega⟩
    · have hyt : y = box.top := by omega
      subst hyt
      exact ⟨x, d, le_refl _, h, by push_cast; omega⟩
  | diag d x y h hx' hy' hm ih =>
    intro hy hp
    dsimp only at hy
    omega

/-- A backward segment attains every diagonal between its endpoint's
diagonal and its start's diagonal (endpoint below start); the prefix
cost leaves at least the remaining diagonal travel. -/
theorem BSeg.attainGeB {A B : List Nat} {box : Box} {p q : Int × Int} {d : Nat}
    (h : BSeg A B box p d q) :
    ∀ c₀ : Int, q.1 - q.2 ≤ c₀ → c₀ ≤ p.1 - p.2 →
      ∃ (m : Int × Int) (d₁ : Nat), m.1 - m.2 = c₀ ∧ BSeg A B box p d₁ m ∧
        (d₁ : Int) + (c₀ - (q.1 - q.2)) ≤ d := by
  induction h with
  | refl =>
    intro c₀ h1 h2
    exact ⟨p, 0, by omega, BSeg.refl _, by omega⟩
  | left d x y h ih =>
    intro c₀ h1 h2
    dsimp only at h1 ⊢
    by_cases hc : x - y ≤ c₀
    · obtain ⟨m, d₁, hm, hseg, hb⟩ := ih c₀ hc h2
      exact ⟨m, d₁, hm, hseg, by push_cast at hb ⊢; omega⟩
    · have hc0 : c₀ = x - 1 - y := by omega
      exact ⟨(x - 1, y), d + 1, by omega, BSeg.left _ _ x y h, by omega⟩
  | up d x y h ih =>
    intro c₀ h1 h2
    dsimp only at h1 ⊢
    obtain ⟨m, d₁, hm, hseg, hb⟩ := ih c₀ (by omega) h2
    exact ⟨m, d₁, hm, hseg, by push_cast at hb ⊢; omega⟩
  | diag d x y h hx hy hmm ih =>
    intro c₀ h1 h2
    dsimp only at h1 ⊢
    obtain ⟨m, d₁, hm, hseg, hb⟩ := ih c₀ (by omega) h2
    exact ⟨m, d₁, hm, hseg, by omega⟩

/-- Mirror of `BSeg.attainGeB` for diagonals above the start's. -/
theorem BSeg.attainLeB {A B : List Nat} {box : Box} {p q : Int × Int} {d : Nat}
    (h : BSeg A B box p d q) :
    ∀ c₀ : Int, c₀ ≤ q.1 - q.2 → p.1 - p.2 ≤ c₀ →
      ∃ (m : Int × Int) (d₁ : Nat), m.1 - m.2 = c₀ ∧ BSeg A B box p d₁ m ∧
        (d₁ : Int) + ((q.1 - q.2) - c₀) ≤ d := by
  induction h with
  | refl =>
    intro c₀ h1 h2
    exact ⟨p, 0, by omega, BSeg.refl _, by omega⟩
  | left d x y h ih =>
    intro c₀ h1 h2
    dsimp only at h1 ⊢
    obtain ⟨m, d₁, hm, hseg, hb⟩ := ih c₀ (by omega) h2
    exact ⟨m, d₁, hm, hseg, by push_cast at hb ⊢; omega⟩
  | up d x y h ih =>
    intro c₀ h1 h2
    dsimp only at h1 ⊢
    by_cases hc : c₀ ≤ x - y
    · obtain ⟨m, d₁, hm, hseg, hb⟩ := ih c₀ hc h2
      exact ⟨m, d₁, hm, hseg, by push_cast at hb ⊢; omega⟩
    · have hc0 : c₀ = x - (y - 1) := by omega
      exact ⟨(x, y - 1), d + 1, by omega, BSeg.up _ _ x y h, by omega⟩
  | diag d x y h hx hy hmm ih =>
    intro c₀ h1 h2
    dsimp only at h1 ⊢
    obtain ⟨m, d₁, hm, hseg, hb⟩ := ih c₀ (by omega) h2
    exact ⟨m, d₁, hm, hseg, by omega⟩

/-- A forward segment attains every diagonal between its start's
diagonal and its endpoint's diagonal (endpoint to the right). -/
theorem FSeg.attainLeF {A B : List Nat} {box : Box} {p q : Int × Int} {d : Nat}
    (h : FSeg A B box p d q) :
    ∀ c₀ : Int, p.1 - p.2 ≤ c₀ → c₀ ≤ q.1 - q.2 →
      ∃ (m : Int × Int) (d₁ : Nat), m.1 - m.2 = c₀ ∧ FSeg A B box p d₁ m ∧
        (d₁ : Int) + ((q.1 - q.2) - c₀) ≤ d := by
  induction h with
  | refl =>
    intro c₀ h1 h2
    exact ⟨p, 0, by omega, FSeg.refl _, by omega⟩
  | right d x y h ih =>
    intro c₀ h1 h2
    dsimp only at h2 ⊢
    by_cases hc : c₀ ≤ x - y
    · obtain ⟨m, d₁, hm, hseg, hb⟩ := ih c₀ h1 hc
      exact ⟨m, d₁, hm, hseg, by push_cast at hb ⊢; omega⟩
    · have hc0 : c₀ = x + 1 - y := by omega
      exact ⟨(x + 1, y), d + 1, by omega, FSeg.right _ _ x y h, by omega⟩
  | down d x y h ih =>
    intro c₀ h1 h2
    dsimp only at h2 ⊢
    obtain ⟨m, d₁, hm, hseg, hb⟩ := ih c₀ h1 (by omega)
    exact ⟨m, d₁, hm, hseg, by push_cast at hb ⊢; omega⟩
  | diag d x y h hx hy hmm ih =>
    intro c₀ h1 h2
    dsimp only at h2 ⊢
    obtain ⟨m, d₁, hm, hseg, hb⟩ := ih c₀ h1 (by omega)
    exact ⟨m, d₁, hm, hseg, by omega⟩

/-- Mirror of `FSeg.attainLeF` for diagonals below the start's. -/
theorem FSeg.attainGeF {A B : List Nat} {box : Box} {p q : Int × Int} {d : Nat}
    (h : FSeg A B box p d q) :
    ∀ c₀ : Int, c₀ ≤ p.1 - p.2 → q.1 - q.2 ≤ c₀ →
      ∃ (m : Int × Int) (d₁ : Nat), m.1 - m.2 = c₀ ∧ FSeg A B box p d₁ m ∧
        (d₁ : Int) + (c₀ - (q.1 - q.2)) ≤ d := by
  induction h with
  | refl =>
    intro c₀ h1 h2
    exact ⟨p, 0, by omega, FSeg.refl _, by omega⟩
  | right d x y h ih =>
    intro c₀ h1 h2
    dsimp only at h2 ⊢
    obtain ⟨m, d₁, hm, hseg, hb⟩ := ih c₀ h1 (by omega)
    exact ⟨m, d₁, hm, hseg, by push_cast at hb ⊢; omega⟩
  | down d x y h ih =>
    intro c₀ h1 h2
    dsimp only at h2 ⊢
    by_cases hc : x - y ≤ c₀
    · obtain ⟨m, d₁, hm, hseg, hb⟩ := ih c₀ h1 hc
      exact ⟨m, d₁, hm, hseg, by push_cast at hb ⊢; omega⟩
    · have hc0 : c₀ = x - (y + 1) := by omega
      exact ⟨(x, y + 1), d + 1, by omega, FSeg.down _ _ x y h, by omega⟩
  | diag d x y h hx hy hmm ih =>
    intro c₀ h1 h2
    dsimp only at h2 ⊢
    obtain ⟨m, d₁, hm, hseg, hb⟩ := ih c₀ h1 (by omega)
    exact ⟨m, d₁, hm, hseg, by omega⟩

/-- A zero-cost forward segment is a diagonal run. -/
theorem FSeg.zero_diagF {A B : List Nat} {box : Box} {p q : Int × Int}
    (h : FSeg A B box p 0 q) : q.1 - p.1 = q.2 - p.2 ∧ p.1 ≤ q.1 := by
  generalize hd : 0 = d at h
  induction h with
  | refl => omega
  | right _ x y _ _ => omega
  | down _ x y _ _ => omega
  | diag _ x y _ _ _ _ ih =>
    have := ih hd
    dsimp only
    omega

/-- A zero-cost forward segment restarts from any intermediate point of
its diagonal. -/
theorem FSeg.zeroSuffixF {A B : List Nat} {box : Box} {p q : Int × Int}
    (h : FSeg A B box p 0 q) :
    ∀ m : Int × Int, p.1 ≤ m.1 → m.1 ≤ q.1 → m.2 - p.2 = m.1 - p.1 →
      FSeg A B box m 0 q := by
  generalize hd : 0 = d at h
  induction h with
  | refl =>
    intro m h1 h2 h3
    have : m = p := by
      have : m.1 = p.1 := by omega
      have h4 : m.2 = p.2 := by omega
      exact Prod.ext this h4
    subst this
    exact FSeg.refl _
  | right _ x y _ _ => omega
  | down _ x y _ _ => omega
  | diag d x y h hx hy hmm ih =>
    intro m h1 h2 h3
    subst hd
    have hz := FSeg.zero_diagF h
    dsimp only at h2 ⊢
    by_cases hm : m.1 ≤ x
    · exact FSeg.diag _ _ x y (ih rfl m h1 hm h3) hx hy hmm
    · have hm1 : m.1 = x + 1 := by omega
      have hm2 : m.2 = y + 1 := by omega
      have : m = (x + 1, y + 1) := Prod.ext hm1 hm2
      subst this
      exact FSeg.refl _

theorem BSeg.zero_diagB {A B : List Nat} {box : Box} {p q : Int × Int}
    (h : BSeg A B box p 0 q) : p.1 - q.1 = p.2 - q.2 ∧ q.1 ≤ p.1 := by
  generalize hd : 0 = d at h
  induction h with
  | refl => omega
  | left _ x y _ _ => omega
  | up _ x y _ _ => omega
  | diag _ x y _ _ _ _ ih =>
    have := ih hd
    dsimp only
    omega

theorem BSeg.zeroSuffixB {A B : List Nat} {box : Box} {p q : Int × Int}
    (h : BSeg A B box p 0 q) :
    ∀ m : Int × Int, m.1 ≤ p.1 → q.1 ≤ m.1 → p.2 - m.2 = p.1 - m.1 →
      BSeg A B box m 0 q := by
  generalize hd : 0 = d at h
  induction h with
  | refl =>
    intro m h1 h2 h3
    have : m = p := by
      have h4 : m.1 = p.1 := by omega
      have h5 : m.2 = p.2 := by omega
      exact Prod.ext h4 h5
    subst this
    exact BSeg.refl _
  | left _ x y _ _ => omega
  | up _ x y _ _ => omega
  | diag d x y h hx hy hmm ih =>
    intro m h1 h2 h3
    subst hd
    have hz := BSeg.zero_diagB h
    dsimp only at h2 ⊢
    by_cases hm : x ≤ m.1
    · exact BSeg.diag _ _ x y (ih rfl m h1 hm h3) hx hy hmm
    · have hm1 : m.1 = x - 1 := by omega
      have hm2 : m.2 = y - 1 := by omega
      have : m = (x - 1, y - 1) := Prod.ext hm1 hm2
      subst this
      exact BSeg.refl _

/-! ## Walk lemmas: the diagonal walks compute maximal slides -/

/-- The forward walk produces a zero-cost segment from its start. -/
theorem walkFwd_spec (A B : List Nat) (box : Box) :
    ∀ (fuel : Nat) (x y : Int),
      FSeg A B box (x, y) 0 (walkFwd A B box.right box.bottom fuel x y) ∧
      x ≤ (walkFwd A B box.right box.bottom fuel x y).1 ∧
      (walkFwd A B box.right box.bottom fuel x y).1 - x =
        (walkFwd A B box.right box.bottom fuel x y).2 - y := by
  intro fuel
  induction fuel with
  | zero =>
    intro x y
    exact ⟨FSeg.refl _, by simp [walkFwd], by simp [walkFwd]⟩
  | succ fuel ih =>
    intro x y
    by_cases hg : x < box.right ∧ y < box.bottom ∧ byteAt A x = byteAt B y
    · have hstep : walkFwd A B box.right box.bottom (fuel + 1) x y =
          walkFwd A B box.right box.bottom fuel (x + 1) (y + 1) := by
        rw [walkFwd, if_pos hg]
      rw [hstep]
      obtain ⟨hseg, hx, hd⟩ := ih (x + 1) (y + 1)
      have hone : FSeg A B box (x, y) 0 (x + 1, y + 1) :=
        FSeg.diag _ _ x y (FSeg.refl _) hg.1 hg.2.1 hg.2.2
      exact ⟨by simpa using hone.transF hseg, by omega, by omega⟩
    · have hstep : walkFwd A B box.right box.bottom (fuel + 1) x y = (x, y) := by
        rw [walkFwd, if_neg hg]
      rw [hstep]
      exact ⟨FSeg.refl _, le_refl _, by omega⟩

/-- With fuel covering the distance to the right edge, the forward walk
stops only when the guard fails. -/
theorem walkFwd_stop (A B : List Nat) (box : Box) :
    ∀ (fuel : Nat) (x y : Int), (box.right - x).toNat ≤ fuel →
      ¬((walkFwd A B box.right box.bottom fuel x y).1 < box.right ∧
        (walkFwd A B box.right box.bottom fuel x y).2 < box.bottom ∧
        byteAt A (walkFwd A B box.right box.bottom fuel x y).1 =
          byteAt B (walkFwd A B box.right box.bottom fuel x y).2) := by
  intro fuel
  induction fuel with
  | zero =>
    intro x y hf
    have hx : box.right ≤ x := by omega
    simp only [walkFwd]
    intro hc
    omega
  | succ fuel ih =>
    intro x y hf
    by_cases hg : x < box.right ∧ y < box.bottom ∧ byteAt A x = byteAt B y
    · have hstep : walkFwd A B box.right box.bottom (fuel + 1) x y =
          walkFwd A B box.right box.bottom fuel (x + 1) (y + 1) := by
        rw [walkFwd, if_pos hg]
      rw [hstep]
      exact ih (x + 1) (y + 1) (by omega)
    · have hstep : walkFwd A B box.right box.bottom (fuel + 1) x y = (x, y) := by
        rw [walkFwd, if_neg hg]
      rw [hstep]
      exact hg

/-- Maximality of the forward walk: any zero-cost run from its start is
dominated by the walk's endpoint. -/
theorem walkFwd_max (A B : List Nat) (box : Box) (fuel : Nat) (x y : Int)
    (hf : (box.right - x).toNat ≤ fuel) {z : Int × Int}
    (hz : FSeg A B box (x, y) 0 z) :
    z.1 ≤ (walkFwd A B box.right box.bottom fuel x y).1 := by
  generalize hd : 0 = d at hz
  induction hz with
  | refl => exact (walkFwd_spec A B box fuel x y).2.1
  | right _ u v _ _ => omega
  | down _ u v _ _ => omega
  | diag d u v h hu hv hm ih =>
    subst hd
    have hle : u ≤ (walkFwd A B box.right box.bottom fuel x y).1 := ih rfl
    dsimp only
    rcases lt_or_eq_of_le hle with hlt | heq
    · omega
    · exfalso
      have hspec := walkFwd_spec A B box fuel x y
      have hz0 := FSeg.zero_diagF h
      have hv' : v = (walkFwd A B box.right box.bottom fuel x y).2 := by
        dsimp only at hz0
        omega
      exact walkFwd_stop A B box fuel x y hf ⟨by omega, by omega,
        by rw [← heq, ← hv']; exact hm⟩

/-- The backward walk produces a zero-cost backward segment from its
start. -/
theorem walkBwd_spec (A B : List Nat) (box : Box) :
    ∀ (fuel : Nat) (x y : Int),
      BSeg A B box (x, y) 0 (walkBwd A B box.left box.top fuel x y) ∧
      (walkBwd A B box.left box.top fuel x y).2 ≤ y ∧
      x - (walkBwd A B box.left box.top fuel x y).1 =
        y - (walkBwd A B box.left box.top fuel x y).2 := by
  intro fuel
  induction fuel with
  | zero =>
    intro x y
    exact ⟨BSeg.refl _, by simp [walkBwd], by simp [walkBwd]⟩
  | succ fuel ih =>
    intro x y
    by_cases hg : x > box.left ∧ y > box.top ∧ byteAt A (x - 1) = byteAt B (y - 1)
    · have hstep : walkBwd A B box.left box.top (fuel + 1) x y =
          walkBwd A B box.left box.top fuel (x - 1) (y - 1) := by
        rw [walkBwd, if_pos hg]
      rw [hstep]
      obtain ⟨hseg, hy, hd⟩ := ih (x - 1) (y - 1)
      have hone : BSeg A B box (x, y) 0 (x - 1, y - 1) :=
        BSeg.diag _ _ x y (BSeg.refl _) hg.1 hg.2.1 hg.2.2
      exact ⟨by simpa using hone.transB hseg, by omega, by omega⟩
    · have hstep : walkBwd A B box.left box.top (fuel + 1) x y = (x, y) := by
        rw [walkBwd, if_neg hg]
      rw [hstep]
      exact ⟨BSeg.refl _, le_refl _, by omega⟩

/-- With fuel covering the distance to the top edge, the backward walk
stops only when the guard fails. -/
theorem walkBwd_stop (A B : List Nat) (box : Box) :
    ∀ (fuel : Nat) (x y : Int), (y - box.top).toNat ≤ fuel →
      ¬((walkBwd A B box.left box.top fuel x y).1 > box.left ∧
        (walkBwd A B box.left box.top fuel x y).2 > box.top ∧
        byteAt A ((walkBwd A B box.left box.top fuel x y).1 - 1) =
          byteAt B ((walkBwd A B box.left box.top fuel x y).2 - 1)) := by
  intro fuel
  induction fuel with
  | zero =>
    intro x y hf
    have hy : y ≤ box.top := by omega
    simp only [walkBwd]
    intro hc
    omega
  | succ fuel ih =>
    intro x y hf
    by_cases hg : x > box.left ∧ y > box.top ∧ byteAt A (x - 1) = byteAt B (y - 1)
    · have hstep : walkBwd A B box.left box.top (fuel + 1) x y =
          walkBwd A B box.left box.top fuel (x - 1) (y - 1) := by
        rw [walkBwd, if_pos hg]
      rw [hstep]
      exact ih (x - 1) (y - 1) (by omega)
    · have hstep : walkBwd A B box.left box.top (fuel + 1) x y = (x, y) := by
        rw [walkBwd, if_neg hg]
      rw [hstep]
      exact hg

/-- Maximality of the backward walk: any zero-cost backward run from
its start is dominated by the walk's endpoint. -/
theorem walkBwd_max (A B : List Nat) (box : Box) (fuel : Nat) (x y : Int)
    (hf : (y - box.top).toNat ≤ fuel) {z : Int × Int}
    (hz : BSeg A B box (x, y) 0 z) :
    (walkBwd A B box.left box.top fuel x y).2 ≤ z.2 := by
  generalize hd : 0 = d at hz
  induction hz with
  | refl => exact (walkBwd_spec A B box fuel x y).2.1
  | left _ u v _ _ => omega
  | up _ u v _ _ => omega
  | diag d u v h hu hv hm ih =>
    subst hd
    have hle : (walkBwd A B box.left box.top fuel x y).2 ≤ v := ih rfl
    dsimp only
    rcases lt_or_eq_of_le hle with hlt | heq
    · omega
    · exfalso
      have hspec := walkBwd_spec A B box fuel x y
      have hz0 := BSeg.zero_diagB h
      have hu' : u = (walkBwd A B box.left box.top fuel x y).1 := by
        dsimp only at hz0
        omega
      exact walkBwd_stop A B box fuel x y hf ⟨by omega, by omega,
        by rw [← hu', heq]; exact hm⟩

/-- A cost-one segment decomposes as a diagonal run, one non-diagonal
step, and a diagonal run. -/
theorem FSeg.one_decompF {A B : List Nat} {box : Box} {m z : Int × Int}
    (h : FSeg A B box m 1 z) :
    ∃ w : Int × Int, FSeg A B box m 0 w ∧
      (FSeg A B box (w.1 + 1, w.2) 0 z ∨ FSeg A B box (w.1, w.2 + 1) 0 z) := by
  generalize hd : 1 = d at h
  induction h with
  | refl => omega
  | right d x y h ih =>
    have hd0 : d = 0 := by omega
    subst hd0
    exact ⟨(x, y), h, Or.inl (FSeg.refl _)⟩
  | down d x y h ih =>
    have hd0 : d = 0 := by omega
    subst hd0
    exact ⟨(x, y), h, Or.inr (FSeg.refl _)⟩
  | diag d x y h hx hy hm ih =>
    obtain ⟨w, h0, hstep⟩ := ih hd
    exact ⟨w, h0, by
      rcases hstep with h1 | h1
      · exact Or.inl (FSeg.diag _ _ x y h1 hx hy hm)
      · exact Or.inr (FSeg.diag _ _ x y h1 hx hy hm)⟩

/-- A cost-`(d+1)` segment decomposes as a cost-`d` segment, one
non-diagonal step, and a diagonal run. -/
theorem FSeg.step_decompF {A B : List Nat} {box : Box} {p z : Int × Int} {d : Nat}
    (h : FSeg A B box p (d + 1) z) :
    ∃ w : Int × Int, FSeg A B box p d w ∧
      (FSeg A B box (w.1 + 1, w.2) 0 z ∨ FSeg A B box (w.1, w.2 + 1) 0 z) := by
  obtain ⟨mid, h1, h2⟩ := FSeg.splitF h d 1 rfl
  obtain ⟨w, h0, hstep⟩ := FSeg.one_decompF h2
  exact ⟨w, by simpa using h1.transF h0, hstep⟩

/-- Backward mirror of `FSeg.one_decompF`. -/
theorem BSeg.one_decompB {A B : List Nat} {box : Box} {m z : Int × Int}
    (h : BSeg A B box m 1 z) :
    ∃ w : Int × Int, BSeg A B box m 0 w ∧
      (BSeg A B box (w.1 - 1, w.2) 0 z ∨ BSeg A B box (w.1, w.2 - 1) 0 z) := by
  generalize hd : 1 = d at h
  induction h with
  | refl => omega
  | left d x y h ih =>
    have hd0 : d = 0 := by omega
    subst hd0
    exact ⟨(x, y), h, Or.inl (BSeg.refl _)⟩
  | up d x y h ih =>
    have hd0 : d = 0 := by omega
    subst hd0
    exact ⟨(x, y), h, Or.inr (BSeg.refl _)⟩
  | diag d x y h hx hy hm ih =>
    obtain ⟨w, h0, hstep⟩ := ih hd
    exact ⟨w, h0, by
      rcases hstep with h1 | h1
      · exact Or.inl (BSeg.diag _ _ x y h1 hx hy hm)
      · exact Or.inr (BSeg.diag _ _ x y h1 hx hy hm)⟩

/-- A backward split analogous to `FSeg.splitF`. -/
theorem BSeg.splitB {A B : List Nat} {box : Box} {p q : Int × Int} {n : Nat}
    (h : BSeg A B box p n q) :
    ∀ a b : Nat, n = a + b → ∃ mid, BSeg A B box p a mid ∧ BSeg A B box mid b q := by
  induction h with
  | refl =>
    intro a b hab
    obtain ⟨rfl, rfl⟩ : a = 0 ∧ b = 0 := by omega
    exact ⟨_, BSeg.refl _, BSeg.refl _⟩
  | left d x y h ih =>
    intro a b hab
    cases b with
    | zero =>
      exact ⟨(x - 1, y), by rw [show a = d + 1 by omega]; exact BSeg.left _ _ x y h,
        BSeg.refl _⟩
    | succ c =>
      obtain ⟨mid, h1, h2⟩ := ih a c (by omega)
      exact ⟨mid, h1, BSeg.left _ _ x y h2⟩
  | up d x y h ih =>
    intro a b hab
    cases b with
    | zero =>
      exact ⟨(x, y - 1), by rw [show a = d + 1 by omega]; exact BSeg.up _ _ x y h,
        BSeg.refl _⟩
    | succ c =>
      obtain ⟨mid, h1, h2⟩ := ih a c (by omega)
      exact ⟨mid, h1, BSeg.up _ _ x y h2⟩
  | diag d x y h hx hy hm ih =>
    intro a b hab
    obtain ⟨mid, h1, h2⟩ := ih a b hab
    exact ⟨mid, h1, BSeg.diag _ _ x y h2 hx hy hm⟩

/-- Backward mirror of `FSeg.step_decompF`. -/
theorem BSeg.step_decompB {A B : List Nat} {box : Box} {p z : Int × Int} {d : Nat}
    (h : BSeg A B box p (d + 1) z) :
    ∃ w : Int × Int, BSeg A B box p d w ∧
      (BSeg A B box (w.1 - 1, w.2) 0 z ∨ BSeg A B box (w.1, w.2 - 1) 0 z) := by
  obtain ⟨mid, h1, h2⟩ := BSeg.splitB h d 1 rfl
  obtain ⟨w, h0, hstep⟩ := BSeg.one_decompB h2
  exact ⟨w, by simpa using h1.transB h0, hstep⟩

/-- `ksList` is the arithmetic sequence starting at `-d`. -/
theorem ksList_eq_ksSeq (d : Nat) : ksList d = ksSeq (-(d : Int)) (d + 1) := by
  have key : ∀ (n : Nat) (s : Int),
      ((List.range n).map (fun i : Nat => s + 2 * (i : Int))) = ksSeq s n := by
    intro n
    induction n with
    | zero => intro s; rfl
    | succ m ih =>
      intro s
      rw [List.range_succ_eq_map, ksSeq, List.map_cons, List.map_map]
      refine congrArg₂ List.cons (by simp) ?_
      rw [← ih (s + 2)]
      refine List.map_congr_left ?_
      intro i hi
      simp only [Function.comp_apply, Nat.cast_succ]
      ring
  have hb : ∀ (l : List Nat) (f : Int → Int),
      List.map f (l.flatMap fun a => [(a : Int)]) =
        List.map (fun i : Nat => f (i : Int)) l := by
    intro l f
    induction l with
    | nil => rfl
    | cons a t ih => simp [ih]
  have h : ksList d =
      (List.range (d + 1)).map (fun i : Nat => -(d : Int) + 2 * (i : Int)) :=
    hb (List.range (d + 1)) (fun i => -(d : Int) + 2 * i)
  rw [h, key]

/-- Any diagonal run starting at or left of abscissa `x0` on diagonal
`k` ends at or left of the walk endpoint started at `(x0, yOf k x0)`. -/
theorem fwdReachBound {A B : List Nat} {box : Box} {k x0 : Int} {s z : Int × Int}
    (hs : s.2 = yOf box k s.1) (hsx : s.1 ≤ x0)
    (hrun : FSeg A B box s 0 z) :
    z.1 ≤ (walkFwd A B box.right box.bottom (box.right - x0).toNat x0 (yOf box k x0)).1 := by
  obtain ⟨hzd, hzx⟩ := FSeg.zero_diagF hrun
  by_cases hb : z.1 ≤ x0
  · exact le_trans hb (walkFwd_spec A B box _ x0 (yOf box k x0)).2.1
  · have hrun' : FSeg A B box (x0, yOf box k x0) 0 z :=
      FSeg.zeroSuffixF hrun (x0, yOf box k x0) hsx (by omega)
        (by simp only [yOf] at hs ⊢; omega)
    exact walkFwd_max A B box _ x0 (yOf box k x0) le_rfl hrun'

/-- One cell of the forward scan: if the entry abscissa `x0` is at least
both candidate predecessors and equals an achievable one, the walk
endpoint is the furthest `d`-reach on diagonal `k`. -/
theorem fwdCell {A B : List Nat} {box : Box} {d : Nat} {vf : Int → Int} {k x0 : Int}
    (hk1 : -(d : Int) ≤ k) (hk2 : k ≤ (d : Int)) (hpar : (k - (d : Int)) % 2 = 0)
    (hold : ∀ j : Int, -(d : Int) + 1 ≤ j → j ≤ (d : Int) - 1 →
      (j - ((d : Int) - 1)) % 2 = 0 → IsFw A B box (d - 1) j (vf j))
    (hgeU : k < (d : Int) → vf (k + 1) ≤ x0)
    (hgeL : -(d : Int) < k → vf (k - 1) + 1 ≤ x0)
    (hent : (k < (d : Int) ∧ x0 = vf (k + 1)) ∨ (-(d : Int) < k ∧ x0 = vf (k - 1) + 1) ∨
      (d = 0 ∧ x0 = box.left)) :
    IsFw A B box d k
      ((walkFwd A B box.right box.bottom (box.right - x0).toNat x0 (yOf box k x0)).1) := by
  obtain ⟨hrun, hxle, hdiag⟩ := walkFwd_spec A B box ((box.right - x0).toNat) x0 (yOf box k x0)
  have hW2 : (walkFwd A B box.right box.bottom (box.right - x0).toNat x0 (yOf box k x0)).2 =
      yOf box k (walkFwd A B box.right box.bottom (box.right - x0).toNat x0 (yOf box k x0)).1 := by
    simp only [yOf] at hdiag ⊢
    omega
  have base : FSeg A B box (box.left, box.top) d (x0, yOf box k x0) := by
    rcases hent with ⟨hklt, hx0⟩ | ⟨hkgt, hx0⟩ | ⟨hd0, hx0⟩
    · obtain ⟨e, rfl⟩ : ∃ e, d = e + 1 := ⟨d - 1, by omega⟩
      obtain ⟨hseg, -⟩ := hold (k + 1) (by omega) (by push_cast; omega)
        (by push_cast at hpar ⊢; omega)
      have hstep := FSeg.down _ _ (vf (k + 1)) (yOf box (k + 1) (vf (k + 1))) hseg
      have hy : yOf box (k + 1) (vf (k + 1)) + 1 = yOf box k (vf (k + 1)) := by
        simp only [yOf]; omega
      rw [hy] at hstep
      rw [hx0]
      exact hstep
    · obtain ⟨e, rfl⟩ : ∃ e, d = e + 1 := ⟨d - 1, by omega⟩
      obtain ⟨hseg, -⟩ := hold (k - 1) (by push_cast at hpar ⊢; omega) (by omega)
        (by push_cast at hpar ⊢; omega)
      have hstep := FSeg.right _ _ (vf (k - 1)) (yOf box (k - 1) (vf (k - 1))) hseg
      have hy : yOf box (k - 1) (vf (k - 1)) = yOf box k (vf (k - 1) + 1) := by
        simp only [yOf]; omega
      rw [hy] at hstep
      rw [hx0]
      exact hstep
    · have hk0 : k = 0 := by subst hd0; push_cast at hk1 hk2; omega
      have hpt : ((x0 : Int), yOf box k x0) = (box.left, box.top) := by
        rw [hx0, hk0]; simp [yOf]
      rw [hd0, hpt]
      exact FSeg.refl _
  constructor
  · have hfull := base.transF hrun
    rw [← hW2]
    exact hfull
  · intro x' hx'
    rcases Nat.eq_zero_or_pos d with hd0 | hdpos
    · subst hd0
      have hk0 : k = 0 := by push_cast at hk1 hk2; omega
      have hx0l : x0 = box.left := by
        rcases hent with ⟨h1, -⟩ | ⟨h1, -⟩ | ⟨-, h1⟩ <;> (push_cast at h1 ⊢; omega)
      have hcorner : ((box.left : Int), box.top) = (x0, yOf box k x0) := by
        rw [hx0l, hk0]; simp [yOf]
      rw [hcorner] at hx'
      exact walkFwd_max A B box _ x0 (yOf box k x0) le_rfl hx'
    · obtain ⟨e, rfl⟩ : ∃ e, d = e + 1 := ⟨d - 1, by omega⟩
      obtain ⟨wpt, hwseg, hstep⟩ := FSeg.step_decompF hx'
      rcases hstep with hR | hD
      · have hwd : wpt.2 = yOf box (k - 1) wpt.1 := by
          obtain ⟨h1, h2⟩ := FSeg.zero_diagF hR
          simp only [yOf] at h1 ⊢
          omega
        by_cases hkb : -((e : Int) + 1) < k
        · have hkb' : -(((e + 1 : Nat)) : Int) < k := by push_cast; omega
          have hwseg' : FSeg A B box (box.left, box.top) e (wpt.1, yOf box (k - 1) wpt.1) := by
            rw [← hwd]
            exact hwseg
          have hmax := (hold (k - 1) (by push_cast at hpar ⊢; omega)
            (by push_cast at hpar hk2 ⊢; omega) (by push_cast at hpar ⊢; omega)).2 wpt.1 hwseg'
          have hsx : wpt.1 + 1 ≤ x0 := by
            have := hgeL hkb'
            omega
          exact fwdReachBound (s := (wpt.1 + 1, wpt.2))
            (by simp only [yOf] at hwd ⊢; omega) hsx hR
        · exfalso
          have hke : k = -((e : Int) + 1) := by push_cast at hk1; omega
          have hdb := (FSeg.diagBoundF hwseg).2
          simp only [yOf] at hwd
          omega
      · have hwd : wpt.2 = yOf box (k + 1) wpt.1 := by
          obtain ⟨h1, h2⟩ := FSeg.zero_diagF hD
          simp only [yOf] at h1 ⊢
          omega
        by_cases hkb : k < (e : Int) + 1
        · have hkb' : k < (((e + 1 : Nat)) : Int) := by push_cast; omega
          have hwseg' : FSeg A B box (box.left, box.top) e (wpt.1, yOf box (k + 1) wpt.1) := by
            rw [← hwd]
            exact hwseg
          have hmax := (hold (k + 1) (by push_cast at hpar hk1 ⊢; omega)
            (by push_cast at hpar ⊢; omega) (by push_cast at hpar ⊢; omega)).2 wpt.1 hwseg'
          have hsx : wpt.1 ≤ x0 := by
            have := hgeU hkb'
            omega
          exact fwdReachBound (s := (wpt.1, wpt.2 + 1))
            (by simp only [yOf] at hwd ⊢; omega) hsx hD
        · exfalso
          have hke : k = (e : Int) + 1 := by push_cast at hk2; omega
          have hdb := (FSeg.diagBoundF hwseg).1
          simp only [yOf] at hwd
          omega

/-- The forward pass invariant: scanning the suffix of round-`d`
diagonals starting at `k₀`, with all earlier cells already final and
non-firing, either completes the round-`d` frontier without firing, or
returns a snake satisfying `FwdFireData`. -/
theorem forwardGo_scan (A B : List Nat) (box : Box) (vb : Int → Int) (d : Nat) :
    ∀ (n : Nat) (k₀ : Int) (vf : Int → Int),
      n ≤ d + 1 →
      k₀ = (d : Int) - 2 * n + 2 →
      (∀ j : Int, -(d : Int) + 1 ≤ j → j ≤ (d : Int) - 1 →
        (j - ((d : Int) - 1)) % 2 = 0 → IsFw A B box (d - 1) j (vf j)) →
      (d = 0 → vf 1 = box.left) →
      (∀ j : Int, -(d : Int) ≤ j → j < k₀ → (j - (d : Int)) % 2 = 0 →
        IsFw A B box d j (vf j)) →
      (∀ j : Int, -(d : Int) ≤ j → j < k₀ → (j - (d : Int)) % 2 = 0 →
        box.delta % 2 = 1 → -((d : Int) - 1) ≤ j - box.delta → j - box.delta < (d : Int) →
        yOf box j (vf j) < vb (j - box.delta)) →
      ((forwardGo A B box vb (d : Int) vf (ksSeq k₀ n)).2 = none →
        (∀ j : Int, -(d : Int) ≤ j → j ≤ (d : Int) → (j - (d : Int)) % 2 = 0 →
          IsFw A B box d j ((forwardGo A B box vb (d : Int) vf (ksSeq k₀ n)).1 j)) ∧
        FwdNoFire box vb d (forwardGo A B box vb (d : Int) vf (ksSeq k₀ n)).1) ∧
      (∀ s, (forwardGo A B box vb (d : Int) vf (ksSeq k₀ n)).2 = some s →
        FwdFireData A B box vb d s) := by
  intro n
  induction n with
  | zero =>
    intro k₀ vf hn hk₀ hold hseed hnew hnof
    refine ⟨fun _ => ⟨fun j hj1 hj2 hj3 => hnew j hj1 (by omega) hj3,
      fun j hj1 hj2 hj3 hδ hw1 hw2 => hnof j hj1 (by omega) hj3 hδ hw1 hw2⟩, ?_⟩
    intro s hs
    simp [ksSeq, forwardGo] at hs
  | succ m ih =>
    intro k₀ vf hn hk₀ hold hseed hnew hnof
    have hkr1 : -(d : Int) ≤ k₀ := by omega
    have hkr2 : k₀ ≤ (d : Int) := by omega
    have hkr3 : (k₀ - (d : Int)) % 2 = 0 := by omega
    simp only [ksSeq]
    by_cases hc : k₀ = -((d : Nat) : Int) ∨ (k₀ ≠ ((d : Nat) : Int) ∧ vf (k₀ - 1) < vf (k₀ + 1))
    · -- entry from above: x0 = vf (k₀ + 1)
      simp only [forwardGo, if_pos hc]
      have hcell : IsFw A B box d k₀
          ((walkFwd A B box.right box.bottom (box.right - vf (k₀ + 1)).toNat (vf (k₀ + 1))
            (yOf box k₀ (vf (k₀ + 1)))).1) := by
        rcases Nat.eq_zero_or_pos d with hd0 | hdpos
        · have hk00 : k₀ = 0 := by omega
          refine fwdCell hkr1 hkr2 hkr3 hold (by omega) (by omega) (Or.inr (Or.inr ⟨hd0, ?_⟩))
          rw [hk00]
          exact hseed hd0
        · have hklt : k₀ < (d : Int) := by
            rcases hc with h1 | ⟨h1, h2⟩
            · omega
            · omega
          refine fwdCell hkr1 hkr2 hkr3 hold (fun _ => le_refl _) ?_ (Or.inl ⟨hklt, rfl⟩)
          intro hgt
          rcases hc with h1 | ⟨h1, h2⟩
          · omega
          · omega
      rcases Nat.eq_zero_or_pos d with hd0 | hdpos
      · -- depth 0: the overlap window is empty, no fire possible
        rw [if_pos (Or.inl (by exact_mod_cast congrArg Nat.cast hd0))]
        rw [if_neg (by
          rintro ⟨-, ⟨hw1, hw2⟩, -⟩
          omega)]
        refine ?_
        -- continue the scan with the updated frontier
        refine ih (k₀ + 2)
          (fun j => if j = k₀ then
            (walkFwd A B box.right box.bottom (box.right - vf (k₀ + 1)).toNat (vf (k₀ + 1))
              (box.top + (vf (k₀ + 1) - box.left) - k₀)).1 else vf j)
          (by omega) (by omega) ?_ ?_ ?_ ?_
        · intro j hj1 hj2 hj3
          beta_reduce
          rw [if_neg (by omega)]
          exact hold j hj1 hj2 hj3
        · intro hd0'
          beta_reduce
          rw [if_neg (by omega)]
          exact hseed hd0'
        · intro j hj1 hj2 hj3
          beta_reduce
          by_cases hjk : j = k₀
          · subst hjk
            rw [if_pos rfl]
            exact hcell
          · rw [if_neg hjk]
            exact hnew j hj1 (by omega) hj3
        · intro j hj1 hj2 hj3 hδ hw1 hw2
          omega
      · -- depth ≥ 1
        rw [if_neg (show ¬(((d : Nat) : Int) = 0 ∨ vf (k₀ + 1) ≠ vf (k₀ + 1)) by
          rintro (h1 | h1)
          · omega
          · exact h1 rfl)]
        by_cases hfire : box.delta % 2 = 1 ∧
            (-(((d : Nat) : Int) - 1) ≤ k₀ - box.delta ∧ k₀ - box.delta < ((d : Nat) : Int)) ∧
            (walkFwd A B box.right box.bottom (box.right - vf (k₀ + 1)).toNat (vf (k₀ + 1))
              (box.top + (vf (k₀ + 1) - box.left) - k₀)).2 ≥ vb (k₀ - box.delta)
        · rw [if_pos hfire]
          refine ⟨fun h => absurd h (by simp), ?_⟩
          intro s hs
          obtain rfl : ((vf (k₀ + 1), box.top + (vf (k₀ + 1) - box.left) - k₀ - 1),
              ((walkFwd A B box.right box.bottom (box.right - vf (k₀ + 1)).toNat (vf (k₀ + 1))
                (box.top + (vf (k₀ + 1) - box.left) - k₀)).1,
               (walkFwd A B box.right box.bottom (box.right - vf (k₀ + 1)).toNat (vf (k₀ + 1))
                (box.top + (vf (k₀ + 1) - box.left) - k₀)).2)) = s := by
            exact Option.some.inj hs
          obtain ⟨hδ, ⟨hw1, hw2⟩, hov⟩ := hfire
          have hklt : k₀ < (d : Int) := by
            rcases hc with h1 | ⟨h1, h2⟩ <;> omega
          obtain ⟨hseg, -⟩ := hold (k₀ + 1) (by omega) (by omega) (by omega)
          obtain ⟨hrun, hxle, hdiag⟩ :=
            walkFwd_spec A B box ((box.right - vf (k₀ + 1)).toNat) (vf (k₀ + 1))
              (box.top + (vf (k₀ + 1) - box.left) - k₀)
          refine ⟨k₀, vf (k₀ + 1), box.top + (vf (k₀ + 1) - box.left) - k₀ - 1,
            vf (k₀ + 1), box.top + (vf (k₀ + 1) - box.left) - k₀, _, _,
            rfl, hkr1, hkr2, hkr3, hdpos, hδ, hw1, hw2, hov, ?_, ?_, ?_, ?_, ?_, ?_, ?_, ?_⟩
          · have : yOf box (k₀ + 1) (vf (k₀ + 1)) =
                box.top + (vf (k₀ + 1) - box.left) - k₀ - 1 := by
              simp only [yOf]; omega
            rw [← this]
            exact hseg
          · exact Or.inl ⟨rfl, by omega⟩
          · simp only [yOf]
          · exact hrun
          · omega
          · exact hxle
          · exact walkFwd_stop A B box _ (vf (k₀ + 1))
              (box.top + (vf (k₀ + 1) - box.left) - k₀) le_rfl
          · exact hcell
        · rw [if_neg hfire]
          refine ih (k₀ + 2)
            (fun j => if j = k₀ then
              (walkFwd A B box.right box.bottom (box.right - vf (k₀ + 1)).toNat (vf (k₀ + 1))
                (box.top + (vf (k₀ + 1) - box.left) - k₀)).1 else vf j)
            (by omega) (by omega) ?_ ?_ ?_ ?_
          · intro j hj1 hj2 hj3
            beta_reduce
            rw [if_neg (by omega)]
            exact hold j hj1 hj2 hj3
          · intro hd0'
            omega
          · intro j hj1 hj2 hj3
            beta_reduce
            by_cases hjk : j = k₀
            · subst hjk
              rw [if_pos rfl]
              exact hcell
            · rw [if_neg hjk]
              exact hnew j hj1 (by omega) hj3
          · intro j hj1 hj2 hj3 hδ hw1 hw2
            beta_reduce
            by_cases hjk : j = k₀
            · subst hjk
              rw [if_pos rfl]
              obtain ⟨hrun, hxle, hdiag⟩ :=
                walkFwd_spec A B box ((box.right - vf (j + 1)).toNat) (vf (j + 1))
                  (box.top + (vf (j + 1) - box.left) - j)
              have hlt : ¬((walkFwd A B box.right box.bottom (box.right - vf (j + 1)).toNat
                  (vf (j + 1)) (box.top + (vf (j + 1) - box.left) - j)).2 ≥
                    vb (j - box.delta)) := by
                intro hge
                exact hfire ⟨hδ, ⟨hw1, hw2⟩, hge⟩
              simp only [yOf] at hdiag ⊢
              omega
            · rw [if_neg hjk]
              exact hnof j hj1 (by omega) hj3 hδ hw1 hw2
    · -- entry from the left: x0 = vf (k₀ - 1) + 1
      simp only [forwardGo, if_neg hc]
      push_neg at hc
      obtain ⟨hcne, hcge⟩ := hc
      have hdpos : 1 ≤ d := by omega
      have hkgt : -(d : Int) < k₀ := by omega
      have hcell : IsFw A B box d k₀
          ((walkFwd A B box.right box.bottom (box.right - (vf (k₀ - 1) + 1)).toNat
            (vf (k₀ - 1) + 1) (yOf box k₀ (vf (k₀ - 1) + 1))).1) := by
        refine fwdCell hkr1 hkr2 hkr3 hold ?_ (fun _ => le_refl _) (Or.inr (Or.inl ⟨hkgt, rfl⟩))
        intro hlt
        have := hcge (by omega)
        omega
      rw [if_pos (Or.inr (show vf (k₀ - 1) + 1 ≠ vf (k₀ - 1) by omega))]
      by_cases hfire : box.delta % 2 = 1 ∧
          (-(((d : Nat) : Int) - 1) ≤ k₀ - box.delta ∧ k₀ - box.delta < ((d : Nat) : Int)) ∧
          (walkFwd A B box.right box.bottom (box.right - (vf (k₀ - 1) + 1)).toNat
            (vf (k₀ - 1) + 1)
            (box.top + (vf (k₀ - 1) + 1 - box.left) - k₀)).2 ≥ vb (k₀ - box.delta)
      · rw [if_pos hfire]
        refine ⟨fun h => absurd h (by simp), ?_⟩
        intro s hs
        obtain rfl := Option.some.inj hs
        obtain ⟨hδ, ⟨hw1, hw2⟩, hov⟩ := hfire
        obtain ⟨hseg, -⟩ := hold (k₀ - 1) (by omega) (by omega) (by omega)
        obtain ⟨hrun, hxle, hdiag⟩ :=
          walkFwd_spec A B box ((box.right - (vf (k₀ - 1) + 1)).toNat) (vf (k₀ - 1) + 1)
            (box.top + (vf (k₀ - 1) + 1 - box.left) - k₀)
        refine ⟨k₀, vf (k₀ - 1), box.top + (vf (k₀ - 1) + 1 - box.left) - k₀,
          vf (k₀ - 1) + 1, box.top + (vf (k₀ - 1) + 1 - box.left) - k₀, _, _,
          rfl, hkr1, hkr2, hkr3, hdpos, hδ, hw1, hw2, hov, ?_, ?_, ?_, ?_, ?_, ?_, ?_, ?_⟩
        · have : yOf box (k₀ - 1) (vf (k₀ - 1)) =
              box.top + (vf (k₀ - 1) + 1 - box.left) - k₀ := by
            simp only [yOf]; omega
          rw [← this]
          exact hseg
        · exact Or.inr ⟨by omega, rfl⟩
        · simp only [yOf]
        · exact hrun
        · omega
        · exact hxle
        · exact walkFwd_stop A B box _ (vf (k₀ - 1) + 1)
            (box.top + (vf (k₀ - 1) + 1 - box.left) - k₀) le_rfl
        · exact hcell
      · rw [if_neg hfire]
        refine ih (k₀ + 2)
          (fun j => if j = k₀ then
            (walkFwd A B box.right box.bottom (box.right - (vf (k₀ - 1) + 1)).toNat
              (vf (k₀ - 1) + 1) (box.top + (vf (k₀ - 1) + 1 - box.left) - k₀)).1 else vf j)
          (by omega) (by omega) ?_ ?_ ?_ ?_
        · intro j hj1 hj2 hj3
          beta_reduce
          rw [if_neg (by omega)]
          exact hold j hj1 hj2 hj3
        · intro hd0'
          omega
        · intro j hj1 hj2 hj3
          beta_reduce
          by_cases hjk : j = k₀
          · subst hjk
            rw [if_pos rfl]
            exact hcell
          · rw [if_neg hjk]
            exact hnew j hj1 (by omega) hj3
        · intro j hj1 hj2 hj3 hδ hw1 hw2
          beta_reduce
          by_cases hjk : j = k₀
          · subst hjk
            rw [if_pos rfl]
            obtain ⟨hrun, hxle, hdiag⟩ :=
              walkFwd_spec A B box ((box.right - (vf (j - 1) + 1)).toNat) (vf (j - 1) + 1)
                (box.top + (vf (j - 1) + 1 - box.left) - j)
            have hlt : ¬((walkFwd A B box.right box.bottom (box.right - (vf (j - 1) + 1)).toNat
                (vf (j - 1) + 1) (box.top + (vf (j - 1) + 1 - box.left) - j)).2 ≥
                  vb (j - box.delta)) := by
              intro hge
              exact hfire ⟨hδ, ⟨hw1, hw2⟩, hge⟩
            simp only [yOf] at hdiag ⊢
            omega
          · rw [if_neg hjk]
            exact hnof j hj1 (by omega) hj3 hδ hw1 hw2

/-- Any diagonal run starting at or below ordinate `y0` on backward
diagonal `c` ends at or below the walk endpoint started at
`(xOf c y0, y0)`. -/
theorem bwdReachBound {A B : List Nat} {box : Box} {c y0 : Int} {s z : Int × Int}
    (hs : s.1 = xOf box c s.2) (hsy : y0 ≤ s.2)
    (hrun : BSeg A B box s 0 z) :
    (walkBwd A B box.left box.top (y0 - box.top).toNat (xOf box c y0) y0).2 ≤ z.2 := by
  obtain ⟨hzd, hzx⟩ := BSeg.zero_diagB hrun
  by_cases hb : y0 ≤ z.2
  · exact le_trans (walkBwd_spec A B box _ (xOf box c y0) y0).2.1 hb
  · have hrun' : BSeg A B box (xOf box c y0, y0) 0 z :=
      BSeg.zeroSuffixB hrun (xOf box c y0, y0)
        (by simp only [xOf] at hs ⊢; omega) (by simp only [xOf] at hs ⊢; omega)
        (by simp only [xOf] at hs ⊢; omega)
    exact walkBwd_max A B box _ (xOf box c y0) y0 le_rfl hrun'

/-- One cell of the backward scan: if the entry ordinate `y0` is at most
both candidate predecessors and equals an achievable one, the walk
endpoint is the furthest (lowest) `d`-reach on backward diagonal `c`. -/
theorem bwdCell {A B : List Nat} {box : Box} {d : Nat} {vb : Int → Int} {c y0 : Int}
    (hc1 : -(d : Int) ≤ c) (hc2 : c ≤ (d : Int)) (hpar : (c - (d : Int)) % 2 = 0)
    (hold : ∀ j : Int, -(d : Int) + 1 ≤ j → j ≤ (d : Int) - 1 →
      (j - ((d : Int) - 1)) % 2 = 0 → IsBw A B box (d - 1) j (vb j))
    (hleL : c < (d : Int) → y0 ≤ vb (c + 1))
    (hleU : -(d : Int) < c → y0 ≤ vb (c - 1) - 1)
    (hent : (c < (d : Int) ∧ y0 = vb (c + 1)) ∨ (-(d : Int) < c ∧ y0 = vb (c - 1) - 1) ∨
      (d = 0 ∧ y0 = box.bottom)) :
    IsBw A B box d c
      ((walkBwd A B box.left box.top (y0 - box.top).toNat (xOf box c y0) y0).2) := by
  obtain ⟨hrun, hyle, hdiag⟩ := walkBwd_spec A B box ((y0 - box.top).toNat) (xOf box c y0) y0
  have hW1 : (walkBwd A B box.left box.top (y0 - box.top).toNat (xOf box c y0) y0).1 =
      xOf box c (walkBwd A B box.left box.top (y0 - box.top).toNat (xOf box c y0) y0).2 := by
    simp only [xOf] at hdiag ⊢
    omega
  have base : BSeg A B box (box.right, box.bottom) d (xOf box c y0, y0) := by
    rcases hent with ⟨hclt, hy0⟩ | ⟨hcgt, hy0⟩ | ⟨hd0, hy0⟩
    · obtain ⟨e, rfl⟩ : ∃ e, d = e + 1 := ⟨d - 1, by omega⟩
      obtain ⟨hseg, -⟩ := hold (c + 1) (by omega) (by push_cast; omega)
        (by push_cast at hpar ⊢; omega)
      have hstep := BSeg.left _ _ (xOf box (c + 1) (vb (c + 1))) (vb (c + 1)) hseg
      have hx : xOf box (c + 1) (vb (c + 1)) - 1 = xOf box c (vb (c + 1)) := by
        simp only [xOf]; omega
      rw [hx] at hstep
      rw [hy0]
      exact hstep
    · obtain ⟨e, rfl⟩ : ∃ e, d = e + 1 := ⟨d - 1, by omega⟩
      obtain ⟨hseg, -⟩ := hold (c - 1) (by push_cast at hpar ⊢; omega) (by omega)
        (by push_cast at hpar ⊢; omega)
      have hstep := BSeg.up _ _ (xOf box (c - 1) (vb (c - 1))) (vb (c - 1)) hseg
      have hx : xOf box (c - 1) (vb (c - 1)) = xOf box c (vb (c - 1) - 1) := by
        simp only [xOf]; omega
      rw [hx] at hstep
      rw [hy0]
      exact hstep
    · have hc0 : c = 0 := by subst hd0; push_cast at hc1 hc2; omega
      have hpt : ((xOf box c y0 : Int), y0) = (box.right, box.bottom) := by
        rw [hy0, hc0]
        have : xOf box 0 box.bottom = box.right := by
          simp only [xOf, Box.delta, Box.width, Box.height]; omega
        rw [this]
      rw [hd0, hpt]
      exact BSeg.refl _
  constructor
  · have hfull := base.transB hrun
    rw [← hW1]
    exact hfull
  · intro y' hy'
    rcases Nat.eq_zero_or_pos d with hd0 | hdpos
    · subst hd0
      have hc0 : c = 0 := by push_cast at hc1 hc2; omega
      have hy0b : y0 = box.bottom := by
        rcases hent with ⟨h1, -⟩ | ⟨h1, -⟩ | ⟨-, h1⟩ <;> (push_cast at h1 ⊢; omega)
      have hcorner : ((box.right : Int), box.bottom) = (xOf box c y0, y0) := by
        rw [hy0b, hc0]
        have : xOf box 0 box.bottom = box.right := by
          simp only [xOf, Box.delta, Box.width, Box.height]; omega
        rw [this]
      rw [hcorner] at hy'
      exact walkBwd_max A B box _ (xOf box c y0) y0 le_rfl hy'
    · obtain ⟨e, rfl⟩ : ∃ e, d = e + 1 := ⟨d - 1, by omega⟩
      obtain ⟨wpt, hwseg, hstep⟩ := BSeg.step_decompB hy'
      rcases hstep with hL | hU
      · have hwd : wpt.1 = xOf box (c + 1) wpt.2 := by
          obtain ⟨h1, h2⟩ := BSeg.zero_diagB hL
          simp only [xOf] at h1 ⊢
          omega
        by_cases hcb : c < (e : Int) + 1
        · have hcb' : c < (((e + 1 : Nat)) : Int) := by push_cast; omega
          have hwseg' : BSeg A B box (box.right, box.bottom) e
              (xOf box (c + 1) wpt.2, wpt.2) := by
            rw [← hwd]
            exact hwseg
          have hmin := (hold (c + 1) (by push_cast at hpar hc1 ⊢; omega)
            (by push_cast at hpar ⊢; omega) (by push_cast at hpar ⊢; omega)).2 wpt.2 hwseg'
          have hsy : y0 ≤ wpt.2 := by
            have := hleL hcb'
            omega
          exact bwdReachBound (s := (wpt.1 - 1, wpt.2))
            (by simp only [xOf] at hwd ⊢; omega) hsy hL
        · exfalso
          have hce : c = (e : Int) + 1 := by push_cast at hc2; omega
          have hdb := (BSeg.diagBoundB hwseg).1
          simp only [xOf] at hwd
          have hδ : box.delta = (box.right - box.left) - (box.bottom - box.top) := by
            simp only [Box.delta, Box.width, Box.height]
          omega
      · have hwd : wpt.1 = xOf box (c - 1) wpt.2 := by
          obtain ⟨h1, h2⟩ := BSeg.zero_diagB hU
          simp only [xOf] at h1 ⊢
          omega
        by_cases hcb : -((e : Int) + 1) < c
        · have hcb' : -(((e + 1 : Nat)) : Int) < c := by push_cast; omega
          have hwseg' : BSeg A B box (box.right, box.bottom) e
              (xOf box (c - 1) wpt.2, wpt.2) := by
            rw [← hwd]
            exact hwseg
          have hmin := (hold (c - 1) (by push_cast at hpar ⊢; omega)
            (by push_cast at hpar hc2 ⊢; omega) (by push_cast at hpar ⊢; omega)).2 wpt.2 hwseg'
          have hsy : y0 ≤ wpt.2 - 1 := by
            have := hleU hcb'
            omega
          exact bwdReachBound (s := (wpt.1, wpt.2 - 1))
            (by simp only [xOf] at hwd ⊢; omega) hsy hU
        · exfalso
          have hce : c = -((e : Int) + 1) := by push_cast at hc1; omega
          have hdb := (BSeg.diagBoundB hwseg).2
          simp only [xOf] at hwd
          have hδ : box.delta = (box.right - box.left) - (box.bottom - box.top) := by
            simp only [Box.delta, Box.width, Box.height]
          omega

/-- The backward pass invariant, mirror image of `forwardGo_scan`. -/
theorem backwardGo_scan (A B : List Nat) (box : Box) (vf : Int → Int) (d : Nat) :
    ∀ (n : Nat) (c₀ : Int) (vb : Int → Int),
      n ≤ d + 1 →
      c₀ = (d : Int) - 2 * n + 2 →
      (∀ j : Int, -(d : Int) + 1 ≤ j → j ≤ (d : Int) - 1 →
        (j - ((d : Int) - 1)) % 2 = 0 → IsBw A B box (d - 1) j (vb j)) →
      (d = 0 → vb 1 = box.bottom) →
      (∀ j : Int, -(d : Int) ≤ j → j < c₀ → (j - (d : Int)) % 2 = 0 →
        IsBw A B box d j (vb j)) →
      (∀ j : Int, -(d : Int) ≤ j → j < c₀ → (j - (d : Int)) % 2 = 0 →
        box.delta % 2 = 0 → -(d : Int) ≤ j + box.delta → j + box.delta ≤ (d : Int) →
        vf (j + box.delta) < xOf box j (vb j)) →
      ((backwardGo A B box vf (d : Int) vb (ksSeq c₀ n)).2 = none →
        (∀ j : Int, -(d : Int) ≤ j → j ≤ (d : Int) → (j - (d : Int)) % 2 = 0 →
          IsBw A B box d j ((backwardGo A B box vf (d : Int) vb (ksSeq c₀ n)).1 j)) ∧
        BwdNoFire box vf d (backwardGo A B box vf (d : Int) vb (ksSeq c₀ n)).1) ∧
      (∀ s, (backwardGo A B box vf (d : Int) vb (ksSeq c₀ n)).2 = some s →
        BwdFireData A B box vf d s) := by
  intro n
  induction n with
  | zero =>
    intro c₀ vb hn hc₀ hold hseed hnew hnof
    refine ⟨fun _ => ⟨fun j hj1 hj2 hj3 => hnew j hj1 (by omega) hj3,
      fun j hj1 hj2 hj3 hδ hw1 hw2 => hnof j hj1 (by omega) hj3 hδ hw1 hw2⟩, ?_⟩
    intro s hs
    simp [ksSeq, backwardGo] at hs
  | succ m ih =>
    intro c₀ vb hn hc₀ hold hseed hnew hnof
    have hcr1 : -(d : Int) ≤ c₀ := by omega
    have hcr2 : c₀ ≤ (d : Int) := by omega
    have hcr3 : (c₀ - (d : Int)) % 2 = 0 := by omega
    simp only [ksSeq]
    by_cases hc : c₀ = -((d : Nat) : Int) ∨ (c₀ ≠ ((d : Nat) : Int) ∧ vb (c₀ - 1) > vb (c₀ + 1))
    · -- entry by a left step: y0 = vb (c₀ + 1)
      simp only [backwardGo, if_pos hc]
      rcases Nat.eq_zero_or_pos d with hd0 | hdpos
      · -- depth 0: c₀ = 0, the snake starts at the corner itself
        have hc00 : c₀ = 0 := by omega
        have hcell : IsBw A B box d c₀
            ((walkBwd A B box.left box.top (vb (c₀ + 1) - box.top).toNat
              (xOf box c₀ (vb (c₀ + 1))) (vb (c₀ + 1))).2) := by
          refine bwdCell hcr1 hcr2 hcr3 hold (by omega) (by omega)
            (Or.inr (Or.inr ⟨hd0, ?_⟩))
          rw [hc00]
          exact hseed hd0
        rw [if_pos (Or.inl (by exact_mod_cast congrArg Nat.cast hd0))]
        by_cases hfire : box.delta % 2 = 0 ∧
            (-((d : Nat) : Int) ≤ c₀ + box.delta ∧ c₀ + box.delta < ((d : Nat) : Int) + 1) ∧
            (walkBwd A B box.left box.top (vb (c₀ + 1) - box.top).toNat
              (box.left + (vb (c₀ + 1) - box.top) + (c₀ + box.delta)) (vb (c₀ + 1))).1 ≤
              vf (c₀ + box.delta)
        · rw [if_pos hfire]
          refine ⟨fun h => absurd h (by simp), ?_⟩
          intro s hs
          obtain rfl := Option.some.inj hs
          obtain ⟨hδ, ⟨hw1, hw2⟩, hov⟩ := hfire
          obtain ⟨hrun, hyle, hdiag⟩ :=
            walkBwd_spec A B box ((vb (c₀ + 1) - box.top).toNat)
              (box.left + (vb (c₀ + 1) - box.top) + (c₀ + box.delta)) (vb (c₀ + 1))
          have hbt : vb (c₀ + 1) = box.bottom := by rw [hc00]; exact hseed hd0
          refine ⟨c₀, box.left + (vb (c₀ + 1) - box.top) + (c₀ + box.delta), vb (c₀ + 1),
            box.left + (vb (c₀ + 1) - box.top) + (c₀ + box.delta), vb (c₀ + 1), _, _, 0,
            rfl, hcr1, hcr2, hcr3, hδ, hw1, by omega, hov, ?_, ?_, ?_, ?_, ?_, ?_, ?_, ?_⟩
          · have hpt : ((box.left + (vb (c₀ + 1) - box.top) + (c₀ + box.delta) : Int),
                vb (c₀ + 1)) = (box.right, box.bottom) := by
              have : c₀ + box.delta = 0 := by omega
              rw [hbt, this]
              have : box.left + (box.bottom - box.top) + 0 = box.right := by
                have hδ2 : box.delta = (box.right - box.left) - (box.bottom - box.top) := by
                  simp only [Box.delta, Box.width, Box.height]
                omega
              rw [this]
            rw [hpt]
            exact BSeg.refl _
          · exact Or.inl ⟨hd0, rfl, rfl, rfl⟩
          · simp only [xOf]
          · exact hrun
          · omega
          · exact hyle
          · exact walkBwd_stop A B box _
              (box.left + (vb (c₀ + 1) - box.top) + (c₀ + box.delta)) (vb (c₀ + 1)) le_rfl
          · exact hcell
        · rw [if_neg hfire]
          refine ih (c₀ + 2)
            (fun j => if j = c₀ then
              (walkBwd A B box.left box.top (vb (c₀ + 1) - box.top).toNat
                (box.left + (vb (c₀ + 1) - box.top) + (c₀ + box.delta)) (vb (c₀ + 1))).2
              else vb j)
            (by omega) (by omega) ?_ ?_ ?_ ?_
          · intro j hj1 hj2 hj3
            beta_reduce
            rw [if_neg (by omega)]
            exact hold j hj1 hj2 hj3
          · intro hd0'
            beta_reduce
            rw [if_neg (by omega)]
            exact hseed hd0'
          · intro j hj1 hj2 hj3
            beta_reduce
            by_cases hjc : j = c₀
            · subst hjc
              rw [if_pos rfl]
              exact hcell
            · rw [if_neg hjc]
              exact hnew j hj1 (by omega) hj3
          · intro j hj1 hj2 hj3 hδ hw1 hw2
            beta_reduce
            by_cases hjc : j = c₀
            · subst hjc
              rw [if_pos rfl]
              obtain ⟨hrun, hyle, hdiag⟩ :=
                walkBwd_spec A B box ((vb (j + 1) - box.top).toNat)
                  (box.left + (vb (j + 1) - box.top) + (j + box.delta)) (vb (j + 1))
              have hlt : ¬((walkBwd A B box.left box.top (vb (j + 1) - box.top).toNat
                  (box.left + (vb (j + 1) - box.top) + (j + box.delta)) (vb (j + 1))).1 ≤
                    vf (j + box.delta)) := by
                intro hge
                exact hfire ⟨hδ, ⟨hw1, by omega⟩, hge⟩
              simp only [xOf] at hdiag ⊢
              omega
            · rw [if_neg hjc]
              exact hnof j hj1 (by omega) hj3 hδ hw1 hw2
      · -- depth ≥ 1
        have hclt : c₀ < (d : Int) := by
          rcases hc with h1 | ⟨h1, h2⟩ <;> omega
        have hcell : IsBw A B box d c₀
            ((walkBwd A B box.left box.top (vb (c₀ + 1) - box.top).toNat
              (xOf box c₀ (vb (c₀ + 1))) (vb (c₀ + 1))).2) := by
          refine bwdCell hcr1 hcr2 hcr3 hold (fun _ => le_refl _) ?_
            (Or.inl ⟨hclt, rfl⟩)
          intro hgt
          rcases hc with h1 | ⟨h1, h2⟩
          · omega
          · omega
        rw [if_neg (show ¬(((d : Nat) : Int) = 0 ∨ vb (c₀ + 1) ≠ vb (c₀ + 1)) by
          rintro (h1 | h1)
          · omega
          · exact h1 rfl)]
        by_cases hfire : box.delta % 2 = 0 ∧
            (-((d : Nat) : Int) ≤ c₀ + box.delta ∧ c₀ + box.delta < ((d : Nat) : Int) + 1) ∧
            (walkBwd A B box.left box.top (vb (c₀ + 1) - box.top).toNat
              (box.left + (vb (c₀ + 1) - box.top) + (c₀ + box.delta)) (vb (c₀ + 1))).1 ≤
              vf (c₀ + box.delta)
        · rw [if_pos hfire]
          refine ⟨fun h => absurd h (by simp), ?_⟩
          intro s hs
          obtain rfl := Option.some.inj hs
          obtain ⟨hδ, ⟨hw1, hw2⟩, hov⟩ := hfire
          obtain ⟨hseg, -⟩ := hold (c₀ + 1) (by omega) (by omega) (by omega)
          obtain ⟨hrun, hyle, hdiag⟩ :=
            walkBwd_spec A B box ((vb (c₀ + 1) - box.top).toNat)
              (box.left + (vb (c₀ + 1) - box.top) + (c₀ + box.delta)) (vb (c₀ + 1))
          refine ⟨c₀, box.left + (vb (c₀ + 1) - box.top) + (c₀ + box.delta) + 1, vb (c₀ + 1),
            box.left + (vb (c₀ + 1) - box.top) + (c₀ + box.delta), vb (c₀ + 1), _, _, d - 1,
            rfl, hcr1, hcr2, hcr3, hδ, hw1, by omega, hov, ?_, ?_, ?_, ?_, ?_, ?_, ?_, ?_⟩
          · have hx : xOf box (c₀ + 1) (vb (c₀ + 1)) =
                box.left + (vb (c₀ + 1) - box.top) + (c₀ + box.delta) + 1 := by
              simp only [xOf]; omega
            rw [← hx]
            exact hseg
          · exact Or.inr ⟨hdpos, rfl, Or.inl ⟨by omega, rfl⟩⟩
          · simp only [xOf]
          · exact hrun
          · omega
          · exact hyle
          · exact walkBwd_stop A B box _
              (box.left + (vb (c₀ + 1) - box.top) + (c₀ + box.delta)) (vb (c₀ + 1)) le_rfl
          · exact hcell
        · rw [if_neg hfire]
          refine ih (c₀ + 2)
            (fun j => if j = c₀ then
              (walkBwd A B box.left box.top (vb (c₀ + 1) - box.top).toNat
                (box.left + (vb (c₀ + 1) - box.top) + (c₀ + box.delta)) (vb (c₀ + 1))).2
              else vb j)
            (by omega) (by omega) ?_ ?_ ?_ ?_
          · intro j hj1 hj2 hj3
            beta_reduce
            rw [if_neg (by omega)]
            exact hold j hj1 hj2 hj3
          · intro hd0'
            omega
          · intro j hj1 hj2 hj3
            beta_reduce
            by_cases hjc : j = c₀
            · subst hjc
              rw [if_pos rfl]
              exact hcell
            · rw [if_neg hjc]
              exact hnew j hj1 (by omega) hj3
          · intro j hj1 hj2 hj3 hδ hw1 hw2
            beta_reduce
            by_cases hjc : j = c₀
            · subst hjc
              rw [if_pos rfl]
              obtain ⟨hrun, hyle, hdiag⟩ :=
                walkBwd_spec A B box ((vb (j + 1) - box.top).toNat)
                  (box.left + (vb (j + 1) - box.top) + (j + box.delta)) (vb (j + 1))
              have hlt : ¬((walkBwd A B box.left box.top (vb (j + 1) - box.top).toNat
                  (box.left + (vb (j + 1) - box.top) + (j + box.delta)) (vb (j + 1))).1 ≤
                    vf (j + box.delta)) := by
                intro hge
                exact hfire ⟨hδ, ⟨hw1, by omega⟩, hge⟩
              simp only [xOf] at hdiag ⊢
              omega
            · rw [if_neg hjc]
              exact hnof j hj1 (by omega) hj3 hδ hw1 hw2
    · -- entry by an up step: y0 = vb (c₀ - 1) - 1
      simp only [backwardGo, if_neg hc]
      push_neg at hc
      obtain ⟨hcne, hcle⟩ := hc
      have hdpos : 1 ≤ d := by omega
      have hcgt : -(d : Int) < c₀ := by omega
      have hcell : IsBw A B box d c₀
          ((walkBwd A B box.left box.top (vb (c₀ - 1) - 1 - box.top).toNat
            (xOf box c₀ (vb (c₀ - 1) - 1)) (vb (c₀ - 1) - 1)).2) := by
        refine bwdCell hcr1 hcr2 hcr3 hold ?_ (fun _ => le_refl _)
          (Or.inr (Or.inl ⟨hcgt, rfl⟩))
        intro hlt
        have := hcle (by omega)
        omega
      rw [if_pos (Or.inr (show vb (c₀ - 1) - 1 ≠ vb (c₀ - 1) by omega))]
      by_cases hfire : box.delta % 2 = 0 ∧
          (-((d : Nat) : Int) ≤ c₀ + box.delta ∧ c₀ + box.delta < ((d : Nat) : Int) + 1) ∧
          (walkBwd A B box.left box.top (vb (c₀ - 1) - 1 - box.top).toNat
            (box.left + (vb (c₀ - 1) - 1 - box.top) + (c₀ + box.delta)) (vb (c₀ - 1) - 1)).1 ≤
            vf (c₀ + box.delta)
      · rw [if_pos hfire]
        refine ⟨fun h => absurd h (by simp), ?_⟩
        intro s hs
        obtain rfl := Option.some.inj hs
        obtain ⟨hδ, ⟨hw1, hw2⟩, hov⟩ := hfire
        obtain ⟨hseg, -⟩ := hold (c₀ - 1) (by omega) (by omega) (by omega)
        obtain ⟨hrun, hyle, hdiag⟩ :=
          walkBwd_spec A B box ((vb (c₀ - 1) - 1 - box.top).toNat)
            (box.left + (vb (c₀ - 1) - 1 - box.top) + (c₀ + box.delta)) (vb (c₀ - 1) - 1)
        refine ⟨c₀, box.left + (vb (c₀ - 1) - 1 - box.top) + (c₀ + box.delta), vb (c₀ - 1),
          box.left + (vb (c₀ - 1) - 1 - box.top) + (c₀ + box.delta), vb (c₀ - 1) - 1, _, _,
          d - 1, rfl, hcr1, hcr2, hcr3, hδ, hw1, by omega, hov, ?_, ?_, ?_, ?_, ?_, ?_, ?_, ?_⟩
        · have hx : xOf box (c₀ - 1) (vb (c₀ - 1)) =
              box.left + (vb (c₀ - 1) - 1 - box.top) + (c₀ + box.delta) := by
            simp only [xOf]; omega
          rw [← hx]
          exact hseg
        · exact Or.inr ⟨hdpos, rfl, Or.inr ⟨rfl, rfl⟩⟩
        · simp only [xOf]
        · exact hrun
        · omega
        · exact hyle
        · exact walkBwd_stop A B box _
            (box.left + (vb (c₀ - 1) - 1 - box.top) + (c₀ + box.delta)) (vb (c₀ - 1) - 1) le_rfl
        · exact hcell
      · rw [if_neg hfire]
        refine ih (c₀ + 2)
          (fun j => if j = c₀ then
            (walkBwd A B box.left box.top (vb (c₀ - 1) - 1 - box.top).toNat
              (box.left + (vb (c₀ - 1) - 1 - box.top) + (c₀ + box.delta)) (vb (c₀ - 1) - 1)).2
            else vb j)
          (by omega) (by omega) ?_ ?_ ?_ ?_
        · intro j hj1 hj2 hj3
          beta_reduce
          rw [if_neg (by omega)]
          exact hold j hj1 hj2 hj3
        · intro hd0'
          omega
        · intro j hj1 hj2 hj3
          beta_reduce
          by_cases hjc : j = c₀
          · subst hjc
            rw [if_pos rfl]
            exact hcell
          · rw [if_neg hjc]
            exact hnew j hj1 (by omega) hj3
        · intro j hj1 hj2 hj3 hδ hw1 hw2
          beta_reduce
          by_cases hjc : j = c₀
          · subst hjc
            rw [if_pos rfl]
            obtain ⟨hrun, hyle, hdiag⟩ :=
              walkBwd_spec A B box ((vb (j - 1) - 1 - box.top).toNat)
                (box.left + (vb (j - 1) - 1 - box.top) + (j + box.delta)) (vb (j - 1) - 1)
            have hlt : ¬((walkBwd A B box.left box.top (vb (j - 1) - 1 - box.top).toNat
                (box.left + (vb (j - 1) - 1 - box.top) + (j + box.delta)) (vb (j - 1) - 1)).1 ≤
                  vf (j + box.delta)) := by
              intro hge
              exact hfire ⟨hδ, ⟨hw1, by omega⟩, hge⟩
            simp only [xOf] at hdiag ⊢
            omega
          · rw [if_neg hjc]
            exact hnof j hj1 (by omega) hj3 hδ hw1 hw2

/-- A non-firing forward frontier, with both frontiers meaning what
they store, is the intrinsic no-overlap statement. -/
theorem fwdNoFire_intrinsic {A B : List Nat} {box : Box} {d : Nat}
    {vf vb : Int → Int}
    (hcells : ∀ j : Int, -(d : Int) ≤ j → j ≤ (d : Int) → (j - (d : Int)) % 2 = 0 →
      IsFw A B box d j (vf j))
    (hbcells : ∀ j : Int, -(d : Int) + 1 ≤ j → j ≤ (d : Int) - 1 →
      (j - ((d : Int) - 1)) % 2 = 0 → IsBw A B box (d - 1) j (vb j))
    (hnf : FwdNoFire box vb d vf) : NoOverF A B box d := by
  intro k x y hk1 hk2 hk3 hδ hw1 hw2 hF hB
  have hxle : x ≤ vf k := (hcells k hk1 hk2 hk3).2 x hF
  have hyge : vb (k - box.delta) ≤ y :=
    (hbcells (k - box.delta) (by omega) (by omega) (by omega)).2 y hB
  have := hnf k hk1 hk2 hk3 hδ hw1 hw2
  simp only [yOf] at *
  omega

/-- A non-firing backward frontier is the intrinsic no-overlap
statement. -/
theorem bwdNoFire_intrinsic {A B : List Nat} {box : Box} {d : Nat}
    {vf vb : Int → Int}
    (hcells : ∀ j : Int, -(d : Int) ≤ j → j ≤ (d : Int) → (j - (d : Int)) % 2 = 0 →
      IsBw A B box d j (vb j))
    (hfcells : ∀ j : Int, -(d : Int) ≤ j → j ≤ (d : Int) → (j - (d : Int)) % 2 = 0 →
      IsFw A B box d j (vf j))
    (hnf : BwdNoFire box vf d vb) : NoOverB A B box d := by
  intro c x y hc1 hc2 hc3 hδ hw1 hw2 hB hF
  have hyge : vb c ≤ y := (hcells c hc1 hc2 hc3).2 y hB
  have hxle : x ≤ vf (c + box.delta) :=
    (hfcells (c + box.delta) (by omega) (by omega) (by omega)).2 x hF
  have := hnf c hc1 hc2 hc3 hδ hw1 hw2
  simp only [xOf] at *
  omega

/-- `FwdFireData` against a meaningful backward frontier yields the
intrinsic fire description. -/
theorem fwdFireData_intrinsic {A B : List Nat} {box : Box} {d : Nat}
    {vb : Int → Int} {s : Snake}
    (hbcells : ∀ j : Int, -(d : Int) + 1 ≤ j → j ≤ (d : Int) - 1 →
      (j - ((d : Int) - 1)) % 2 = 0 → IsBw A B box (d - 1) j (vb j))
    (h : FwdFireData A B box vb d s) : FwdFire A B box d s := by
  obtain ⟨k, px, py, x0, y0, x', y', hs, hk1, hk2, hk3, hd, hδ, hw1, hw2, hov,
    hseg, hstep, hy0, hrun, hdiag, hxle, hstop, hfw⟩ := h
  exact ⟨k, px, py, x0, y0, x', y', hs, hk1, hk2, hk3, hd, hδ, hw1, hw2,
    ⟨vb (k - box.delta), hbcells (k - box.delta) (by omega) (by omega) (by omega), hov⟩,
    hseg, hstep, hy0, hrun, hdiag, hxle, hstop, hfw⟩

/-- `BwdFireData` against a meaningful forward frontier yields the
intrinsic fire description. -/
theorem bwdFireData_intrinsic {A B : List Nat} {box : Box} {d : Nat}
    {vf : Int → Int} {s : Snake}
    (hfcells : ∀ j : Int, -(d : Int) ≤ j → j ≤ (d : Int) → (j - (d : Int)) % 2 = 0 →
      IsFw A B box d j (vf j))
    (h : BwdFireData A B box vf d s) : BwdFire A B box d s := by
  obtain ⟨c, px, py, x0, y0, x', y', dpre, hs, hc1, hc2, hc3, hδ, hw1, hw2, hov,
    hseg, hstep, hx0, hrun, hdiag, hyle, hstop, hbw⟩ := h
  exact ⟨c, px, py, x0, y0, x', y', dpre, hs, hc1, hc2, hc3, hδ, hw1, hw2,
    ⟨vf (c + box.delta), hfcells (c + box.delta) (by omega) (by omega) (by omega), hov⟩,
    hseg, hstep, hx0, hrun, hdiag, hyle, hstop, hbw⟩

/-- The round loop of `_midpoint`: starting round `d` with meaningful
`(d-1)`-frontiers and no overlap found at any earlier depth, the loop
either exhausts its fuel with no overlap anywhere below `d + fuel`, or
returns a snake carrying the intrinsic fire description of its round,
together with the no-overlap history below that round. -/
theorem midLoop_spec (A B : List Nat) (box : Box) :
    ∀ (fuel d : Nat) (vf vb : Int → Int),
      (∀ j : Int, -(d : Int) + 1 ≤ j → j ≤ (d : Int) - 1 →
        (j - ((d : Int) - 1)) % 2 = 0 → IsFw A B box (d - 1) j (vf j)) →
      (∀ j : Int, -(d : Int) + 1 ≤ j → j ≤ (d : Int) - 1 →
        (j - ((d : Int) - 1)) % 2 = 0 → IsBw A B box (d - 1) j (vb j)) →
      (d = 0 → vf 1 = box.left) →
      (d = 0 → vb 1 = box.bottom) →
      (∀ e : Nat, e < d → NoOverF A B box e ∧ NoOverB A B box e) →
      (midLoop A B box fuel d vf vb = none →
        ∀ e : Nat, e < d + fuel → NoOverF A B box e ∧ NoOverB A B box e) ∧
      (∀ s, midLoop A B box fuel d vf vb = some (s, true) →
        ∃ d' : Nat, d ≤ d' ∧ d' < d + fuel ∧ FwdFire A B box d' s ∧
          ∀ e : Nat, e < d' → NoOverF A B box e ∧ NoOverB A B box e) ∧
      (∀ s, midLoop A B box fuel d vf vb = some (s, false) →
        ∃ d' : Nat, d ≤ d' ∧ d' < d + fuel ∧ BwdFire A B box d' s ∧
          (∀ e : Nat, e < d' → NoOverF A B box e ∧ NoOverB A B box e) ∧
          NoOverF A B box d') := by
  intro fuel
  induction fuel with
  | zero =>
    intro d vf vb hvf hvb hsf hsb hprev
    refine ⟨fun _ e he => hprev e (by omega), ?_, ?_⟩
    · intro s hs
      simp [midLoop] at hs
    · intro s hs
      simp [midLoop] at hs
  | succ fl ih =>
    intro d vf vb hvf hvb hsf hsb hprev
    have hscanF := forwardGo_scan A B box vb d (d + 1) (-(d : Int)) vf
      le_rfl (by push_cast; ring) hvf hsf
      (fun j hj1 hj2 hj3 => absurd hj2 (by omega))
      (fun j hj1 hj2 hj3 hδ hw1 hw2 => absurd hj2 (by omega))
    rw [← ksList_eq_ksSeq] at hscanF
    simp only [midLoop]
    rcases hf2 : (forwardGo A B box vb (d : Int) vf (ksList d)).2 with - | s
    · simp only [hf2]
      obtain ⟨hcellsF, hnofF⟩ := hscanF.1 hf2
      have hNOF : NoOverF A B box d := fwdNoFire_intrinsic hcellsF hvb hnofF
      have hscanB := backwardGo_scan A B box (forwardGo A B box vb (d : Int) vf (ksList d)).1
        d (d + 1) (-(d : Int)) vb le_rfl (by push_cast; ring) hvb hsb
        (fun j hj1 hj2 hj3 => absurd hj2 (by omega))
        (fun j hj1 hj2 hj3 hδ hw1 hw2 => absurd hj2 (by omega))
      rw [← ksList_eq_ksSeq] at hscanB
      rcases hb2 : (backwardGo A B box (forwardGo A B box vb (d : Int) vf (ksList d)).1
          (d : Int) vb (ksList d)).2 with - | t
      · simp only [hb2]
        obtain ⟨hcellsB, hnofB⟩ := hscanB.1 hb2
        have hNOB : NoOverB A B box d := bwdNoFire_intrinsic hcellsB hcellsF hnofB
        have hrec := ih (d + 1)
          (forwardGo A B box vb (d : Int) vf (ksList d)).1
          (backwardGo A B box (forwardGo A B box vb (d : Int) vf (ksList d)).1
            (d : Int) vb (ksList d)).1
          (fun j hj1 hj2 hj3 => by
            have := hcellsF j (by push_cast at hj1 ⊢; omega) (by push_cast at hj2 ⊢; omega)
              (by push_cast at hj3 ⊢; omega)
            simpa using this)
          (fun j hj1 hj2 hj3 => by
            have := hcellsB j (by push_cast at hj1 ⊢; omega) (by push_cast at hj2 ⊢; omega)
              (by push_cast at hj3 ⊢; omega)
            simpa using this)
          (by omega) (by omega)
          (fun e he => by
            rcases Nat.lt_or_ge e d with h | h
            · exact hprev e h
            · have : e = d := by omega
              subst this
              exact ⟨hNOF, hNOB⟩)
        refine ⟨fun hnone e he => hrec.1 hnone e (by omega), ?_, ?_⟩
        · intro s hs
          obtain ⟨d', h1, h2, h3, h4⟩ := hrec.2.1 s hs
          exact ⟨d', by omega, by omega, h3, h4⟩
        · intro s hs
          obtain ⟨d', h1, h2, h3, h4, h5⟩ := hrec.2.2 s hs
          exact ⟨d', by omega, by omega, h3, h4, h5⟩
      · simp only [hb2]
        refine ⟨fun h => absurd h (by simp), ?_, ?_⟩
        · intro u hu
          simp at hu
        · intro u hu
          obtain rfl : t = u := congrArg Prod.fst (Option.some.inj hu)
          have hfire := hscanB.2 t hb2
          exact ⟨d, le_rfl, by omega, bwdFireData_intrinsic hcellsF hfire,
            hprev, hNOF⟩
    · simp only [hf2]
      refine ⟨fun h => absurd h (by simp), ?_, ?_⟩
      · intro u hu
        obtain rfl : s = u := congrArg Prod.fst (Option.some.inj hu)
        have hfire := hscanF.2 s hf2
        exact ⟨d, le_rfl, by omega, fwdFireData_intrinsic hvb hfire, hprev⟩
      · intro u hu
        simp at hu

/-- `_midpoint` on a positive-size box: a `none` answer means no
overlap at any searched depth, a snake carries its round's intrinsic
fire description and the no-overlap history. -/
theorem midpointOf_spec (A B : List Nat) (box : Box) (hsz : 0 < box.size) :
    (midpointOf A B box = none →
      ∀ e : Nat, (e : Int) ≤ Int.ediv (box.size + 1) 2 →
        NoOverF A B box e ∧ NoOverB A B box e) ∧
    (∀ s, midpointOf A B box = some (s, true) →
      ∃ d' : Nat, (d' : Int) ≤ Int.ediv (box.size + 1) 2 ∧ FwdFire A B box d' s ∧
        ∀ e : Nat, e < d' → NoOverF A B box e ∧ NoOverB A B box e) ∧
    (∀ s, midpointOf A B box = some (s, false) →
      ∃ d' : Nat, (d' : Int) ≤ Int.ediv (box.size + 1) 2 ∧ BwdFire A B box d' s ∧
        (∀ e : Nat, e < d' → NoOverF A B box e ∧ NoOverB A B box e) ∧
        NoOverF A B box d') := by
  have hmax : 1 ≤ Int.ediv (box.size + 1) 2 := by
    rw [show Int.ediv (box.size + 1) 2 = (box.size + 1) / 2 from rfl]
    omega
  have hms := midLoop_spec A B box ((Int.ediv (box.size + 1) 2 + 1).toNat) 0
    (fun k => if k = 1 then box.left else 0)
    (fun k => if k = 1 then box.bottom else 0)
    (fun j hj1 hj2 hj3 => absurd (le_trans hj1 hj2) (by norm_num))
    (fun j hj1 hj2 hj3 => absurd (le_trans hj1 hj2) (by norm_num))
    (fun _ => if_pos rfl) (fun _ => if_pos rfl)
    (fun e he => absurd he (by omega))
  have hunfold : midpointOf A B box =
      midLoop A B box ((Int.ediv (box.size + 1) 2 + 1).toNat) 0
        (fun k => if k = 1 then box.left else 0)
        (fun k => if k = 1 then box.bottom else 0) := by
    simp only [midpointOf, if_neg (by omega : ¬box.size = 0)]
  rw [hunfold]
  refine ⟨?_, ?_, ?_⟩
  · intro hnone e he
    exact hms.1 hnone e (by omega)
  · intro s hs
    obtain ⟨d', h1, h2, h3, h4⟩ := hms.2.1 s hs
    exact ⟨d', by omega, h3, h4⟩
  · intro s hs
    obtain ⟨d', h1, h2, h3, h4, h5⟩ := hms.2.2 s hs
    exact ⟨d', by omega, h3, h4, h5⟩

/-- `n` consecutive right moves. -/
theorem FSeg.rightN {A B : List Nat} {box : Box} (p : Int × Int) :
    ∀ n : Nat, FSeg A B box p n (p.1 + n, p.2) := by
  intro n
  induction n with
  | zero => simpa using FSeg.refl p
  | succ m ih =>
    have := @FSeg.right A B box p m (p.1 + m) p.2 ih
    have hc : (p.1 + (m : Int)) + 1 = p.1 + ((m + 1 : Nat) : Int) := by push_cast; ring
    rwa [hc] at this

/-- `n` consecutive down moves. -/
theorem FSeg.downN {A B : List Nat} {box : Box} (p : Int × Int) :
    ∀ n : Nat, FSeg A B box p n (p.1, p.2 + n) := by
  intro n
  induction n with
  | zero => simpa using FSeg.refl p
  | succ m ih =>
    have := @FSeg.down A B box p m p.1 (p.2 + m) ih
    have hc : (p.2 + (m : Int)) + 1 = p.2 + ((m + 1 : Nat) : Int) := by push_cast; ring
    rwa [hc] at this

/-- `n` consecutive left moves. -/
theorem BSeg.leftN {A B : List Nat} {box : Box} (p : Int × Int) :
    ∀ n : Nat, BSeg A B box p n (p.1 - n, p.2) := by
  intro n
  induction n with
  | zero => simpa using BSeg.refl p
  | succ m ih =>
    have := @BSeg.left A B box p m (p.1 - m) p.2 ih
    have hc : (p.1 - (m : Int)) - 1 = p.1 - ((m + 1 : Nat) : Int) := by push_cast; ring
    rwa [hc] at this

/-- `n` consecutive up moves. -/
theorem BSeg.upN {A B : List Nat} {box : Box} (p : Int × Int) :
    ∀ n : Nat, BSeg A B box p n (p.1, p.2 - n) := by
  intro n
  induction n with
  | zero => simpa using BSeg.refl p
  | succ m ih =>
    have := @BSeg.up A B box p m p.1 (p.2 - m) ih
    have hc : (p.2 - (m : Int)) - 1 = p.2 - ((m + 1 : Nat) : Int) := by push_cast; ring
    rwa [hc] at this

/-- The trivial corner-to-corner path: all rights then all downs. -/
theorem conn_exists (A B : List Nat) (box : Box)
    (hw : 0 ≤ box.width) (hh : 0 ≤ box.height) :
    Conn A B box (box.width + box.height).toNat := by
  have h1 : FSeg A B box (box.left, box.top) box.width.toNat (box.right, box.top) := by
    have := @FSeg.rightN A B box (box.left, box.top) box.width.toNat
    have hc : box.left + (box.width.toNat : Int) = box.right := by
      simp only [Box.width] at hw ⊢; omega
    rwa [hc] at this
  have h2 : FSeg A B box (box.right, box.top) box.height.toNat (box.right, box.bottom) := by
    have := @FSeg.downN A B box (box.right, box.top) box.height.toNat
    have hc : box.top + (box.height.toNat : Int) = box.bottom := by
      simp only [Box.height] at hh ⊢; omega
    rwa [hc] at this
  have h3 := h1.transF h2
  have hc : box.width.toNat + box.height.toNat = (box.width + box.height).toNat := by omega
  rwa [hc] at h3

/-- Any corner-to-corner cost has the parity of the box size and is at
most `2g` below it. -/
theorem conn_parity {A B : List Nat} {box : Box} {m : Nat} (h : Conn A B box m) :
    ∃ g : Nat, box.size = (m : Int) + 2 * g := by
  obtain ⟨g, hg⟩ := FSeg.dispF h
  exact ⟨g, by simp only [Box.size, Box.width, Box.height]; omega⟩

/-- No forward overlap at depth `d` forbids a corner-to-corner path of
cost `2d - 1` (odd delta). -/
theorem notConn_odd {A B : List Nat} {box : Box} {d : Nat}
    (hno : NoOverF A B box d) (hδ : box.delta % 2 = 1) (hd : 1 ≤ d) :
    ¬ Conn A B box (2 * d - 1) := by
  intro hc
  obtain ⟨mid, h1, h2⟩ := FSeg.splitF hc d (d - 1) (by omega)
  have hmono := FSeg.monoF h1
  have hB : BSeg A B box (box.right, box.bottom) (d - 1) mid :=
    FSeg.reverseF h2 (by simpa using hmono.1) (by simpa using hmono.2)
  have hdb1 := FSeg.diagBoundF h1
  have hdb2 := FSeg.diagBoundF h2
  obtain ⟨g, hg⟩ := FSeg.dispF h1
  have hk : mid.2 = yOf box ((mid.1 - box.left) - (mid.2 - box.top)) mid.1 := by
    simp only [yOf]; omega
  have hx : mid.1 = xOf box ((mid.1 - box.left) - (mid.2 - box.top) - box.delta) mid.2 := by
    simp only [xOf]; omega
  have hδ2 : box.delta = (box.right - box.left) - (box.bottom - box.top) := by
    simp only [Box.delta, Box.width, Box.height]
  have := hno ((mid.1 - box.left) - (mid.2 - box.top)) mid.1 mid.2
    (by dsimp only at hdb1; omega) (by dsimp only at hdb1; omega)
    (by omega) hδ
    (by dsimp only at hdb2; omega)
    (by dsimp only at hdb2; omega)
    (by rw [← hk]; exact h1) (by rw [← hx]; exact hB)
  omega

/-- No backward overlap at depth `d` forbids a corner-to-corner path of
cost `2d` (even delta). -/
theorem notConn_even {A B : List Nat} {box : Box} {d : Nat}
    (hno : NoOverB A B box d) (hδ : box.delta % 2 = 0) :
    ¬ Conn A B box (2 * d) := by
  intro hc
  obtain ⟨mid, h1, h2⟩ := FSeg.splitF hc d d (by omega)
  have hmono := FSeg.monoF h1
  have hB : BSeg A B box (box.right, box.bottom) d mid :=
    FSeg.reverseF h2 (by simpa using hmono.1) (by simpa using hmono.2)
  have hdb1 := FSeg.diagBoundF h1
  have hdb2 := FSeg.diagBoundF h2
  obtain ⟨g, hg⟩ := FSeg.dispF h2
  have hk : mid.2 = yOf box ((mid.1 - box.left) - (mid.2 - box.top)) mid.1 := by
    simp only [yOf]; omega
  have hx : mid.1 = xOf box ((mid.1 - box.left) - (mid.2 - box.top) - box.delta) mid.2 := by
    simp only [xOf]; omega
  have hδ2 : box.delta = (box.right - box.left) - (box.bottom - box.top) := by
    simp only [Box.delta, Box.width, Box.height]
  have := hno ((mid.1 - box.left) - (mid.2 - box.top) - box.delta) mid.1 mid.2
    (by dsimp only at hdb2; omega) (by dsimp only at hdb2; omega)
    (by omega) hδ
    (by dsimp only at hdb1; omega) (by dsimp only at hdb1; omega)
    (by rw [← hx]; exact hB)
    (by
      have hk' : mid.2 = yOf box ((mid.1 - box.left) - (mid.2 - box.top) - box.delta +
          box.delta) mid.1 := by
        simp only [yOf]; omega
      rw [← hk']
      exact h1)
  omega

/-- On a sane positive-size box the midpoint search always succeeds. -/
theorem midpoint_complete (A B : List Nat) (box : Box)
    (hw : 0 ≤ box.width) (hh : 0 ≤ box.height) (hsz : 0 < box.size) :
    midpointOf A B box ≠ none := by
  intro hnone
  have hspec := (midpointOf_spec A B box hsz).1 hnone
  have hconn := conn_exists A B box hw hh
  have hsz' : (box.width + box.height).toNat = box.size.toNat := by
    simp only [Box.size]
  rw [hsz'] at hconn
  have hediv : Int.ediv (box.size + 1) 2 = (box.size + 1) / 2 := rfl
  rcases Int.emod_two_eq box.delta with hδ | hδ
  · -- even delta: even size, backward check at depth size/2 forbids Conn size
    have hpar : box.size % 2 = 0 := by
      simp only [Box.size, Box.delta, Box.width, Box.height] at hδ ⊢
      omega
    have hd : 2 * (box.size.toNat / 2) = box.size.toNat := by omega
    have := notConn_even (d := box.size.toNat / 2)
      (hspec (box.size.toNat / 2) (by rw [hediv]; omega)).2 hδ
    rw [hd] at this
    exact this hconn
  · have hpar : box.size % 2 = 1 := by
      simp only [Box.size, Box.delta, Box.width, Box.height] at hδ ⊢
      omega
    have hd : 2 * ((box.size.toNat + 1) / 2) - 1 = box.size.toNat := by omega
    have := notConn_odd (d := (box.size.toNat + 1) / 2)
      (hspec ((box.size.toNat + 1) / 2) (by rw [hediv]; omega)).1 hδ (by omega)
    rw [hd] at this
    exact this hconn

/-- Padding a forward reach: `n` right+down pairs move the endpoint
along its diagonal at cost `2n`. -/
theorem FSeg.padNF {A B : List Nat} {box : Box} {p : Int × Int} {D : Nat} {x y : Int}
    (h : FSeg A B box p D (x, y)) :
    ∀ n : Nat, FSeg A B box p (D + 2 * n) (x + n, y + n) := by
  intro n
  induction n with
  | zero => simpa using h
  | succ m ih =>
    have := FSeg.padF ih
    have hc1 : x + (m : Int) + 1 = x + ((m + 1 : Nat) : Int) := by push_cast; ring
    have hc2 : y + (m : Int) + 1 = y + ((m + 1 : Nat) : Int) := by push_cast; ring
    have hc3 : D + 2 * m + 2 = D + 2 * (m + 1) := by ring
    rw [hc1, hc2, hc3] at this
    exact this

/-- Padding a backward reach. -/
theorem BSeg.padNB {A B : List Nat} {box : Box} {p : Int × Int} {D : Nat} {x y : Int}
    (h : BSeg A B box p D (x, y)) :
    ∀ n : Nat, BSeg A B box p (D + 2 * n) (x - n, y - n) := by
  intro n
  induction n with
  | zero => simpa using h
  | succ m ih =>
    have := BSeg.padB ih
    have hc1 : x - (m : Int) - 1 = x - ((m + 1 : Nat) : Int) := by push_cast; ring
    have hc2 : y - (m : Int) - 1 = y - ((m + 1 : Nat) : Int) := by push_cast; ring
    have hc3 : D + 2 * m + 2 = D + 2 * (m + 1) := by ring
    rw [hc1, hc2, hc3] at this
    exact this

/-- A nonempty diagonal run ends inside the closed box (its last guard
was checked). -/
theorem FSeg.zero_last_guardF {A B : List Nat} {box : Box} {p q : Int × Int}
    (h : FSeg A B box p 0 q) (hlt : p.1 < q.1) :
    q.1 ≤ box.right ∧ q.2 ≤ box.bottom := by
  generalize hd : 0 = d at h
  induction h with
  | refl => omega
  | right _ x y _ _ => omega
  | down _ x y _ _ => omega
  | diag d x y h hx hy hm ih =>
    constructor
    · dsimp only
      omega
    · dsimp only
      omega

/-- Mirror: a nonempty backward diagonal run ends inside the closed
box. -/
theorem BSeg.zero_last_guardB {A B : List Nat} {box : Box} {p q : Int × Int}
    (h : BSeg A B box p 0 q) (hlt : q.2 < p.2) :
    box.left ≤ q.1 ∧ box.top ≤ q.2 := by
  generalize hd : 0 = d at h
  induction h with
  | refl => omega
  | left _ x y _ _ => omega
  | up _ x y _ _ => omega
  | diag d x y h hx hy hm ih =>
    constructor
    · dsimp only
      omega
    · dsimp only
      omega

/-- A diagonal run starting at or left of the right edge stays at or
left of it (and similarly for the bottom edge). -/
theorem FSeg.zero_boundF {A B : List Nat} {box : Box} {p q : Int × Int}
    (h : FSeg A B box p 0 q) :
    (p.1 ≤ box.right → q.1 ≤ box.right) ∧ (p.2 ≤ box.bottom → q.2 ≤ box.bottom) := by
  generalize hd : 0 = d at h
  induction h with
  | refl => exact ⟨id, id⟩
  | right _ x y _ _ => omega
  | down _ x y _ _ => omega
  | diag d x y h hx hy hm ih =>
    constructor
    · intro _
      dsimp only
      omega
    · intro _
      dsimp only
      omega

/-- With odd delta and no overlap found below depth `d`, any
corner-to-corner path costs at least `2d - 1`. -/
theorem conn_ge_odd {A B : List Nat} {box : Box} {d : Nat}
    (hist : ∀ e : Nat, e < d → NoOverF A B box e ∧ NoOverB A B box e)
    (hδ : box.delta % 2 = 1) {m : Nat} (hc : Conn A B box m) :
    2 * d - 1 ≤ m := by
  by_contra hlt
  obtain ⟨g, hg⟩ := conn_parity hc
  have hδ2 : box.delta = (box.right - box.left) - (box.bottom - box.top) := by
    simp only [Box.delta, Box.width, Box.height]
  have hsz : box.size = (box.right - box.left) + (box.bottom - box.top) := by
    simp only [Box.size, Box.width, Box.height]
  have hmodd : m % 2 = 1 := by omega
  have hm2 : 2 * ((m + 1) / 2) - 1 = m := by omega
  have hdlt : (m + 1) / 2 < d := by omega
  have := notConn_odd (hist ((m + 1) / 2) hdlt).1 hδ (by omega)
  rw [hm2] at this
  exact this hc

/-- With even delta and no overlap found below depth `d`, any
corner-to-corner path costs at least `2d`. -/
theorem conn_ge_even {A B : List Nat} {box : Box} {d : Nat}
    (hist : ∀ e : Nat, e < d → NoOverF A B box e ∧ NoOverB A B box e)
    (hδ : box.delta % 2 = 0) {m : Nat} (hc : Conn A B box m) :
    2 * d ≤ m := by
  by_contra hlt
  obtain ⟨g, hg⟩ := conn_parity hc
  have hδ2 : box.delta = (box.right - box.left) - (box.bottom - box.top) := by
    simp only [Box.delta, Box.width, Box.height]
  have hsz : box.size = (box.right - box.left) + (box.bottom - box.top) := by
    simp only [Box.size, Box.width, Box.height]
  have hmeven : m % 2 = 0 := by omega
  have hm2 : 2 * (m / 2) = m := by omega
  have hdlt : m / 2 < d := by omega
  have := notConn_even (hist (m / 2) hdlt).2 hδ
  rw [hm2] at this
  exact this hc

/-- Case: overlap point at or left of the right edge but beyond the
bottom edge. -/
theorem fwdOver_bottom {A B : List Nat} {box : Box} {d : Nat} {k x0 y0 v : Int}
    (hist : ∀ e : Nat, e < d → NoOverF A B box e ∧ NoOverB A B box e)
    (hδ : box.delta % 2 = 1) (hd : 1 ≤ d)
    (hF : FSeg A B box (box.left, box.top) d (x0, y0))
    (hy0 : y0 = box.top + (x0 - box.left) - k)
    (hQ : BSeg A B box (box.right, box.bottom) (d - 1) (xOf box (k - box.delta) v, v))
    (hx0r : x0 ≤ box.right) (hy0b : box.bottom < y0) (hht : box.top ≤ box.bottom) :
    False := by
  obtain ⟨dp, rfl⟩ : ∃ dp, d = dp + 1 := ⟨d - 1, by omega⟩
  have hQ' : BSeg A B box (box.right, box.bottom) dp (xOf box (k - box.delta) v, v) := hQ
  clear hQ hd
  have hδ2 : box.delta = (box.right - box.left) - (box.bottom - box.top) := by
    simp only [Box.delta, Box.width, Box.height]
  have hQdiag : xOf box (k - box.delta) v - v = x0 - y0 := by
    simp only [xOf]; omega
  obtain ⟨xc, d₁, hxc, hseg₁, hcost₁⟩ := FSeg.crossBottom hF (by omega) (by dsimp only; omega)
  obtain ⟨gF, hgF⟩ := FSeg.dispF hF
  clear hF
  obtain ⟨w, hw⟩ : ∃ w : Nat, (w : Int) = x0 - xc := ⟨(x0 - xc).toNat, by omega⟩
  have hrn := @FSeg.rightN A B box (xc, box.bottom) w
  rw [show xc + (w : Int) = x0 by omega] at hrn
  have hseg₂ := hseg₁.transF hrn
  clear hseg₁ hrn
  obtain ⟨g₂, hg₂⟩ := FSeg.dispF hseg₂
  obtain ⟨m, D₁, hmdiag, hQm, hDcost⟩ := BSeg.attainGeB hQ' (x0 - box.bottom)
    (by omega) (by dsimp only; omega)
  clear hQ'
  have hmmono := BSeg.monoB hQm
  obtain ⟨g₃, hg₃⟩ := BSeg.dispB hQm
  have hdbm := BSeg.diagBoundB hQm
  obtain ⟨d', hd'e⟩ : ∃ d' : Nat, (d' : Int) = ((dp + 1 : Nat) : Int) - (y0 - box.bottom) :=
    ⟨(dp + 1) - (y0 - box.bottom).toNat, by omega⟩
  obtain ⟨j, hj⟩ : ∃ j : Nat, (d₁ + w) + 2 * j = d' := by
    clear hδ hδ2 hQdiag hxc hmdiag hDcost hmmono hg₃ hdbm hx0r hht hseg₂
    refine ⟨(d' - (d₁ + w)) / 2, ?_⟩
    omega
  have hseg₃ := FSeg.padNF hseg₂ j
  rw [hj] at hseg₃
  clear hseg₂ hg₂ hj
  obtain ⟨j', hj'⟩ : ∃ j' : Nat, D₁ + 2 * j' = d' - 1 := by
    clear hxc hcost₁ hw hmmono hdbm hx0r hht hseg₃ hy0b
    refine ⟨((d' - 1) - D₁) / 2, ?_⟩
    omega
  have hm' := BSeg.padNB (show BSeg A B box (box.right, box.bottom) D₁ (m.1, m.2) from hQm) j'
  rw [hj'] at hm'
  clear hQm hg₃ hj'
  have hdb₃ := FSeg.diagBoundF hseg₃
  have hno := (hist d' (by omega)).1 (k + (y0 - box.bottom)) (x0 + j) (m.2 - j')
    (by dsimp only at hdb₃; omega) (by dsimp only at hdb₃; omega)
    (by omega) hδ
    (by dsimp only at hdbm; omega) (by dsimp only at hdbm; omega)
    (by
      have hcy : yOf box (k + (y0 - box.bottom)) (x0 + (j : Int)) = box.bottom + j := by
        simp only [yOf]; omega
      rw [hcy]
      exact hseg₃)
    (by
      have hcx2 : xOf box (k + (y0 - box.bottom) - box.delta) (m.2 - (j' : Int)) =
          m.1 - j' := by
        simp only [xOf]; omega
      rw [hcx2]
      exact hm')
  have : yOf box (k + (y0 - box.bottom)) (x0 + (j : Int)) = box.bottom + j := by
    simp only [yOf]; omega
  omega

/-- Case: overlap point beyond the right edge, at or above the bottom
edge. -/
theorem fwdOver_right {A B : List Nat} {box : Box} {d : Nat} {k x0 y0 v : Int}
    (hist : ∀ e : Nat, e < d → NoOverF A B box e ∧ NoOverB A B box e)
    (hδ : box.delta % 2 = 1) (hd : 1 ≤ d)
    (hF : FSeg A B box (box.left, box.top) d (x0, y0))
    (hy0 : y0 = box.top + (x0 - box.left) - k)
    (hQ : BSeg A B box (box.right, box.bottom) (d - 1) (xOf box (k - box.delta) v, v))
    (hx0r : box.right < x0) (hy0b : y0 ≤ box.bottom) (hwl : box.left ≤ box.right) :
    False := by
  obtain ⟨dp, rfl⟩ : ∃ dp, d = dp + 1 := ⟨d - 1, by omega⟩
  have hQ' : BSeg A B box (box.right, box.bottom) dp (xOf box (k - box.delta) v, v) := hQ
  clear hQ hd
  have hδ2 : box.delta = (box.right - box.left) - (box.bottom - box.top) := by
    simp only [Box.delta, Box.width, Box.height]
  have hQdiag : xOf box (k - box.delta) v - v = x0 - y0 := by
    simp only [xOf]; omega
  obtain ⟨yr, d₁, hyr, hseg₁, hcost₁⟩ := FSeg.crossRight hF (by omega) (by dsimp only; omega)
  obtain ⟨gF, hgF⟩ := FSeg.dispF hF
  clear hF
  obtain ⟨w, hw⟩ : ∃ w : Nat, (w : Int) = y0 - yr := ⟨(y0 - yr).toNat, by omega⟩
  have hdn := @FSeg.downN A B box (box.right, yr) w
  rw [show yr + (w : Int) = y0 by omega] at hdn
  have hseg₂ := hseg₁.transF hdn
  clear hseg₁ hdn
  obtain ⟨g₂, hg₂⟩ := FSeg.dispF hseg₂
  obtain ⟨m, D₁, hmdiag, hQm, hDcost⟩ := BSeg.attainLeB hQ' (box.right - y0)
    (by omega) (by dsimp only; omega)
  clear hQ'
  have hmmono := BSeg.monoB hQm
  obtain ⟨g₃, hg₃⟩ := BSeg.dispB hQm
  have hdbm := BSeg.diagBoundB hQm
  obtain ⟨d', hd'e⟩ : ∃ d' : Nat, (d' : Int) = ((dp + 1 : Nat) : Int) - (x0 - box.right) :=
    ⟨(dp + 1) - (x0 - box.right).toNat, by omega⟩
  obtain ⟨j, hj⟩ : ∃ j : Nat, (d₁ + w) + 2 * j = d' := by
    clear hδ hδ2 hQdiag hyr hmdiag hDcost hmmono hg₃ hdbm hy0b hwl hseg₂
    refine ⟨(d' - (d₁ + w)) / 2, ?_⟩
    omega
  have hseg₃ := FSeg.padNF hseg₂ j
  rw [hj] at hseg₃
  clear hseg₂ hg₂ hj
  obtain ⟨j', hj'⟩ : ∃ j' : Nat, D₁ + 2 * j' = d' - 1 := by
    clear hyr hcost₁ hw hmmono hdbm hy0b hwl hseg₃ hx0r
    refine ⟨((d' - 1) - D₁) / 2, ?_⟩
    omega
  have hm' := BSeg.padNB (show BSeg A B box (box.right, box.bottom) D₁ (m.1, m.2) from hQm) j'
  rw [hj'] at hm'
  clear hQm hg₃ hj'
  have hdb₃ := FSeg.diagBoundF hseg₃
  have hno := (hist d' (by omega)).1 (k - (x0 - box.right)) (box.right + j) (m.2 - j')
    (by dsimp only at hdb₃; omega) (by dsimp only at hdb₃; omega)
    (by omega) hδ
    (by dsimp only at hdbm; omega) (by dsimp only at hdbm; omega)
    (by
      have hcy : yOf box (k - (x0 - box.right)) (box.right + (j : Int)) = y0 + j := by
        simp only [yOf]; omega
      rw [hcy]
      exact hseg₃)
    (by
      have hcx2 : xOf box (k - (x0 - box.right) - box.delta) (m.2 - (j' : Int)) =
          m.1 - j' := by
        simp only [xOf]; omega
      rw [hcx2]
      exact hm')
  have : yOf box (k - (x0 - box.right)) (box.right + (j : Int)) = y0 + j := by
    simp only [yOf]; omega
  omega

/-- Case: overlap point beyond both the right and bottom edges. -/
theorem fwdOver_corner {A B : List Nat} {box : Box} {d : Nat} {x0 y0 : Int}
    (hist : ∀ e : Nat, e < d → NoOverF A B box e ∧ NoOverB A B box e)
    (hδ : box.delta % 2 = 1) (hd : 1 ≤ d)
    (hF : FSeg A B box (box.left, box.top) d (x0, y0))
    (hx0r : box.right < x0) (hy0b : box.bottom < y0)
    (hwl : box.left ≤ box.right) (hht : box.top ≤ box.bottom) :
    False := by
  obtain ⟨yr, d₁, hyr, hseg₁, hcost₁⟩ := FSeg.crossRight hF (by omega) (by dsimp only; omega)
  by_cases hyrb : yr ≤ box.bottom
  · have hdn := @FSeg.downN A B box (box.right, yr) (box.bottom - yr).toNat
    rw [show yr + ((box.bottom - yr).toNat : Int) = box.bottom by omega] at hdn
    have hconn : Conn A B box (d₁ + (box.bottom - yr).toNat) := hseg₁.transF hdn
    have := conn_ge_odd hist hδ hconn
    omega
  · obtain ⟨xc, d₂, hxc, hseg₂, hcost₂⟩ :=
      FSeg.crossBottom hseg₁ (by omega) (by dsimp only; omega)
    have hrn := @FSeg.rightN A B box (xc, box.bottom) (box.right - xc).toNat
    have hxcr : xc ≤ box.right := hxc.trans (by omega)
    rw [show xc + ((box.right - xc).toNat : Int) = box.right by omega] at hrn
    have hconn : Conn A B box (d₂ + (box.right - xc).toNat) := hseg₂.transF hrn
    have := conn_ge_odd hist hδ hconn
    omega

set_option maxHeartbeats 600000 in
/-- The out-of-box refutation for a forward overlap point: a forward
`d`-reach on a checked diagonal whose backward diagonal carries a
backward `(d-1)`-reach cannot lie beyond the right or bottom edge. -/
theorem fwdPoint_inBox {A B : List Nat} {box : Box} {d : Nat} {k x0 y0 v : Int}
    (hist : ∀ e : Nat, e < d → NoOverF A B box e ∧ NoOverB A B box e)
    (hw : 0 ≤ box.width) (hh : 0 ≤ box.height)
    (hδ : box.delta % 2 = 1) (hd : 1 ≤ d)
    (hF : FSeg A B box (box.left, box.top) d (x0, y0))
    (hy0 : y0 = yOf box k x0)
    (hQ : BSeg A B box (box.right, box.bottom) (d - 1) (xOf box (k - box.delta) v, v)) :
    x0 ≤ box.right ∧ y0 ≤ box.bottom := by
  have hwl : box.left ≤ box.right := by simp only [Box.width] at hw; omega
  have hht : box.top ≤ box.bottom := by simp only [Box.height] at hh; omega
  have hy0' : y0 = box.top + (x0 - box.left) - k := hy0
  by_cases hx0r : x0 ≤ box.right
  · by_cases hy0b : y0 ≤ box.bottom
    · exact ⟨hx0r, hy0b⟩
    · exact absurd (fwdOver_bottom hist hδ hd hF hy0' hQ hx0r (by omega) hht) id
  · by_cases hy0b : y0 ≤ box.bottom
    · exact absurd (fwdOver_right hist hδ hd hF hy0' hQ (by omega) hy0b hwl) id
    · exact absurd (fwdOver_corner hist hδ hd hF (by omega) (by omega) hwl hht) id

/-- Mirror of `FSeg.zero_boundF`: a backward diagonal run starting at or
right of the left edge stays there (and similarly for the top edge). -/
theorem BSeg.zero_boundB {A B : List Nat} {box : Box} {p q : Int × Int}
    (h : BSeg A B box p 0 q) :
    (box.left ≤ p.1 → box.left ≤ q.1) ∧ (box.top ≤ p.2 → box.top ≤ q.2) := by
  generalize hd : 0 = d at h
  induction h with
  | refl => exact ⟨id, id⟩
  | left _ x y _ _ => omega
  | up _ x y _ _ => omega
  | diag d x y h hx hy hm ih =>
    constructor
    · intro _
      dsimp only
      omega
    · intro _
      dsimp only
      omega


/-- Mirror case: backward overlap point at or right of the left edge
but above the top edge. -/
theorem bwdOver_top {A B : List Nat} {box : Box} {d : Nat} {c x0 y0 u : Int}
    (hist : ∀ e : Nat, e < d → NoOverF A B box e ∧ NoOverB A B box e)
    (hδ : box.delta % 2 = 0)
    (hB : BSeg A B box (box.right, box.bottom) d (x0, y0))
    (hx0 : x0 = box.left + (y0 - box.top) + (c + box.delta))
    (hU : FSeg A B box (box.left, box.top) d (u, yOf box (c + box.delta) u))
    (hy0t : y0 < box.top) (hx0l : box.left ≤ x0) (hht : box.top ≤ box.bottom) :
    False := by
  have hδ2 : box.delta = (box.right - box.left) - (box.bottom - box.top) := by
    simp only [Box.delta, Box.width, Box.height]
  have hUdiag : u - yOf box (c + box.delta) u = (c + box.delta) + (box.left - box.top) := by
    simp only [yOf]; omega
  obtain ⟨xc, d₁, hxc, hseg₁, hcost₁⟩ := BSeg.crossTop hB (by omega) (by dsimp only; omega)
  obtain ⟨gB, hgB⟩ := BSeg.dispB hB
  clear hB
  obtain ⟨w, hw⟩ : ∃ w : Nat, (w : Int) = xc - x0 := ⟨(xc - x0).toNat, by omega⟩
  have hln := @BSeg.leftN A B box (xc, box.top) w
  rw [show xc - (w : Int) = x0 by omega] at hln
  have hseg₂ := hseg₁.transB hln
  clear hseg₁ hln
  obtain ⟨g₂, hg₂⟩ := BSeg.dispB hseg₂
  obtain ⟨m, D₁, hmdiag, hUm, hDcost⟩ := FSeg.attainLeF hU (x0 - box.top)
    (by dsimp only; omega) (by dsimp only; omega)
  clear hU
  have hmmono := FSeg.monoF hUm
  obtain ⟨g₃, hg₃⟩ := FSeg.dispF hUm
  have hdbm := FSeg.diagBoundF hUm
  obtain ⟨d', hd'e⟩ : ∃ d' : Nat, (d' : Int) = (d : Int) - (box.top - y0) :=
    ⟨d - (box.top - y0).toNat, by omega⟩
  obtain ⟨j, hj⟩ : ∃ j : Nat, (d₁ + w) + 2 * j = d' := by
    clear hδ hδ2 hUdiag hxc hmdiag hDcost hmmono hg₃ hdbm hx0l hht hseg₂
    refine ⟨(d' - (d₁ + w)) / 2, ?_⟩
    omega
  have hseg₃ := BSeg.padNB hseg₂ j
  rw [hj] at hseg₃
  clear hseg₂ hg₂ hj
  obtain ⟨j', hj'⟩ : ∃ j' : Nat, D₁ + 2 * j' = d' := by
    clear hxc hcost₁ hw hmmono hdbm hx0l hht hseg₃ hy0t
    refine ⟨(d' - D₁) / 2, ?_⟩
    omega
  have hm' := FSeg.padNF (show FSeg A B box (box.left, box.top) D₁ (m.1, m.2) from hUm) j'
  rw [hj'] at hm'
  clear hUm hg₃ hj'
  have hdb₃ := BSeg.diagBoundB hseg₃
  have hno := (hist d' (by omega)).2 (c - (box.top - y0)) (m.1 + j') (box.top - j)
    (by dsimp only at hdb₃; omega) (by dsimp only at hdb₃; omega)
    (by omega) hδ
    (by dsimp only at hdbm; omega) (by dsimp only at hdbm; omega)
    (by
      have hcx2 : xOf box (c - (box.top - y0)) (box.top - (j : Int)) = x0 - j := by
        simp only [xOf]; omega
      rw [hcx2]
      exact hseg₃)
    (by
      have hcy : yOf box (c - (box.top - y0) + box.delta) (m.1 + (j' : Int)) = m.2 + j' := by
        simp only [yOf]; omega
      rw [hcy]
      exact hm')
  have : xOf box (c - (box.top - y0)) (box.top - (j : Int)) = x0 - j := by
    simp only [xOf]; omega
  omega

/-- Mirror case: backward overlap point beyond the left edge, at or
below the top edge. -/
theorem bwdOver_left {A B : List Nat} {box : Box} {d : Nat} {c x0 y0 u : Int}
    (hist : ∀ e : Nat, e < d → NoOverF A B box e ∧ NoOverB A B box e)
    (hδ : box.delta % 2 = 0)
    (hB : BSeg A B box (box.right, box.bottom) d (x0, y0))
    (hx0 : x0 = box.left + (y0 - box.top) + (c + box.delta))
    (hU : FSeg A B box (box.left, box.top) d (u, yOf box (c + box.delta) u))
    (hx0l : x0 < box.left) (hy0t : box.top ≤ y0) (hwl : box.left ≤ box.right) :
    False := by
  have hδ2 : box.delta = (box.right - box.left) - (box.bottom - box.top) := by
    simp only [Box.delta, Box.width, Box.height]
  have hUdiag : u - yOf box (c + box.delta) u = (c + box.delta) + (box.left - box.top) := by
    simp only [yOf]; omega
  obtain ⟨yc, d₁, hyc, hseg₁, hcost₁⟩ := BSeg.crossLeft hB (by omega) (by dsimp only; omega)
  obtain ⟨gB, hgB⟩ := BSeg.dispB hB
  clear hB
  obtain ⟨w, hw⟩ : ∃ w : Nat, (w : Int) = yc - y0 := ⟨(yc - y0).toNat, by omega⟩
  have hun := @BSeg.upN A B box (box.left, yc) w
  rw [show yc - (w : Int) = y0 by omega] at hun
  have hseg₂ := hseg₁.transB hun
  clear hseg₁ hun
  obtain ⟨g₂, hg₂⟩ := BSeg.dispB hseg₂
  obtain ⟨m, D₁, hmdiag, hUm, hDcost⟩ := FSeg.attainGeF hU (box.left - y0)
    (by dsimp only; omega) (by dsimp only; omega)
  clear hU
  have hmmono := FSeg.monoF hUm
  obtain ⟨g₃, hg₃⟩ := FSeg.dispF hUm
  have hdbm := FSeg.diagBoundF hUm
  obtain ⟨d', hd'e⟩ : ∃ d' : Nat, (d' : Int) = (d : Int) - (box.left - x0) :=
    ⟨d - (box.left - x0).toNat, by omega⟩
  obtain ⟨j, hj⟩ : ∃ j : Nat, (d₁ + w) + 2 * j = d' := by
    clear hδ hδ2 hUdiag hyc hmdiag hDcost hmmono hg₃ hdbm hy0t hwl hseg₂
    refine ⟨(d' - (d₁ + w)) / 2, ?_⟩
    omega
  have hseg₃ := BSeg.padNB hseg₂ j
  rw [hj] at hseg₃
  clear hseg₂ hg₂ hj
  obtain ⟨j', hj'⟩ : ∃ j' : Nat, D₁ + 2 * j' = d' := by
    clear hyc hcost₁ hw hmmono hdbm hy0t hwl hseg₃ hx0l
    refine ⟨(d' - D₁) / 2, ?_⟩
    omega
  have hm' := FSeg.padNF (show FSeg A B box (box.left, box.top) D₁ (m.1, m.2) from hUm) j'
  rw [hj'] at hm'
  clear hUm hg₃ hj'
  have hdb₃ := BSeg.diagBoundB hseg₃
  have hno := (hist d' (by omega)).2 (c + (box.left - x0)) (m.1 + j') (y0 - j)
    (by dsimp only at hdb₃; omega) (by dsimp only at hdb₃; omega)
    (by omega) hδ
    (by dsimp only at hdbm; omega) (by dsimp only at hdbm; omega)
    (by
      have hcx2 : xOf box (c + (box.left - x0)) (y0 - (j : Int)) = box.left - j := by
        simp only [xOf]; omega
      rw [hcx2]
      exact hseg₃)
    (by
      have hcy : yOf box (c + (box.left - x0) + box.delta) (m.1 + (j' : Int)) = m.2 + j' := by
        simp only [yOf]; omega
      rw [hcy]
      exact hm')
  have : xOf box (c + (box.left - x0)) (y0 - (j : Int)) = box.left - j := by
    simp only [xOf]; omega
  omega

/-- Mirror case: backward overlap point beyond both the left and top
edges. -/
theorem bwdOver_corner {A B : List Nat} {box : Box} {d : Nat} {x0 y0 : Int}
    (hist : ∀ e : Nat, e < d → NoOverF A B box e ∧ NoOverB A B box e)
    (hδ : box.delta % 2 = 0)
    (hB : BSeg A B box (box.right, box.bottom) d (x0, y0))
    (hx0l : x0 < box.left) (hy0t : y0 < box.top)
    (hwl : box.left ≤ box.right) (hht : box.top ≤ box.bottom) :
    False := by
  obtain ⟨yc, d₁, hyc, hseg₁, hcost₁⟩ := BSeg.crossLeft hB (by omega) (by dsimp only; omega)
  by_cases hyct : box.top ≤ yc
  · have hun := @BSeg.upN A B box (box.left, yc) (yc - box.top).toNat
    rw [show yc - ((yc - box.top).toNat : Int) = box.top by omega] at hun
    have hfull := hseg₁.transB hun
    have hconn : Conn A B box (d₁ + (yc - box.top).toNat) :=
      BSeg.reverseB hfull (by dsimp only; omega) (by dsimp only; omega)
    have := conn_ge_even hist hδ hconn
    omega
  · obtain ⟨xc, d₂, hxc, hseg₂, hcost₂⟩ :=
      BSeg.crossTop hseg₁ (by omega) (by dsimp only; omega)
    have hxcl : box.left ≤ xc := le_trans (by omega) hxc
    have hln := @BSeg.leftN A B box (xc, box.top) (xc - box.left).toNat
    rw [show xc - ((xc - box.left).toNat : Int) = box.left by omega] at hln
    have hfull := hseg₂.transB hln
    have hconn : Conn A B box (d₂ + (xc - box.left).toNat) :=
      BSeg.reverseB hfull (by dsimp only; omega) (by dsimp only; omega)
    have := conn_ge_even hist hδ hconn
    omega

set_option maxHeartbeats 600000 in
/-- The out-of-box refutation for a backward overlap point, mirror
image of `fwdPoint_inBox` (both frontiers at depth `d`, even delta). -/
theorem bwdPoint_inBox {A B : List Nat} {box : Box} {d : Nat} {c x0 y0 u : Int}
    (hist : ∀ e : Nat, e < d → NoOverF A B box e ∧ NoOverB A B box e)
    (hw : 0 ≤ box.width) (hh : 0 ≤ box.height)
    (hδ : box.delta % 2 = 0)
    (hB : BSeg A B box (box.right, box.bottom) d (x0, y0))
    (hx0 : x0 = xOf box c y0)
    (hU : FSeg A B box (box.left, box.top) d (u, yOf box (c + box.delta) u)) :
    box.left ≤ x0 ∧ box.top ≤ y0 := by
  have hwl : box.left ≤ box.right := by simp only [Box.width] at hw; omega
  have hht : box.top ≤ box.bottom := by simp only [Box.height] at hh; omega
  have hx0' : x0 = box.left + (y0 - box.top) + (c + box.delta) := hx0
  by_cases hx0l : box.left ≤ x0
  · by_cases hy0t : box.top ≤ y0
    · exact ⟨hx0l, hy0t⟩
    · exact absurd (bwdOver_top hist hδ hB hx0' hU (by omega) hx0l hht) id
  · by_cases hy0t : box.top ≤ y0
    · exact absurd (bwdOver_left hist hδ hB hx0' hU (by omega) hy0t hwl) id
    · exact absurd (bwdOver_corner hist hδ hB (by omega) (by omega) hwl hht) id
